import Mathlib

/-!
# MIDI JSON API: a verification development

Shallow embedding of the MIDI <-> JSON converter service (`app.py`) and of the
MIDI codec it delegates to.  JSON numbers (Python 64-bit floats) are modelled
as exact rationals; Python ints as `Int`; byte streams as `List Nat` with each
byte below 256.  The two HTTP handlers `convert_midi` and `generate_midi` are
translated directly from the source; the binary MIDI codec itself (parsing and
serialization, which the source delegates to the `pretty_midi` library and
which the specification describes in sections 4.1 to 4.5) is modelled from the
specification.  External transport helpers (base64) are passed as parameters.
-/

deriving instance DecidableEq for Except

/-- Round a rational to the nearest integer, halves up.  Models Python's
`round` on the exact rational value (Python rounds ties to even on binary
floats; no statement below depends on tie behaviour). -/
def rnd (x : ℚ) : ℤ := ⌊x + 1 / 2⌋

/-- Round to 3 decimal places: models Python `round(x, 3)` from the source. -/
def round3 (x : ℚ) : ℚ := (rnd (1000 * x) : ℚ) / 1000

/-! ## JSON request shapes

Typed images of the dict shapes the handlers read.  `generate_midi` reads the
keys `tempo_changes`, `time_signatures`, `instruments`, `notes`; an instrument
dict is read through `inst.get("program", 0)`, `inst.get("is_drum", False)`,
`inst.get("notes", [])`.  The `channel` key that the extended JSON shape
carries (decode emits it) is present in the model but, like in the source,
never read by `generate_midi`. -/

/-- One note object `{start, duration, pitch, velocity}` of the JSON payloads. -/
structure NoteJson where
  start : ℚ
  duration : ℚ
  pitch : ℤ
  velocity : ℤ
deriving DecidableEq, Repr

/-- One tempo-change object `{time, tempo}`. -/
structure TempoChangeJson where
  time : ℚ
  tempo : ℚ
deriving DecidableEq, Repr

/-- One time-signature object `{time, numerator, denominator}`. -/
structure TimeSignatureJson where
  time : ℚ
  numerator : ℤ
  denominator : ℤ
deriving DecidableEq, Repr

/-- One instrument object of the extended JSON shape.  All keys optional. -/
structure InstrumentJson where
  program : Option ℤ := none
  is_drum : Option Bool := none
  channel : Option ℤ := none
  notes : Option (List NoteJson) := none
deriving DecidableEq, Repr

/-- The `generate_midi` request body (all keys optional). -/
structure GenerateInput where
  tempo_changes : Option (List TempoChangeJson) := none
  time_signatures : Option (List TimeSignatureJson) := none
  instruments : Option (List InstrumentJson) := none
  notes : Option (List NoteJson) := none
deriving DecidableEq, Repr

/-- The `convert_midi` request body: the `midi_base64` key (absent or a
string; Python treats both `None` and `""` as missing). -/
structure ConvertInput where
  midi_base64 : Option String := none
deriving DecidableEq, Repr

/-! ## The pretty_midi object model

What the wrapper builds (encode) and reads back (decode): notes with absolute
start/end seconds, instruments with program and drum flag (pretty_midi exposes
no channel on instruments), tempo change arrays and time-signature events. -/

/-- A pretty_midi `Note(velocity, pitch, start, end)`. -/
structure PMNote where
  velocity : ℤ
  pitch : ℤ
  start : ℚ
  end_ : ℚ
deriving DecidableEq, Repr

/-- A pretty_midi `Instrument(program, is_drum)` with its notes. -/
structure PMInstrument where
  program : ℤ
  is_drum : Bool
  notes : List PMNote
deriving DecidableEq, Repr

/-- A pretty_midi `TimeSignature(numerator, denominator, time)`. -/
structure PMTimeSignature where
  numerator : ℤ
  denominator : ℤ
  time : ℚ
deriving DecidableEq, Repr

/-- The decoded score as the wrapper reads it: `instruments`,
`get_tempo_changes()` (two parallel arrays), `time_signature_changes`. -/
structure PMScore where
  instruments : List PMInstrument
  tempo_times : List ℚ
  tempos : List ℚ
  time_signature_changes : List PMTimeSignature
deriving DecidableEq, Repr

/-- The in-memory object `generate_midi` hands to the writer: the
`_tempo_changes` attribute (set only when a nonempty list was provided, after
sorting), the appended `time_signature_changes`, and the instruments. -/
structure PMBuild where
  tempo_changes : Option (List TempoChangeJson)
  time_signature_changes : List PMTimeSignature
  instruments : List PMInstrument
deriving DecidableEq, Repr

/-! ## convert_midi output shape and HTTP response model -/

/-- An output note `{start, duration, pitch, velocity}` (rounded fields). -/
structure NoteOut where
  start : ℚ
  duration : ℚ
  pitch : ℤ
  velocity : ℤ
deriving DecidableEq, Repr

/-- An output instrument `{id, program, is_drum, channel, notes}`. -/
structure InstrumentOut where
  id : ℕ
  program : ℤ
  is_drum : Bool
  channel : ℤ
  notes : List NoteOut
deriving DecidableEq, Repr

/-- An output tempo change `{time, tempo}` (both rounded). -/
structure TempoOut where
  time : ℚ
  tempo : ℚ
deriving DecidableEq, Repr

/-- An output time signature `{time, numerator, denominator}`. -/
structure TimeSignatureOut where
  time : ℚ
  numerator : ℤ
  denominator : ℤ
deriving DecidableEq, Repr

/-- The successful `convert_midi` response payload. -/
structure ConvertOut where
  instruments : List InstrumentOut
  tempo_changes : List TempoOut
  time_signatures : List TimeSignatureOut
deriving DecidableEq, Repr

/-- A JSON response body: the decode payload, the encode payload
`{"midi_base64": s}`, or the error payload `{"error": msg}`. -/
inductive ApiBody where
  | convertPayload : ConvertOut → ApiBody
  | midiPayload : String → ApiBody
  | errorPayload : String → ApiBody
deriving DecidableEq, Repr

/-- A `JSONResponse`: HTTP status code and JSON body (status defaults to 200
in FastAPI; the handlers pass 400 explicitly on every error path). -/
structure ApiResponse where
  status : ℕ
  body : ApiBody
deriving DecidableEq, Repr

/-! ## The convert_midi handler (decode direction), from the source

`convert_midi` guards on a missing/empty `midi_base64`, base64-decodes, parses
with `PrettyMIDI(...)`, and serializes the object model to JSON, rounding
start/duration/times/tempi to 3 decimals and reporting channel 9 for drum
instruments and 0 otherwise.  The base64 decoder and the MIDI parser are the
library calls; they are taken as parameters here and instantiated with the
spec-modelled codec where a claim needs them. -/

/-- The instrument/note/tempo/meter serialization of the `try` block of
`convert_midi` (source lines 32 to 75). -/
def convertScore (m : PMScore) : ConvertOut :=
  { instruments := m.instruments.enum.map fun p =>
      { id := p.1
        program := p.2.program
        is_drum := p.2.is_drum
        channel := if p.2.is_drum then 9 else 0
        notes := p.2.notes.map fun n =>
          { start := round3 n.start
            duration := round3 (n.end_ - n.start)
            pitch := n.pitch
            velocity := n.velocity } }
    tempo_changes := (m.tempo_times.zip m.tempos).map fun tc =>
      { time := round3 tc.1, tempo := round3 tc.2 }
    time_signatures := m.time_signature_changes.map fun ts =>
      { time := round3 ts.time
        numerator := ts.numerator
        denominator := ts.denominator } }

/-- The `convert_midi` handler.  `b64decode` models `base64.b64decode` and
`parseMidi` models `pretty_midi.PrettyMIDI(io.BytesIO(...))`; either may fail,
which the handler's `except` clause maps to a 400 error response. -/
def convert_midi (b64decode : String → Except String (List ℕ))
    (parseMidi : List ℕ → Except String PMScore)
    (data : ConvertInput) : ApiResponse :=
  match data.midi_base64 with
  | none => ⟨400, .errorPayload "No base64 MIDI provided."⟩
  | some s =>
    if s = "" then ⟨400, .errorPayload "No base64 MIDI provided."⟩
    else
      match b64decode s with
      | .error e => ⟨400, .errorPayload e⟩
      | .ok bytes =>
        match parseMidi bytes with
        | .error e => ⟨400, .errorPayload e⟩
        | .ok m => ⟨200, .convertPayload (convertScore m)⟩

/-! ## The generate_midi handler (encode direction), from the source -/

/-- A JSON note turned into a pretty_midi `Note`: `end = start + duration`
(source lines 138 to 143 and 155 to 160). -/
def pmNoteOfJson (n : NoteJson) : PMNote :=
  { velocity := n.velocity, pitch := n.pitch
    start := n.start, end_ := n.start + n.duration }

/-- A JSON instrument turned into a pretty_midi `Instrument` (source lines
126 to 144): program and drum flag default to 0 / False; the `channel` key is
never read. -/
def pmInstrumentOfJson (i : InstrumentJson) : PMInstrument :=
  { program := i.program.getD 0
    is_drum := i.is_drum.getD false
    notes := (i.notes.getD []).map pmNoteOfJson }

/-- Python's stable `list.sort(key=lambda x: x["time"])`, modelled by the
stable insertion sort (any two stable sorts by the same key agree). -/
def sortTempoChanges (l : List TempoChangeJson) : List TempoChangeJson :=
  List.insertionSort (fun a b => a.time ≤ b.time) l

/-- The object-building part of `generate_midi` (source lines 98 to 162):
sort and install tempo changes when a nonempty list is given, append time
signatures in caller order, then add instruments; with no `instruments` key a
flat `notes` list goes to one default instrument `Instrument(program=0)`. -/
def buildMidi (data : GenerateInput) : PMBuild :=
  { tempo_changes :=
      match data.tempo_changes with
      | none => none
      | some tcs => if tcs.isEmpty then none else some (sortTempoChanges tcs)
    time_signature_changes :=
      (data.time_signatures.getD []).map fun ts =>
        { numerator := ts.numerator, denominator := ts.denominator
          time := ts.time }
    instruments :=
      match data.instruments with
      | some insts => insts.map pmInstrumentOfJson
      | none =>
        match data.notes with
        | some ns => [{ program := 0, is_drum := false
                        notes := ns.map pmNoteOfJson }]
        | none => [] }

/-- The `generate_midi` handler.  `write` models `midi.write(buffer)` (the
codec's serializer; instantiated with the spec-modelled `writeSMF` below) and
`b64encode` models `base64.b64encode(...).decode("utf-8")`.  Any failure is
mapped to a 400 error response by the `except` clause. -/
def generate_midi (write : PMBuild → Except String (List ℕ))
    (b64encode : List ℕ → String) (data : GenerateInput) : ApiResponse :=
  match write (buildMidi data) with
  | .ok bytes => ⟨200, .midiPayload (b64encode bytes)⟩
  | .error e => ⟨400, .errorPayload e⟩


/-! ## VarLenCodec (spec 4.1)

Modelled from the spec: the source contains no binary MIDI logic (it delegates
to the library); these definitions follow the codec design of the spec.
A MIDI variable-length quantity is big-endian base 128 with the high bit of
every byte but the last set.  `writeVarLen` is total here; the serializer
validates the `0x0FFFFFFF` bound before emitting (spec 4.1 and 4.5). -/

/-- Modelled from the spec: `writeVarLen(value)` (spec 4.1), the big-endian
base-128 encoding, correct for values up to `0x0FFFFFFF`. -/
def writeVarLen (v : ℕ) : List ℕ :=
  if v < 128 then [v]
  else if v < 16384 then [128 + v / 128, v % 128]
  else if v < 2097152 then [128 + v / 16384, 128 + v / 128 % 128, v % 128]
  else [128 + v / 2097152, 128 + v / 16384 % 128, 128 + v / 128 % 128, v % 128]

/-- Helper for `readVarLen`: at most `fuel` bytes remain to be consumed. -/
def readVarLenAux : ℕ → ℕ → List ℕ → Except String (ℕ × List ℕ)
  | _, _, [] => .error "MalformedStream: truncated variable-length quantity"
  | 0, _, _ => .error "MalformedStream: overlong variable-length quantity"
  | fuel + 1, acc, b :: rest =>
    if b < 128 then .ok (128 * acc + b, rest)
    else readVarLenAux fuel (128 * acc + (b - 128)) rest

/-- Modelled from the spec: `readVarLen(stream)` (spec 4.1): reads a
variable-length quantity, failing with `MalformedStream` when the stream ends
early or 4 bytes pass without a terminating byte. -/
def readVarLen : List ℕ → Except String (ℕ × List ℕ) := readVarLenAux 4 0

/-- Big-endian 16-bit field of an SMF header. -/
def u16be (n : ℕ) : List ℕ := [n / 256 % 256, n % 256]

/-- Big-endian 32-bit chunk-length field. -/
def u32be (n : ℕ) : List ℕ :=
  [n / 16777216 % 256, n / 65536 % 256, n / 256 % 256, n % 256]

/-- Reads a big-endian 32-bit field. -/
def readU32 : List ℕ → Except String (ℕ × List ℕ)
  | a :: b :: c :: d :: rest =>
    .ok (16777216 * a + 65536 * b + 256 * c + d, rest)
  | _ => .error "MalformedStream: truncated chunk header"

/-! ## EventStream (spec 4.2), modelled from the spec

The raw events the codec interprets: channel-voice note-on / note-off /
program-change, and the two interpreted meta events (tempo `0x51`,
time signature `0x58`) plus end-of-track.  Other channel-voice events, other
meta events and SysEx are skipped by length during parsing, as the spec
prescribes, and are never emitted by the serializer. -/

/-- A raw MIDI event relevant to the codec. -/
inductive MidiEvent where
  | noteOn (channel pitch velocity : ℕ)
  | noteOff (channel pitch : ℕ)
  | progChange (channel program : ℕ)
  | setTempo (muspq : ℕ)
  | timeSig (nn dd : ℕ)
  | endOfTrack
deriving DecidableEq, Repr

/-- Modelled from the spec: serialization of one event (spec 4.2/4.5).
Note-off release velocity is 0; the time-signature meta carries the standard
clock bytes 24 and 8. -/
def encodeEvent : MidiEvent → List ℕ
  | .noteOn ch p v => [144 + ch, p, v]
  | .noteOff ch p => [128 + ch, p, 0]
  | .progChange ch pr => [192 + ch, pr]
  | .setTempo t => [255, 81, 3, t / 65536 % 256, t / 256 % 256, t % 256]
  | .timeSig nn dd => [255, 88, 4, nn, dd, 24, 8]
  | .endOfTrack => [255, 47, 0]

/-- Modelled from the spec: delta-encodes a tick-sorted event list
(spec 4.5); each event's delta time is its tick minus its predecessor's. -/
def encodeTrackEvents : ℕ → List (ℕ × MidiEvent) → List ℕ
  | _, [] => []
  | prev, (t, e) :: rest =>
    writeVarLen (t - prev) ++ encodeEvent e ++ encodeTrackEvents t rest

/-- Modelled from the spec: an `MTrk` chunk: magic, 32-bit body length, body
(spec 4.2). -/
def trackChunk (events : List (ℕ × MidiEvent)) : List ℕ :=
  let body := encodeTrackEvents 0 events
  [77, 84, 114, 107] ++ u32be body.length ++ body

/-- Modelled from the spec: the `MThd` chunk for a format-1 file at the
wrapped library's default resolution of 220 ticks per quarter note. -/
def headerChunk (ntracks : ℕ) : List ℕ :=
  [77, 84, 104, 100] ++ u32be 6 ++ u16be 1 ++ u16be ntracks ++ u16be 220

/-- Modelled from the spec: the track-body parser (spec 4.2).  Reads a
delta time and one event per step, honours running status for channel-voice
events, interprets tempo and time-signature meta events, skips other meta and
SysEx events by their declared length, and stops at end-of-track.  `fuel`
bounds the number of events; callers pass one more than the byte count, which
suffices since every event consumes at least one byte. -/
def parseEvents : ℕ → Option ℕ → ℕ → List ℕ → Except String (List (ℕ × MidiEvent))
  | 0, _, _, _ => .error "MalformedStream: unterminated track"
  | fuel + 1, running, tick, bytes =>
    match readVarLen bytes with
    | .error e => .error e
    | .ok (delta, rest) =>
      match rest with
      | [] => .error "MalformedStream: truncated event"
      | b :: rest2 =>
        let t := tick + delta
        if b = 255 then
          match rest2 with
          | 81 :: 3 :: x :: y :: z :: rest3 =>
            (List.cons (t, .setTempo (65536 * x + 256 * y + z))) <$>
              parseEvents fuel none t rest3
          | 88 :: 4 :: nn :: dd :: _ :: _ :: rest3 =>
            (List.cons (t, .timeSig nn dd)) <$> parseEvents fuel none t rest3
          | 47 :: 0 :: _ => .ok [(t, .endOfTrack)]
          | _ :: len :: rest3 =>
            if len ≤ rest3.length then parseEvents fuel none t (rest3.drop len)
            else .error "MalformedStream: meta event overruns track"
          | _ => .error "MalformedStream: truncated meta event"
        else if b = 240 ∨ b = 247 then
          match readVarLen rest2 with
          | .error e => .error e
          | .ok (len, rest3) =>
            if len ≤ rest3.length then parseEvents fuel none t (rest3.drop len)
            else .error "MalformedStream: SysEx event overruns track"
        else
          match (if 128 ≤ b then some b else running) with
          | none => .error "MalformedStream: data byte with no running status"
          | some st =>
            let rest2' := if 128 ≤ b then rest2 else b :: rest2
            let ch := st % 16
            match st / 16, rest2' with
            | 8, p :: _ :: rest3 =>
              (List.cons (t, .noteOff ch p)) <$> parseEvents fuel (some st) t rest3
            | 9, p :: v :: rest3 =>
              (List.cons (t, .noteOn ch p v)) <$> parseEvents fuel (some st) t rest3
            | 10, _ :: _ :: rest3 => parseEvents fuel (some st) t rest3
            | 11, _ :: _ :: rest3 => parseEvents fuel (some st) t rest3
            | 12, pr :: rest3 =>
              (List.cons (t, .progChange ch pr)) <$> parseEvents fuel (some st) t rest3
            | 13, _ :: rest3 => parseEvents fuel (some st) t rest3
            | 14, _ :: _ :: rest3 => parseEvents fuel (some st) t rest3
            | _, _ => .error "MalformedStream: bad or truncated channel event"

/-- Parses one track body (the bytes of one `MTrk` chunk). -/
def parseTrack (bytes : List ℕ) : Except String (List (ℕ × MidiEvent)) :=
  parseEvents (bytes.length + 1) none 0 bytes

/-- The parsed image of an SMF file: format, ticks-per-quarter resolution,
and per-track event lists with absolute tick times. -/
structure ParsedSMF where
  format : ℕ
  division : ℕ
  tracks : List (List (ℕ × MidiEvent))
deriving DecidableEq, Repr

/-- Modelled from the spec: reads `n` length-prefixed `MTrk` chunks
(spec 4.2), failing with `MalformedStream` on a wrong magic or when a chunk
overruns the input. -/
def parseTracks : ℕ → List ℕ → Except String (List (List (ℕ × MidiEvent)))
  | 0, _ => .ok []
  | n + 1, bytes =>
    match bytes with
    | 77 :: 84 :: 114 :: 107 :: rest =>
      match readU32 rest with
      | .error e => .error e
      | .ok (len, rest2) =>
        if len ≤ rest2.length then
          match parseTrack (rest2.take len) with
          | .error e => .error e
          | .ok evs => (List.cons evs) <$> parseTracks n (rest2.drop len)
        else .error "MalformedStream: track chunk overruns input"
    | _ => .error "MalformedStream: expected MTrk chunk"

/-- Modelled from the spec: validates the `MThd` chunk (magic, length 6,
format 0/1/2, track count, resolution) and parses every track (spec 4.2). -/
def parseSMF (bytes : List ℕ) : Except String ParsedSMF :=
  match bytes with
  | 77 :: 84 :: 104 :: 100 :: rest =>
    match readU32 rest with
    | .error e => .error e
    | .ok (hlen, rest2) =>
      if hlen = 6 then
        match rest2 with
        | f1 :: f0 :: n1 :: n0 :: d1 :: d0 :: rest3 =>
          if 256 * f1 + f0 ≤ 2 then
            (fun ts => ⟨256 * f1 + f0, 256 * d1 + d0, ts⟩) <$>
              parseTracks (256 * n1 + n0) rest3
          else .error "UnsupportedFeature: unknown SMF format"
        | _ => .error "MalformedStream: truncated header"
      else .error "MalformedStream: bad header length"
  | _ => .error "MalformedStream: bad header magic"

/-! ## TimeMap, decode direction (spec 4.3)

Modelled from the spec: tick-to-seconds conversion over the tempo events read
from the file.  A tempo event `(tick, muspq)` makes seconds advance at
`muspq / (10^6 * division)` seconds per tick from that tick on; an implicit
initial tempo of 120 BPM (500000 microseconds per quarter) applies at tick 0
when no event sits there. -/

/-- Seconds per tick at `muspq` microseconds per quarter note. -/
def sptOfMuspq (division muspq : ℕ) : ℚ := (muspq : ℚ) / (1000000 * division)

/-- The tempo events of all tracks, merged (format-1 global timeline,
spec 4.2), in file order. -/
def tempoEventsOf (tracks : List (List (ℕ × MidiEvent))) : List (ℕ × ℕ) :=
  tracks.flatMap fun tr =>
    tr.filterMap fun te =>
      match te.2 with
      | .setTempo mu => some (te.1, mu)
      | _ => none

/-- The time-signature events of all tracks, merged, in file order. -/
def timeSigEventsOf (tracks : List (List (ℕ × MidiEvent))) : List (ℕ × ℕ × ℕ) :=
  tracks.flatMap fun tr =>
    tr.filterMap fun te =>
      match te.2 with
      | .timeSig nn dd => some (te.1, nn, dd)
      | _ => none

/-- Prepends the implicit initial 120 BPM tempo change (500000 microseconds
per quarter) at tick 0 when no change sits there (spec 3, TempoChange). -/
def withDefaultTempo : List (ℕ × ℕ) → List (ℕ × ℕ)
  | (0, mu) :: rest => (0, mu) :: rest
  | evs => (0, 500000) :: evs

/-- Tick-sorted tempo events with the implicit initial 120 BPM change at
tick 0 when none is present (spec 3, TempoChange). -/
def tempoMapOf (tracks : List (List (ℕ × MidiEvent))) : List (ℕ × ℕ) :=
  withDefaultTempo
    (List.insertionSort (fun a b : ℕ × ℕ => a.1 ≤ b.1) (tempoEventsOf tracks))

/-- Walks the sorted tempo segments: converts an absolute tick to seconds
(spec 4.3).  Arguments: elapsed seconds and tick at the current segment
start, the current seconds-per-tick, the remaining changes, the target. -/
def secOfTickAux (division : ℕ) : ℚ → ℕ → ℕ → List (ℕ × ℕ) → ℕ → ℚ
  | sec, segTick, muspq, [], t => sec + (t - segTick : ℤ) * sptOfMuspq division muspq
  | sec, segTick, muspq, (tick2, mu2) :: rest, t =>
    if t < tick2 then sec + (t - segTick : ℤ) * sptOfMuspq division muspq
    else secOfTickAux division
      (sec + (tick2 - segTick : ℤ) * sptOfMuspq division muspq) tick2 mu2 rest t

/-- Modelled from the spec: the monotone tick-to-seconds conversion of the
TimeMap (spec 4.3), built from the file's merged tempo events. -/
def secOfTick (division : ℕ) (tempoMap : List (ℕ × ℕ)) (t : ℕ) : ℚ :=
  match tempoMap with
  | (0, mu) :: rest => secOfTickAux division 0 0 mu rest t
  | _ => secOfTickAux division 0 0 500000 tempoMap t

/-! ## NoteAssembler (spec 4.4), modelled from the spec

Per track: a FIFO queue of open note-ons per (channel, pitch); a note-off or
velocity-0 note-on closes the oldest open note on that key, an unmatched one
is dropped; a program change updates the channel's running program (default
0); still-open notes are force-closed at the track's final tick.  Completed
notes carry the channel and the program in force when they started; finished
notes are grouped into one instrument per (channel, program) in order of
first appearance, with `is_drum` inferred from channel 9. -/

/-- The assembler state: open-note FIFO queues per (channel, pitch) holding
(start tick, note-on velocity, program at start), the running program per
channel, and completed `(channel, program, note)` records in completion
order. -/
structure AsmState where
  openNotes : ℕ → ℕ → List (ℕ × ℕ × ℕ)
  prog : ℕ → ℕ
  doneNotes : List (ℕ × ℕ × PMNote)

/-- The empty assembler state. -/
def asmInit : AsmState := ⟨fun _ _ => [], fun _ => 0, []⟩

/-- Closes the oldest open note on `(ch, p)` at tick `t`, if any. -/
def closeNote (division : ℕ) (tm : List (ℕ × ℕ)) (st : AsmState)
    (ch p t : ℕ) : AsmState :=
  match st.openNotes ch p with
  | [] => st
  | (t0, v0, pr0) :: rest =>
    { openNotes := fun c q => if c = ch ∧ q = p then rest else st.openNotes c q
      prog := st.prog
      doneNotes := st.doneNotes ++
        [(ch, pr0, ⟨v0, p, secOfTick division tm t0, secOfTick division tm t⟩)] }

/-- One assembler step (spec 4.4). -/
def asmStep (division : ℕ) (tm : List (ℕ × ℕ)) (st : AsmState) :
    ℕ × MidiEvent → AsmState
  | (t, .noteOn ch p v) =>
    if v = 0 then closeNote division tm st ch p t
    else
      { openNotes := fun c q =>
          if c = ch ∧ q = p then st.openNotes ch p ++ [(t, v, st.prog ch)]
          else st.openNotes c q
        prog := st.prog
        doneNotes := st.doneNotes }
  | (t, .noteOff ch p) => closeNote division tm st ch p t
  | (_, .progChange ch pr) =>
    { openNotes := st.openNotes
      prog := fun c => if c = ch then pr else st.prog c
      doneNotes := st.doneNotes }
  | (_, .setTempo _) => st
  | (_, .timeSig _ _) => st
  | (_, .endOfTrack) => st

/-- The final tick of a track (0 for an empty track). -/
def finalTick (track : List (ℕ × MidiEvent)) : ℕ :=
  track.foldl (fun m te => max m te.1) 0

/-- The (channel, pitch) keys of a track's note-on events: a superset of the
keys that can still hold open notes at end of stream. -/
def noteOnKeys (track : List (ℕ × MidiEvent)) : List (ℕ × ℕ) :=
  track.filterMap fun te =>
    match te.2 with
    | .noteOn ch p _ => some (ch, p)
    | _ => none

/-- Force-closes every still-open note at tick `t`, sweeping the given keys
(spec 4.4, `UnterminatedNote` tolerance).  Closing an empty key is a no-op,
so sweeping the note-on keys of the track once per event closes everything. -/
def asmFlush (division : ℕ) (tm : List (ℕ × ℕ)) (t : ℕ)
    (keys : List (ℕ × ℕ)) (st : AsmState) : AsmState :=
  keys.foldl (fun s kp => closeNote division tm s kp.1 kp.2 t) st

/-- Runs the assembler over one track's events. -/
def assembleTrack (division : ℕ) (tm : List (ℕ × ℕ))
    (track : List (ℕ × MidiEvent)) : List (ℕ × ℕ × PMNote) :=
  (asmFlush division tm (finalTick track) (noteOnKeys track)
    (track.foldl (asmStep division tm) asmInit)).doneNotes

/-- Groups a track's completed `(channel, program, note)` records into
instruments, one per (channel, program) in order of first appearance;
`is_drum` is inferred from channel 9 (spec 4.4, General MIDI convention). -/
def groupInstruments (notes : List (ℕ × ℕ × PMNote)) : List PMInstrument :=
  ((notes.map fun x => (x.1, x.2.1)).dedup).map fun k =>
    { program := k.2
      is_drum := k.1 = 9
      notes := (notes.filter fun x => x.1 = k.1 ∧ x.2.1 = k.2).map fun x => x.2.2 }

/-- The decoded score of a parsed file: tempo arrays from the merged tempo
map (times through the TimeMap, tempi back in BPM), time signatures with the
denominator reconstructed from its stored log2, and per-track instruments. -/
def scoreOfParsed (p : ParsedSMF) : PMScore :=
  let tm := tempoMapOf p.tracks
  { instruments := p.tracks.flatMap fun tr =>
      groupInstruments (assembleTrack p.division tm tr)
    tempo_times := tm.map fun te => secOfTick p.division tm te.1
    tempos := tm.map fun te => (60000000 : ℚ) / te.2
    time_signature_changes := (timeSigEventsOf p.tracks).map fun ts =>
      { numerator := (ts.2.1 : ℤ)
        denominator := 2 ^ ts.2.2
        time := secOfTick p.division tm ts.1 } }

/-- Modelled from the spec: `decode(bytes)` (spec 6), the composition of the
EventStream parser, TimeMap and NoteAssembler. -/
def decodeScore (bytes : List ℕ) : Except String PMScore :=
  scoreOfParsed <$> parseSMF bytes

/-! ## Serializer (spec 4.5), modelled from the spec

Encode-side TimeMap: seconds-to-ticks over the caller's tempo changes (in
BPM, times in seconds), at the fixed resolution 220 the wrapped library uses;
an implicit initial 120 BPM segment applies when no change sits at time 0.
The serializer emits one conductor track carrying all tempo and
time-signature meta events plus one track per instrument; events within a
track are sorted by tick, ties broken meta before note-off before note-on;
all `ValueOutOfRange` validation happens before any bytes are assembled. -/

/-- The fixed ticks-per-quarter resolution of the wrapped library. -/
def RESOLUTION : ℕ := 220

/-- The General MIDI drum channel. -/
def DRUM_CHANNEL : ℕ := 9

/-- The default program (Acoustic Grand Piano). -/
def DEFAULT_PROGRAM : ℤ := 0

/-- The tempo segments the encoder works from: the sorted caller list, with
an implicit initial 120 BPM change at time 0 when none is given there
(spec 3, TempoChange). -/
def buildTempoSegments (b : PMBuild) : List (ℚ × ℚ) :=
  match b.tempo_changes with
  | none => [(0, 120)]
  | some tcs =>
    match tcs.map (fun tc => (tc.time, tc.tempo)) with
    | [] => [(0, 120)]
    | (t0, x0) :: rest => if t0 = 0 then (t0, x0) :: rest else (0, 120) :: (t0, x0) :: rest

/-- Ticks per second at `bpm` beats per minute (spec 4.3: seconds advance at
`60 / (tempo * resolution)` seconds per tick). -/
def ticksPerSec (bpm : ℚ) : ℚ := bpm * RESOLUTION / 60

/-- Walks the tempo segments: converts seconds to an exact (rational) tick
(spec 4.3, the seconds-space search). -/
def exactTickAux : ℚ → ℚ → ℚ → List (ℚ × ℚ) → ℚ → ℚ
  | segTick, segTime, bpm, [], s => segTick + (s - segTime) * ticksPerSec bpm
  | segTick, segTime, bpm, (t1, bpm1) :: rest, s =>
    if s < t1 then segTick + (s - segTime) * ticksPerSec bpm
    else exactTickAux (segTick + (t1 - segTime) * ticksPerSec bpm) t1 bpm1 rest s

/-- Modelled from the spec: the seconds-to-ticks conversion (spec 4.3),
rounding to the nearest integer tick. -/
def tickOfSec (segs : List (ℚ × ℚ)) (s : ℚ) : ℕ :=
  match segs with
  | (t0, bpm0) :: rest =>
    if t0 = 0 then (rnd (exactTickAux 0 0 bpm0 rest s)).toNat
    else (rnd (exactTickAux 0 0 120 ((t0, bpm0) :: rest) s)).toNat
  | [] => (rnd (exactTickAux 0 0 120 [] s)).toNat

/-- Microseconds per quarter note stored in a tempo meta event. -/
def muspqOfTempo (bpm : ℚ) : ℕ := (rnd (60000000 / bpm)).toNat

/-- The log2 of a power-of-two denominator, as the SMF meta event stores it. -/
def pow2Log (n : ℤ) : Option ℕ :=
  (List.range 31).findSome? fun k => if n = 2 ^ k then some k else none

/-- Event-kind priority for tick ties: meta and program changes before
note-offs before note-ons (spec 4.5). -/
def evPrio : MidiEvent → ℕ
  | .noteOff _ _ => 1
  | .noteOn _ _ _ => 2
  | _ => 0

/-- The within-track event order: by tick, ties by kind priority. -/
def evLE (a b : ℕ × MidiEvent) : Prop :=
  a.1 < b.1 ∨ (a.1 = b.1 ∧ evPrio a.2 ≤ evPrio b.2)

instance : DecidableRel evLE := fun a b => by
  unfold evLE; infer_instance

/-- The non-drum channels, in assignment order (channel 9 is reserved for
drums); non-drum instruments cycle through them by position. -/
def nonDrumChannels : List ℕ := [0, 1, 2, 3, 4, 5, 6, 7, 8, 10, 11, 12, 13, 14, 15]

/-- The channel assigned to each instrument: 9 for drums regardless of any
requested channel, the next non-drum channel otherwise. -/
def channelsFor : ℕ → List PMInstrument → List ℕ
  | _, [] => []
  | k, i :: rest =>
    if i.is_drum then DRUM_CHANNEL :: channelsFor k rest
    else nonDrumChannels.getD (k % 15) 0 :: channelsFor (k + 1) rest

/-- The last tick among a list of timed events (0 when empty). -/
def lastTickOf (evs : List (ℕ × MidiEvent)) : ℕ :=
  evs.foldl (fun m te => max m te.1) 0

/-- The conductor track's tempo meta events, one per segment. -/
def condTempoEvents (b : PMBuild) : List (ℕ × MidiEvent) :=
  (buildTempoSegments b).map fun seg =>
    (tickOfSec (buildTempoSegments b) seg.1, MidiEvent.setTempo (muspqOfTempo seg.2))

/-- The conductor track's time-signature meta events. -/
def condTimeSigEvents (b : PMBuild) : List (ℕ × MidiEvent) :=
  b.time_signature_changes.map fun ts =>
    (tickOfSec (buildTempoSegments b) ts.time,
     MidiEvent.timeSig ts.numerator.toNat ((pow2Log ts.denominator).getD 0))

/-- The conductor track's sorted meta-event body. -/
def conductorEvents (b : PMBuild) : List (ℕ × MidiEvent) :=
  List.insertionSort evLE (condTempoEvents b ++ condTimeSigEvents b)

/-- The conductor track: tempo and time-signature meta events, tick-sorted,
closed by end-of-track (spec 4.5). -/
def conductorTrack (b : PMBuild) : List (ℕ × MidiEvent) :=
  conductorEvents b ++ [(lastTickOf (conductorEvents b), .endOfTrack)]

/-- An instrument's program-change event, emitted when the program differs
from the default (spec 4.5). -/
def instPcEvents (ch : ℕ) (inst : PMInstrument) : List (ℕ × MidiEvent) :=
  if inst.program = DEFAULT_PROGRAM then []
  else [(0, .progChange ch inst.program.toNat)]

/-- An instrument's note-on/note-off event pairs through the TimeMap. -/
def instNoteEvents (segs : List (ℚ × ℚ)) (ch : ℕ) (inst : PMInstrument) :
    List (ℕ × MidiEvent) :=
  inst.notes.flatMap fun n =>
    [(tickOfSec segs n.start, MidiEvent.noteOn ch n.pitch.toNat n.velocity.toNat),
     (tickOfSec segs n.end_, MidiEvent.noteOff ch n.pitch.toNat)]

/-- An instrument track's sorted event body. -/
def instrumentEvents (segs : List (ℚ × ℚ)) (ch : ℕ) (inst : PMInstrument) :
    List (ℕ × MidiEvent) :=
  List.insertionSort evLE (instPcEvents ch inst ++ instNoteEvents segs ch inst)

/-- One instrument's track: an optional program change at tick 0 (emitted
when the program differs from the default), the interleaved note-on/note-off
pairs through the TimeMap, tick-sorted, closed by end-of-track (spec 4.5). -/
def instrumentTrack (segs : List (ℚ × ℚ)) (ch : ℕ) (inst : PMInstrument) :
    List (ℕ × MidiEvent) :=
  instrumentEvents segs ch inst ++
    [(lastTickOf (instrumentEvents segs ch inst), .endOfTrack)]

/-- All tracks of the encoded file: the conductor first, then one track per
instrument (format 1, spec 4.5). -/
def midiTracks (b : PMBuild) : List (List (ℕ × MidiEvent)) :=
  conductorTrack b ::
    ((b.instruments.zip (channelsFor 0 b.instruments)).map fun ic =>
      instrumentTrack (buildTempoSegments b) ic.2 ic.1)

/-- Domain check for one note (spec 3): pitch and velocity in 0..127,
start nonnegative and finite, duration positive. -/
def validNote (n : PMNote) : Bool :=
  0 ≤ n.pitch && n.pitch ≤ 127 && 0 ≤ n.velocity && n.velocity ≤ 127 &&
  0 ≤ n.start && n.start < n.end_

/-- Domain check for one instrument (spec 3): program in 0..127 and every
note valid. -/
def validInstrument (i : PMInstrument) : Bool :=
  0 ≤ i.program && i.program ≤ 127 && i.notes.all validNote

/-- Domain check for one tempo change (spec 3): time nonnegative, tempo
positive, and the microseconds-per-quarter value fits its 3-byte field. -/
def validTempoChange (tc : TempoChangeJson) : Bool :=
  0 ≤ tc.time && 0 < tc.tempo &&
  1 ≤ muspqOfTempo tc.tempo && muspqOfTempo tc.tempo ≤ 16777215

/-- Domain check for one time signature (spec 3): time nonnegative, positive
numerator within its byte, power-of-two denominator. -/
def validTimeSig (ts : PMTimeSignature) : Bool :=
  0 ≤ ts.time && 1 ≤ ts.numerator && ts.numerator ≤ 255 &&
  (pow2Log ts.denominator).isSome

/-- Every tick of a track fits the variable-length bound `0x0FFFFFFF`
(spec 4.1). -/
def trackTicksOK (tr : List (ℕ × MidiEvent)) : Bool :=
  tr.all fun te => te.1 ≤ 268435455

/-- A track body's byte count fits its 32-bit chunk-length field. -/
def trackLenOK (tr : List (ℕ × MidiEvent)) : Bool :=
  (encodeTrackEvents 0 tr).length < 4294967296

/-- Modelled from the spec: the all-or-nothing validation the serializer
runs before writing anything (spec 4.5): every field checked against its
spec-3 domain, plus the two byte-format bounds.  Returns the first
`ValueOutOfRange` message, or `none` when the build is encodable. -/
def validateBuild (b : PMBuild) : Option String :=
  if !((b.tempo_changes.getD []).all validTempoChange) then
    some "ValueOutOfRange: tempo change out of domain"
  else if !(b.time_signature_changes.all validTimeSig) then
    some "ValueOutOfRange: time signature out of domain"
  else if !(b.instruments.all validInstrument) then
    some "ValueOutOfRange: instrument or note field out of domain"
  else if !((midiTracks b).all fun tr => trackTicksOK tr && trackLenOK tr) then
    some "ValueOutOfRange: value overflows its byte field"
  else if 65535 < (midiTracks b).length then
    some "ValueOutOfRange: track count overflows its 16-bit field"
  else none

/-- Modelled from the spec: `encode(Score)` (spec 4.5 and 6), the serializer
behind `midi.write(buffer)`: validate everything first, then emit the header
chunk and every track chunk.  No bytes exist on any error path. -/
def writeSMF (b : PMBuild) : Except String (List ℕ) :=
  match validateBuild b with
  | some e => .error e
  | none =>
    .ok (headerChunk (midiTracks b).length ++ (midiTracks b).flatMap trackChunk)

/-! ## Claim theorems -/

/-- C9: a `convert_midi` request whose `midi_base64` is absent, null or empty
is answered with HTTP 400 and body `{"error": "No base64 MIDI provided."}`,
whatever the base64 decoder and MIDI parser would do — neither is invoked. -/
theorem missing_base64_rejected
    (b64decode : String → Except String (List ℕ))
    (parseMidi : List ℕ → Except String PMScore) (data : ConvertInput)
    (h : data.midi_base64 = none ∨ data.midi_base64 = some "") :
    convert_midi b64decode parseMidi data =
      ⟨400, .errorPayload "No base64 MIDI provided."⟩ := by
  rcases h with h | h <;> simp [convert_midi, h]

/-- Witness for C9 at a concrete request with the key absent. -/
theorem missing_base64_rejected_witness :
    convert_midi (fun _ => .error "unused") (fun _ => .error "unused") ⟨none⟩ =
      ⟨400, .errorPayload "No base64 MIDI provided."⟩ :=
  missing_base64_rejected _ _ ⟨none⟩ (Or.inl rfl)

/-- C7: decode is deterministic: `convert_midi` applied twice to the same
bytes (with the same parser) yields identical responses; the handler reads
nothing but its arguments. -/
theorem convert_midi_deterministic
    (b64decode : String → Except String (List ℕ))
    (parseMidi : List ℕ → Except String PMScore) (d₁ d₂ : ConvertInput)
    (h : d₁ = d₂) :
    convert_midi b64decode parseMidi d₁ = convert_midi b64decode parseMidi d₂ := by
  rw [h]

/-- Witness for C7 at a concrete request, decoded twice. -/
theorem convert_midi_deterministic_witness :
    convert_midi (fun _ => .ok [1]) (fun _ => .error "bad data") ⟨some "AQ=="⟩ =
      convert_midi (fun _ => .ok [1]) (fun _ => .error "bad data") ⟨some "AQ=="⟩ :=
  convert_midi_deterministic _ _ _ _ rfl

/-- C8: whenever either handler does not succeed, the response is exactly
HTTP 400 with body `{"error": msg}` for some message; the error body carries
no score and no byte payload (the `ApiBody` constructors are disjoint). -/
theorem errors_are_400_with_error_body
    (b64decode : String → Except String (List ℕ))
    (parseMidi : List ℕ → Except String PMScore)
    (write : PMBuild → Except String (List ℕ)) (b64encode : List ℕ → String)
    (dataC : ConvertInput) (dataG : GenerateInput) :
    ((convert_midi b64decode parseMidi dataC).status ≠ 200 →
      ∃ msg, convert_midi b64decode parseMidi dataC = ⟨400, .errorPayload msg⟩) ∧
    ((generate_midi write b64encode dataG).status ≠ 200 →
      ∃ msg, generate_midi write b64encode dataG = ⟨400, .errorPayload msg⟩) := by
  constructor
  · intro hc
    unfold convert_midi at hc ⊢
    rcases dataC with ⟨_ | s⟩
    · exact ⟨_, rfl⟩
    · by_cases hs : s = ""
      · exact ⟨"No base64 MIDI provided.", by simp [hs]⟩
      · rcases hb : b64decode s with e | bytes
        · exact ⟨e, by simp [hs, hb]⟩
        · rcases hp : parseMidi bytes with e | m
          · exact ⟨e, by simp [hs, hb, hp]⟩
          · exact absurd (by simp [hs, hb, hp]) hc
  · intro hg
    unfold generate_midi at hg ⊢
    rcases hw : write (buildMidi dataG) with e | bytes
    · exact ⟨e, by simp [hw]⟩
    · exact absurd (by simp [hw]) hg

/-- Witness for C8: a failing decode call and a failing encode call. -/
theorem errors_are_400_with_error_body_witness :
    (∃ msg, convert_midi (fun _ => Except.error "bad base64")
        (fun _ => Except.error "unused") ⟨some "!!"⟩ = ⟨400, .errorPayload msg⟩) ∧
    (∃ msg, generate_midi (fun _ => Except.error "write failed")
        (fun _ => "") {} = ⟨400, .errorPayload msg⟩) :=
  ⟨(errors_are_400_with_error_body (fun _ => Except.error "bad base64")
      (fun _ => Except.error "unused") (fun _ => Except.error "write failed")
      (fun _ => "") ⟨some "!!"⟩ {}).1 (by simp [convert_midi]),
   (errors_are_400_with_error_body (fun _ => Except.error "bad base64")
      (fun _ => Except.error "unused") (fun _ => Except.error "write failed")
      (fun _ => "") ⟨some "!!"⟩ {}).2 (by simp [generate_midi])⟩

/-- C6: with no `instruments` key and a flat `notes` list, `generate_midi`
builds exactly one default instrument: program 0 (`DEFAULT_PROGRAM`), not a
drum, holding every note with `end = start + duration`. -/
theorem flat_notes_default_instrument (data : GenerateInput) (ns : List NoteJson)
    (h1 : data.instruments = none) (h2 : data.notes = some ns) :
    (buildMidi data).instruments =
      [{ program := DEFAULT_PROGRAM, is_drum := false,
         notes := ns.map fun n =>
           { velocity := n.velocity, pitch := n.pitch
             start := n.start, end_ := n.start + n.duration } }] := by
  simp [buildMidi, h1, h2, DEFAULT_PROGRAM, pmNoteOfJson]

/-- Witness for C6 at a concrete flat request with one note. -/
theorem flat_notes_default_instrument_witness :
    (buildMidi { notes := some [⟨0, 2, 60, 100⟩] }).instruments =
      [{ program := DEFAULT_PROGRAM, is_drum := false,
         notes := [{ velocity := 100, pitch := 60, start := 0, end_ := 0 + 2 }] }] :=
  flat_notes_default_instrument _ [⟨0, 2, 60, 100⟩] rfl rfl

/-- C4 counterexample input: two time signatures given in reverse time
order (and no other keys). -/
def c4Input : GenerateInput :=
  { time_signatures := some [⟨1, 4, 4⟩, ⟨0, 3, 4⟩] }

/-- C4 counterexample: `generate_midi` does not sort `time_signatures`; the
collection of the built score keeps the caller's (unsorted) order, so the
claimed invariant fails on this concrete input. -/
theorem encode_timesig_unsorted_counterexample :
    (buildMidi c4Input).time_signature_changes =
      [⟨4, 4, 1⟩, ⟨3, 4, 0⟩] ∧
    ¬ (buildMidi c4Input).time_signature_changes.Sorted
        (fun a b => a.time ≤ b.time) := by
  constructor
  · rfl
  · intro h
    have := List.rel_of_sorted_cons h ⟨3, 4, 0⟩ (by simp)
    simp at this
    exact absurd this (by decide)

/-- C4 amended: `generate_midi` sorts `tempo_changes` by time (stably;
duplicate timestamps are kept, not removed), while `time_signatures` are
appended in caller order, unsorted. -/
theorem encode_sorts_tempo_not_timesig (data : GenerateInput) :
    (∀ tcs, (buildMidi data).tempo_changes = some tcs →
      tcs.Sorted fun a b => a.time ≤ b.time) ∧
    (buildMidi data).time_signature_changes =
      (data.time_signatures.getD []).map fun ts =>
        ⟨ts.numerator, ts.denominator, ts.time⟩ := by
  constructor
  · intro tcs htcs
    rcases hdat : data.tempo_changes with _ | l
    · simp [buildMidi, hdat] at htcs
    · by_cases hl : l.isEmpty
      · simp [buildMidi, hdat, hl] at htcs
      · have : tcs = sortTempoChanges l := by
          simp [buildMidi, hdat, hl] at htcs; exact htcs.symm
        subst this
        unfold sortTempoChanges
        haveI : IsTotal TempoChangeJson (fun a b => a.time ≤ b.time) :=
          ⟨fun a b => le_total a.time b.time⟩
        haveI : IsTrans TempoChangeJson (fun a b => a.time ≤ b.time) :=
          ⟨fun _ _ _ h1 h2 => le_trans h1 h2⟩
        exact List.sorted_insertionSort _ l
  · simp [buildMidi]

/-- Witness for C4 (amended) at a concrete input with unsorted tempi. -/
theorem encode_sorts_tempo_not_timesig_witness :
    (buildMidi { tempo_changes := some [⟨3, 90⟩, ⟨0, 120⟩] }).tempo_changes =
      some [⟨0, 120⟩, ⟨3, 90⟩] ∧
    ([⟨0, 120⟩, ⟨3, 90⟩] : List TempoChangeJson).Sorted
      (fun a b => a.time ≤ b.time) :=
  ⟨by decide,
   (encode_sorts_tempo_not_timesig { tempo_changes := some [⟨3, 90⟩, ⟨0, 120⟩] }).1
     [⟨0, 120⟩, ⟨3, 90⟩] (by decide)⟩

/-- Rewrites the (never-read) `channel` key of every instrument of a request;
used to state that `generate_midi` ignores requested channels. -/
def setChannels (f : InstrumentJson → Option ℤ) (data : GenerateInput) :
    GenerateInput :=
  { data with
    instruments :=
      data.instruments.map (fun l => l.map fun i => { i with channel := f i }) }

/-- Every position of the non-drum channel table avoids channel 9. -/
theorem nonDrumChannels_ne_nine (k : ℕ) : nonDrumChannels.getD (k % 15) 0 ≠ 9 := by
  have hk : k % 15 < 15 := Nat.mod_lt _ (by norm_num)
  have : ∀ j, j < 15 → nonDrumChannels.getD j 0 ≠ 9 := by decide
  exact this _ hk

/-- C3: the drum-channel convention.  (1) The serializer assigns channel 9 to
every drum instrument and never assigns channel 9 to a non-drum instrument;
(2) `generate_midi` ignores any requested `channel` field, so the assignment
holds regardless of it; (3) a decoded instrument's `is_drum` flag is exactly
"its notes were read from channel 9"; (4) the decode output reports channel 9
exactly for drum instruments. -/
theorem drum_channel_convention :
    (∀ (k : ℕ) (insts : List PMInstrument) (i : PMInstrument) (c : ℕ),
      (i, c) ∈ insts.zip (channelsFor k insts) →
        (i.is_drum = true → c = DRUM_CHANNEL) ∧
        (i.is_drum = false → c ≠ DRUM_CHANNEL)) ∧
    (∀ (f : InstrumentJson → Option ℤ) (data : GenerateInput),
      buildMidi (setChannels f data) = buildMidi data) ∧
    (∀ (recs : List (ℕ × ℕ × PMNote)) (inst : PMInstrument),
      inst ∈ groupInstruments recs →
        ∃ ch prog : ℕ, (ch, prog) ∈ recs.map (fun x => (x.1, x.2.1)) ∧
          inst.program = (prog : ℤ) ∧ (inst.is_drum = true ↔ ch = DRUM_CHANNEL)) ∧
    (∀ (m : PMScore) (io : InstrumentOut), io ∈ (convertScore m).instruments →
      (io.channel = 9 ↔ io.is_drum = true)) := by
  refine ⟨?_, ?_, ?_, ?_⟩
  · intro k insts
    induction insts generalizing k with
    | nil => intro i c h; simp [channelsFor] at h
    | cons hd tl ih =>
      intro i c h
      by_cases hd9 : hd.is_drum = true
      · simp only [channelsFor, hd9, if_true] at h
        rcases List.mem_cons.mp h with h | h
        · injection h with h1 h2; subst h1; subst h2
          exact ⟨fun _ => rfl, fun hfalse => (by rw [hd9] at hfalse; cases hfalse)⟩
        · exact ih k i c h
      · rw [Bool.not_eq_true] at hd9
        simp only [channelsFor, hd9, Bool.false_eq_true, if_false] at h
        rcases List.mem_cons.mp h with h | h
        · injection h with h1 h2; subst h1; subst h2
          exact ⟨fun htrue => (by rw [hd9] at htrue; cases htrue),
                 fun _ => nonDrumChannels_ne_nine k⟩
        · exact ih (k + 1) i c h
  · intro f data
    rcases data with ⟨tc, ts, insts, ns⟩
    rcases insts with _ | l
    · rfl
    · unfold buildMidi setChannels
      simp only [Option.map_some']
      congr 1
      rw [List.map_map]
      exact List.map_congr_left fun i _ => rfl
  · intro recs inst h
    unfold groupInstruments at h
    rcases List.mem_map.mp h with ⟨k, hk, rfl⟩
    refine ⟨k.1, k.2, ?_, rfl, by simp [DRUM_CHANNEL]⟩
    exact (recs.map fun x => (x.1, x.2.1)).dedup_sublist.mem hk
  · intro m io h
    rcases List.mem_map.mp h with ⟨p, _, rfl⟩
    by_cases hdr : p.2.is_drum <;> simp [hdr]

/-- Witness for C3 at concrete instances: one drum and one non-drum
instrument get channels 9 and 0, and a decoded channel-9 instrument is a drum
instrument. -/
theorem drum_channel_convention_witness :
    (({ program := 0, is_drum := true, notes := [] } : PMInstrument).is_drum = true →
      (9 : ℕ) = DRUM_CHANNEL) ∧
    (∃ ch prog : ℕ,
      (ch, prog) ∈ ([(9, 0, (⟨100, 35, 0, 1⟩ : PMNote))].map fun x => (x.1, x.2.1)) ∧
      (({ program := 0, is_drum := true, notes := [⟨100, 35, 0, 1⟩] } :
          PMInstrument)).program = (prog : ℤ) ∧
      ((({ program := 0, is_drum := true, notes := [⟨100, 35, 0, 1⟩] } :
          PMInstrument)).is_drum = true ↔ ch = DRUM_CHANNEL)) :=
  ⟨(drum_channel_convention.1 0
      [{ program := 0, is_drum := true, notes := [] }]
      { program := 0, is_drum := true, notes := [] } 9 (by decide)).1,
   drum_channel_convention.2.2.1 [(9, 0, ⟨100, 35, 0, 1⟩)]
     { program := 0, is_drum := true, notes := [⟨100, 35, 0, 1⟩] } (by decide)⟩

/-- A note field outside its spec-3 domain: pitch or velocity outside 0..127,
or a non-positive duration. -/
def noteOutOfDomain (n : PMNote) : Prop :=
  n.pitch < 0 ∨ 127 < n.pitch ∨ n.velocity < 0 ∨ 127 < n.velocity ∨
  n.end_ - n.start ≤ 0

/-- An encode input carrying some field outside its spec-3 domain, among the
fields the handler actually forwards to the codec: a non-positive tempo, a
program outside 0..127, or an out-of-domain note. -/
def encodeDomainViolation (b : PMBuild) : Prop :=
  (∃ tc ∈ b.tempo_changes.getD [], tc.tempo ≤ 0) ∨
  (∃ i ∈ b.instruments, i.program < 0 ∨ 127 < i.program) ∨
  (∃ i ∈ b.instruments, ∃ n ∈ i.notes, noteOutOfDomain n)

/-- A build that passes the serializer's validation has no domain violation
among tempo, program and note fields. -/
theorem validateBuild_none_no_violation (b : PMBuild)
    (hv : validateBuild b = none) : ¬ encodeDomainViolation b := by
  unfold validateBuild at hv
  split_ifs at hv with h1 h2 h3 h4 h5
  replace h1 : (b.tempo_changes.getD []).all validTempoChange = true := by
    simpa using h1
  replace h3 : b.instruments.all validInstrument = true := by simpa using h3
  intro hviol
  rcases hviol with ⟨tc, htc, hle⟩ | ⟨i, hi, hpr⟩ | ⟨i, hi, n, hn, hdom⟩
  · have := List.all_eq_true.mp h1 tc htc
    simp only [validTempoChange, Bool.and_eq_true, decide_eq_true_eq] at this
    exact absurd this.1.1.2 (not_lt.mpr hle)
  · have := List.all_eq_true.mp h3 i hi
    simp only [validInstrument, Bool.and_eq_true, decide_eq_true_eq] at this
    rcases hpr with hpr | hpr
    · exact absurd this.1.1 (not_le.mpr hpr)
    · exact absurd this.1.2 (not_le.mpr hpr)
  · have hinst := List.all_eq_true.mp h3 i hi
    simp only [validInstrument, Bool.and_eq_true, decide_eq_true_eq] at hinst
    have := List.all_eq_true.mp hinst.2 n hn
    simp only [validNote, Bool.and_eq_true, decide_eq_true_eq] at this
    obtain ⟨⟨⟨⟨⟨hp0, hp1⟩, hv0⟩, hv1⟩, hs0⟩, hse⟩ := this
    rcases hdom with h | h | h | h | h
    · exact absurd hp0 (not_le.mpr h)
    · exact absurd hp1 (not_le.mpr h)
    · exact absurd hv0 (not_le.mpr h)
    · exact absurd hv1 (not_le.mpr h)
    · nlinarith [hse]

/-- C2 (amended): when the encode input carries a tempo, program or note
field outside its spec-3 domain, `generate_midi` answers 400 with a
`ValueOutOfRange` message; the serializer validates before assembling any
byte, so the error response carries no byte payload (encode is
all-or-nothing).  The `channel` field is not among the validated fields: the
handler never reads it (see the counterexample). -/
theorem encode_validates_before_writing (b64encode : List ℕ → String)
    (data : GenerateInput) (h : encodeDomainViolation (buildMidi data)) :
    ∃ msg, generate_midi writeSMF b64encode data = ⟨400, .errorPayload msg⟩ ∧
      (msg = "ValueOutOfRange: tempo change out of domain" ∨
       msg = "ValueOutOfRange: time signature out of domain" ∨
       msg = "ValueOutOfRange: instrument or note field out of domain" ∨
       msg = "ValueOutOfRange: value overflows its byte field" ∨
       msg = "ValueOutOfRange: track count overflows its 16-bit field") := by
  rcases hv : validateBuild (buildMidi data) with _ | msg
  · exact absurd h (validateBuild_none_no_violation _ hv)
  · refine ⟨msg, ?_, ?_⟩
    · simp [generate_midi, writeSMF, hv]
    · unfold validateBuild at hv
      split_ifs at hv <;> simp only [Option.some.injEq] at hv <;> tauto

/-- C2 counterexample input: a well-formed note on an instrument whose
`channel` key is 999, far outside 0..15. -/
def c2Input : GenerateInput :=
  { instruments := some [{ channel := some 999, notes := some [⟨0, 1, 60, 100⟩] }] }

/-- C2 counterexample: an encode input with `channel = 999` (outside the
spec-3 domain 0..15) does not fail: `generate_midi` answers 200.  The
handler never reads the channel key, so out-of-range channels produce no
`ValueOutOfRange` failure. -/
theorem encode_ignores_channel_counterexample :
    (∃ i ∈ c2Input.instruments.getD [], i.channel = some 999 ∧
      ¬ (∃ c : ℤ, i.channel = some c ∧ 0 ≤ c ∧ c ≤ 15)) ∧
    (generate_midi writeSMF (fun _ => "ok") c2Input).status = 200 := by
  constructor
  · refine ⟨{ channel := some 999, notes := some [⟨0, 1, 60, 100⟩] },
      by simp [c2Input], rfl, ?_⟩
    rintro ⟨c, hc, _, h15⟩
    injection hc with hc
    subst hc
    omega
  · have hv : validateBuild (buildMidi c2Input) = none := by
      norm_num [c2Input, validateBuild, buildMidi, midiTracks, conductorTrack,
        conductorEvents, condTempoEvents, condTimeSigEvents, instrumentTrack,
        instrumentEvents, instPcEvents, instNoteEvents,
        buildTempoSegments, tickOfSec, exactTickAux, ticksPerSec,
        muspqOfTempo, rnd, evLE, evPrio, List.insertionSort, List.orderedInsert,
        lastTickOf, channelsFor, nonDrumChannels, pmInstrumentOfJson, pmNoteOfJson,
        validNote, validInstrument, validTempoChange, validTimeSig, pow2Log,
        trackTicksOK, trackLenOK, encodeTrackEvents, writeVarLen, encodeEvent,
        RESOLUTION, DRUM_CHANNEL, DEFAULT_PROGRAM, sortTempoChanges]
    simp [generate_midi, writeSMF, hv]

/-- Witness for C2 (amended) at a concrete input whose note pitch is 300. -/
theorem encode_validates_before_writing_witness :
    ∃ msg, generate_midi writeSMF (fun _ => "ok")
        { instruments := some [{ notes := some [⟨0, 1, 300, 100⟩] }] } =
        ⟨400, .errorPayload msg⟩ ∧
      (msg = "ValueOutOfRange: tempo change out of domain" ∨
       msg = "ValueOutOfRange: time signature out of domain" ∨
       msg = "ValueOutOfRange: instrument or note field out of domain" ∨
       msg = "ValueOutOfRange: value overflows its byte field" ∨
       msg = "ValueOutOfRange: track count overflows its 16-bit field") :=
  encode_validates_before_writing (fun _ => "ok")
    { instruments := some [{ notes := some [⟨0, 1, 300, 100⟩] }] }
    (Or.inr (Or.inr ⟨pmInstrumentOfJson { notes := some [⟨0, 1, 300, 100⟩] },
      List.mem_singleton.mpr rfl,
      pmNoteOfJson ⟨0, 1, 300, 100⟩, List.mem_singleton.mpr rfl,
      Or.inr (Or.inl (by decide))⟩))

/-! ## Basic lemmas: rounding and the decode TimeMap -/

/-- `rnd` of a nonnegative rational is nonnegative. -/
theorem rnd_nonneg {x : ℚ} (h : 0 ≤ x) : 0 ≤ rnd x := by
  unfold rnd
  exact Int.floor_nonneg.mpr (by linarith)

/-- `round3` of a nonnegative rational is nonnegative. -/
theorem round3_nonneg {x : ℚ} (h : 0 ≤ x) : 0 ≤ round3 x := by
  unfold round3
  have : (0 : ℚ) ≤ (rnd (1000 * x) : ℚ) :=
    Int.cast_nonneg.mpr (rnd_nonneg (by linarith))
  linarith

/-- `rnd` misses its argument by at most a half. -/
theorem abs_rnd_sub_le (x : ℚ) : |(rnd x : ℚ) - x| ≤ 1 / 2 := by
  unfold rnd
  have h1 : (⌊x + 1 / 2⌋ : ℚ) ≤ x + 1 / 2 := Int.floor_le _
  have h2 : x + 1 / 2 < (⌊x + 1 / 2⌋ : ℚ) + 1 := Int.lt_floor_add_one _
  rw [abs_le]
  constructor <;> linarith

/-- `round3` misses its argument by at most half a millisecond. -/
theorem abs_round3_sub_le (x : ℚ) : |round3 x - x| ≤ 1 / 2000 := by
  unfold round3
  have := abs_rnd_sub_le (1000 * x)
  rw [abs_le] at this ⊢
  constructor <;> [linarith [this.1]; linarith [this.2]]

/-- Seconds-per-tick values are nonnegative. -/
theorem sptOfMuspq_nonneg (division muspq : ℕ) : 0 ≤ sptOfMuspq division muspq := by
  unfold sptOfMuspq
  positivity

/-- The seconds-per-tick walk never yields less than its accumulated seconds,
as long as the target lies at or beyond the current segment and the remaining
change ticks are chained upward from it. -/
theorem secOfTickAux_ge_acc (division : ℕ) :
    ∀ (rest : List (ℕ × ℕ)) (sec : ℚ) (segTick muspq t : ℕ),
      segTick ≤ t → List.Chain (fun a b => a.1 ≤ b.1) (segTick, muspq) rest →
      sec ≤ secOfTickAux division sec segTick muspq rest t := by
  intro rest
  induction rest with
  | nil =>
    intro sec segTick muspq t hle _
    unfold secOfTickAux
    push_cast
    have hc : (segTick : ℚ) ≤ (t : ℚ) := by exact_mod_cast hle
    nlinarith [sptOfMuspq_nonneg division muspq]
  | cons hd tl ih =>
    intro sec segTick muspq t hle hchain
    unfold secOfTickAux
    rcases hchain with _ | ⟨hst, hchain2⟩
    by_cases hlt : t < hd.1
    · simp only [if_pos hlt]
      push_cast
      have hc : (segTick : ℚ) ≤ (t : ℚ) := by exact_mod_cast hle
      nlinarith [sptOfMuspq_nonneg division muspq]
    · simp only [if_neg hlt]
      have hstep : sec ≤ sec + ((hd.1 - segTick : ℤ) : ℚ) * sptOfMuspq division muspq := by
        push_cast
        have hc : (segTick : ℚ) ≤ (hd.1 : ℚ) := by exact_mod_cast hst
        nlinarith [sptOfMuspq_nonneg division muspq]
      exact le_trans hstep (ih _ hd.1 hd.2 t (by omega) hchain2)

/-- The tick-to-seconds conversion is monotone along a tick-sorted tempo
walk. -/
theorem secOfTickAux_mono (division : ℕ) :
    ∀ (rest : List (ℕ × ℕ)) (sec : ℚ) (segTick muspq t1 t2 : ℕ),
      segTick ≤ t1 → t1 ≤ t2 →
      List.Chain (fun a b => a.1 ≤ b.1) (segTick, muspq) rest →
      secOfTickAux division sec segTick muspq rest t1 ≤
        secOfTickAux division sec segTick muspq rest t2 := by
  intro rest
  induction rest with
  | nil =>
    intro sec segTick muspq t1 t2 _ h12 _
    unfold secOfTickAux
    push_cast
    have hc : (t1 : ℚ) ≤ (t2 : ℚ) := by exact_mod_cast h12
    nlinarith [sptOfMuspq_nonneg division muspq]
  | cons hd tl ih =>
    intro sec segTick muspq t1 t2 hst h12 hchain
    unfold secOfTickAux
    rcases hchain with _ | ⟨hsthd, hchain2⟩
    by_cases h2 : t2 < hd.1
    · have h1 : t1 < hd.1 := by omega
      simp only [if_pos h1, if_pos h2]
      push_cast
      have hc : (t1 : ℚ) ≤ (t2 : ℚ) := by exact_mod_cast h12
      nlinarith [sptOfMuspq_nonneg division muspq]
    · by_cases h1 : t1 < hd.1
      · simp only [if_pos h1, if_neg h2]
        have hstep : sec + ((t1 - segTick : ℤ) : ℚ) * sptOfMuspq division muspq ≤
            sec + ((hd.1 - segTick : ℤ) : ℚ) * sptOfMuspq division muspq := by
          push_cast
          have hc : (t1 : ℚ) ≤ (hd.1 : ℚ) := by exact_mod_cast le_of_lt h1
          nlinarith [sptOfMuspq_nonneg division muspq]
        exact le_trans hstep
          (secOfTickAux_ge_acc division tl _ hd.1 hd.2 t2 (by omega) hchain2)
      · simp only [if_neg h1, if_neg h2]
        exact ih _ hd.1 hd.2 t1 t2 (by omega) h12 hchain2

/-- Monotonicity of the decode TimeMap over any tick-sorted tempo map. -/
theorem secOfTick_mono (division : ℕ) (tm : List (ℕ × ℕ))
    (h : List.Chain' (fun a b => a.1 ≤ b.1) tm) {t1 t2 : ℕ} (h12 : t1 ≤ t2) :
    secOfTick division tm t1 ≤ secOfTick division tm t2 := by
  rcases tm with _ | ⟨⟨tk, mu⟩, rest⟩
  · unfold secOfTick
    exact secOfTickAux_mono division [] 0 0 500000 t1 t2 (Nat.zero_le _) h12 .nil
  · rcases tk with _ | tk
    · unfold secOfTick
      exact secOfTickAux_mono division rest 0 0 mu t1 t2 (Nat.zero_le _) h12 h
    · unfold secOfTick
      exact secOfTickAux_mono division ((tk + 1, mu) :: rest) 0 0 500000 t1 t2
        (Nat.zero_le _) h12 (List.Chain.cons (Nat.zero_le _) h)

/-- The merged tempo map is tick-sorted. -/
theorem tempoMapOf_chain (tracks : List (List (ℕ × MidiEvent))) :
    List.Chain' (fun a b : ℕ × ℕ => a.1 ≤ b.1) (tempoMapOf tracks) := by
  unfold tempoMapOf
  haveI : IsTotal (ℕ × ℕ) (fun a b : ℕ × ℕ => a.1 ≤ b.1) :=
    ⟨fun a b => Nat.le_total a.1 b.1⟩
  haveI : IsTrans (ℕ × ℕ) (fun a b : ℕ × ℕ => a.1 ≤ b.1) :=
    ⟨fun _ _ _ h1 h2 => le_trans h1 h2⟩
  have hchain : List.Chain' (fun a b : ℕ × ℕ => a.1 ≤ b.1)
      (List.insertionSort (fun a b : ℕ × ℕ => a.1 ≤ b.1) (tempoEventsOf tracks)) :=
    List.Pairwise.chain'
      (List.sorted_insertionSort (fun a b : ℕ × ℕ => a.1 ≤ b.1) (tempoEventsOf tracks))
  rcases hs : List.insertionSort (fun a b : ℕ × ℕ => a.1 ≤ b.1)
      (tempoEventsOf tracks) with _ | ⟨⟨tk, mu⟩, rest⟩
  · simp [withDefaultTempo]
  · rw [hs] at hchain
    rcases tk with _ | tk
    · exact hchain
    · exact List.Chain'.cons' hchain (fun y hy => Nat.zero_le _)

/-- Mapping over an `Except` yields `ok` exactly when the argument does. -/
theorem except_map_ok {α β ε : Type} (f : α → β) (x : Except ε α) (b : β) :
    f <$> x = .ok b ↔ ∃ a, x = .ok a ∧ b = f a := by
  cases x <;> simp [Except.map, Functor.map] <;> tauto

/-- Cons case of the parser tick-sortedness induction: one event at tick `t`
followed by the rest of the parse from `t`. -/
theorem parseEvents_sorted_cons_aux (tick t : ℕ) (ev : MidiEvent)
    (x : Except String (List (ℕ × MidiEvent))) (evs : List (ℕ × MidiEvent))
    (ht : tick ≤ t)
    (hx : (List.cons (t, ev)) <$> x = .ok evs)
    (hrec : ∀ evs2, x = .ok evs2 →
      (∀ e ∈ evs2, t ≤ e.1) ∧ List.Chain' (fun a b => a.1 ≤ b.1) evs2) :
    (∀ e ∈ evs, tick ≤ e.1) ∧ List.Chain' (fun a b => a.1 ≤ b.1) evs := by
  rcases (except_map_ok _ _ _).mp hx with ⟨evs2, hx2, rfl⟩
  obtain ⟨h1, h2⟩ := hrec evs2 hx2
  refine ⟨?_, List.chain'_cons'.mpr ⟨fun y hy => h1 y (List.mem_of_mem_head? hy), h2⟩⟩
  intro e he
  rcases List.mem_cons.mp he with rfl | he2
  · exact ht
  · exact le_trans ht (h1 e he2)

/-- Every event list the track parser returns is tick-sorted, and no event
precedes the starting tick: delta times only move time forward (spec 4.2). -/
theorem parseEvents_sorted :
    ∀ (fuel : ℕ) (running : Option ℕ) (tick : ℕ) (bytes : List ℕ)
      (evs : List (ℕ × MidiEvent)),
      parseEvents fuel running tick bytes = .ok evs →
      (∀ e ∈ evs, tick ≤ e.1) ∧ List.Chain' (fun a b => a.1 ≤ b.1) evs := by
  intro fuel
  induction fuel with
  | zero =>
    intro running tick bytes evs h
    simp [parseEvents] at h
  | succ fuel ih =>
    intro running tick bytes evs h
    unfold parseEvents at h
    rcases hrv : readVarLen bytes with e | ⟨delta, rest⟩ <;> rw [hrv] at h
    · cases h
    · rcases rest with _ | ⟨b, rest2⟩
      · cases h
      · simp only at h
        have ht : tick ≤ tick + delta := Nat.le_add_right tick delta
        by_cases hb1 : b = 255
        · rw [if_pos hb1] at h
          split at h
          · exact parseEvents_sorted_cons_aux tick _ _ _ evs ht h
              (fun evs2 hx2 => ih _ _ _ evs2 hx2)
          · exact parseEvents_sorted_cons_aux tick _ _ _ evs ht h
              (fun evs2 hx2 => ih _ _ _ evs2 hx2)
          · rcases h with ⟨⟩
            exact ⟨by (intro e he; rcases List.mem_singleton.mp he with rfl; exact ht),
              List.chain'_singleton _⟩
          · split_ifs at h
            obtain ⟨h1, h2⟩ := ih _ _ _ evs h
            exact ⟨fun e he => le_trans ht (h1 e he), h2⟩
          · cases h
        · rw [if_neg hb1] at h
          by_cases hb2 : b = 240 ∨ b = 247
          · rw [if_pos hb2] at h
            rcases hrv2 : readVarLen rest2 with e2 | ⟨len, rest3⟩ <;>
              rw [hrv2] at h <;> simp only at h
            · cases h
            · split_ifs at h
              obtain ⟨h1, h2⟩ := ih _ _ _ evs h
              exact ⟨fun e he => le_trans ht (h1 e he), h2⟩
          · rw [if_neg hb2] at h
            generalize (if 128 ≤ b then some b else running) = stOpt at h
            rcases stOpt with _ | st
            · cases h
            · simp only at h
              split at h
              · exact parseEvents_sorted_cons_aux tick _ _ _ evs ht h
                  (fun evs2 hx2 => ih _ _ _ evs2 hx2)
              · exact parseEvents_sorted_cons_aux tick _ _ _ evs ht h
                  (fun evs2 hx2 => ih _ _ _ evs2 hx2)
              · obtain ⟨h1, h2⟩ := ih _ _ _ evs h
                exact ⟨fun e he => le_trans ht (h1 e he), h2⟩
              · obtain ⟨h1, h2⟩ := ih _ _ _ evs h
                exact ⟨fun e he => le_trans ht (h1 e he), h2⟩
              · exact parseEvents_sorted_cons_aux tick _ _ _ evs ht h
                  (fun evs2 hx2 => ih _ _ _ evs2 hx2)
              · obtain ⟨h1, h2⟩ := ih _ _ _ evs h
                exact ⟨fun e he => le_trans ht (h1 e he), h2⟩
              · obtain ⟨h1, h2⟩ := ih _ _ _ evs h
                exact ⟨fun e he => le_trans ht (h1 e he), h2⟩
              · cases h

/-- A `foldl max` over ticks never drops below its accumulator. -/
theorem foldl_max_acc_le (l : List (ℕ × MidiEvent)) :
    ∀ acc : ℕ, acc ≤ l.foldl (fun m te => max m te.1) acc := by
  induction l with
  | nil => intro acc; exact le_rfl
  | cons hd tl ih =>
    intro acc
    simp only [List.foldl_cons]
    exact le_trans (le_max_left _ _) (ih _)

/-- Elements never exceed a running `foldl max` over their ticks. -/
theorem le_foldl_max_ticks (l : List (ℕ × MidiEvent)) :
    ∀ (acc : ℕ) e, e ∈ l → e.1 ≤ l.foldl (fun m te => max m te.1) acc := by
  induction l with
  | nil => intro acc e he; cases he
  | cons hd tl ih =>
    intro acc e he
    simp only [List.foldl_cons]
    rcases List.mem_cons.mp he with rfl | he2
    · exact le_trans (le_max_right _ _) (foldl_max_acc_le tl _)
    · exact ih _ e he2

/-- The assembler invariant at tick bound `T`: every open note started at or
before `T`, and every completed note runs forward in time. -/
def asmGood (division : ℕ) (tm : List (ℕ × ℕ)) (T : ℕ) (st : AsmState) : Prop :=
  (∀ ch p e, e ∈ st.openNotes ch p → e.1 ≤ T) ∧
  (∀ r ∈ st.doneNotes, r.2.2.start ≤ r.2.2.end_)

/-- The invariant weakens along larger tick bounds. -/
theorem asmGood_mono {division : ℕ} {tm : List (ℕ × ℕ)} {T T2 : ℕ} {st : AsmState}
    (h : asmGood division tm T st) (hT : T ≤ T2) : asmGood division tm T2 st :=
  ⟨fun ch p e he => le_trans (h.1 ch p e he) hT, h.2⟩

/-- Closing a note at the current tick bound preserves the invariant: the
closed note's start tick is at most the closing tick, so the emitted note
runs forward through the monotone TimeMap. -/
theorem closeNote_good {division : ℕ} {tm : List (ℕ × ℕ)} {T : ℕ} {st : AsmState}
    (hchain : List.Chain' (fun a b : ℕ × ℕ => a.1 ≤ b.1) tm)
    (hg : asmGood division tm T st) (ch p : ℕ) :
    asmGood division tm T (closeNote division tm st ch p T) := by
  unfold closeNote
  rcases hq : st.openNotes ch p with _ | ⟨⟨t0, v0, pr0⟩, rest⟩
  · exact hg
  · refine ⟨?_, ?_⟩
    · intro c q e he
      simp only at he
      by_cases hcq : c = ch ∧ q = p
      · rw [if_pos hcq] at he
        exact hg.1 ch p e (by rw [hq]; exact List.mem_cons_of_mem _ he)
      · rw [if_neg hcq] at he
        exact hg.1 c q e he
    · intro r hr
      simp only at hr
      rcases List.mem_append.mp hr with hr | hr
      · exact hg.2 r hr
      · rcases List.mem_singleton.mp hr with rfl
        have ht0 : t0 ≤ T := hg.1 ch p (t0, v0, pr0) (by rw [hq]; exact List.mem_cons_self _ _)
        exact secOfTick_mono division tm hchain ht0

/-- One assembler step at tick `t ≥ T` preserves the invariant at bound `t`. -/
theorem asmStep_good {division : ℕ} {tm : List (ℕ × ℕ)} {T t : ℕ} {st : AsmState}
    (hchain : List.Chain' (fun a b : ℕ × ℕ => a.1 ≤ b.1) tm)
    (hg : asmGood division tm T st) (hT : T ≤ t) (ev : MidiEvent) :
    asmGood division tm t (asmStep division tm st (t, ev)) := by
  have hgt : asmGood division tm t st := asmGood_mono hg hT
  rcases ev with ⟨ch, p, v⟩ | ⟨ch, p⟩ | ⟨ch, pr⟩ | mu | ⟨nn, dd⟩ | _
  · by_cases hv : v = 0
    · simpa [asmStep, hv] using closeNote_good hchain hgt ch p
    · simp only [asmStep]
      rw [if_neg hv]
      refine ⟨?_, hgt.2⟩
      intro c q e he
      simp only at he
      by_cases hcq : c = ch ∧ q = p
      · rw [if_pos hcq] at he
        rcases List.mem_append.mp he with he | he
        · exact hgt.1 ch p e he
        · rcases List.mem_singleton.mp he with rfl
          exact le_rfl
      · rw [if_neg hcq] at he
        exact hgt.1 c q e he
  · simpa [asmStep] using closeNote_good hchain hgt ch p
  · exact ⟨fun c q e he => hgt.1 c q e he, hgt.2⟩
  · exact hgt
  · exact hgt
  · exact hgt

/-- Folding the assembler over a tick-sorted event list preserves the
invariant, ending at the running maximum tick. -/
theorem asmRun_good {division : ℕ} {tm : List (ℕ × ℕ)}
    (hchain : List.Chain' (fun a b : ℕ × ℕ => a.1 ≤ b.1) tm) :
    ∀ (evs : List (ℕ × MidiEvent)) (st : AsmState) (T : ℕ),
      asmGood division tm T st →
      List.Pairwise (fun a b : ℕ × MidiEvent => a.1 ≤ b.1) evs →
      (∀ e ∈ evs, T ≤ e.1) →
      asmGood division tm (evs.foldl (fun m te => max m te.1) T)
        (evs.foldl (asmStep division tm) st) := by
  intro evs
  induction evs with
  | nil => intro st T hg _ _; exact hg
  | cons hd tl ih =>
    intro st T hg hpair hT
    simp only [List.foldl_cons]
    have hTt : T ≤ hd.1 := hT hd (List.mem_cons_self _ _)
    have hmax : max T hd.1 = hd.1 := max_eq_right hTt
    rw [hmax]
    rcases hd with ⟨t, ev⟩
    exact ih (asmStep division tm st (t, ev)) t
      (asmStep_good hchain hg hTt ev)
      ((List.pairwise_cons.mp hpair).2)
      (fun e he => (List.pairwise_cons.mp hpair).1 e he)

/-- Force-closing all open notes at a bound not below any of their start
ticks preserves the invariant. -/
theorem asmFlush_good {division : ℕ} {tm : List (ℕ × ℕ)} {T : ℕ}
    {keys : List (ℕ × ℕ)} {st : AsmState}
    (hchain : List.Chain' (fun a b : ℕ × ℕ => a.1 ≤ b.1) tm)
    (hg : asmGood division tm T st) :
    asmGood division tm T (asmFlush division tm T keys st) := by
  unfold asmFlush
  induction keys generalizing st with
  | nil => exact hg
  | cons k ks ih =>
    simp only [List.foldl_cons]
    exact ih (closeNote_good hchain hg k.1 k.2)

/-- Every note assembled from a tick-sorted track runs forward in time. -/
theorem assembleTrack_wellformed {division : ℕ} {tm : List (ℕ × ℕ)}
    (hchain : List.Chain' (fun a b : ℕ × ℕ => a.1 ≤ b.1) tm)
    {track : List (ℕ × MidiEvent)}
    (hsorted : List.Pairwise (fun a b : ℕ × MidiEvent => a.1 ≤ b.1) track) :
    ∀ r ∈ assembleTrack division tm track, r.2.2.start ≤ r.2.2.end_ := by
  unfold assembleTrack
  have hinit : asmGood division tm 0 asmInit := by
    constructor
    · intro ch p e he; cases he
    · intro r hr; cases hr
  have hrun := asmRun_good hchain track asmInit 0 hinit hsorted
    (fun e _ => Nat.zero_le _)
  have hfin : track.foldl (fun m te => max m te.1) 0 = finalTick track := rfl
  rw [hfin] at hrun
  exact (asmFlush_good hchain hrun).2

/-- Flat-mapping the empty list is empty (used to evaluate `asmFlush` on
states with no open notes). -/
theorem flatMap_const_nil {α β : Type} (l : List α) :
    (l.flatMap fun _ => ([] : List β)) = [] := by
  induction l with
  | nil => rfl
  | cons hd tl ih => simpa using ih

/-- Closing a key with no open note changes nothing. -/
theorem closeNote_of_empty {division : ℕ} {tm : List (ℕ × ℕ)} {st : AsmState}
    {ch p t : ℕ} (h : st.openNotes ch p = []) :
    closeNote division tm st ch p t = st := by
  unfold closeNote
  rw [h]

/-- Flushing a state with no open notes changes nothing. -/
theorem asmFlush_empty {division : ℕ} {tm : List (ℕ × ℕ)} {t : ℕ}
    {keys : List (ℕ × ℕ)} {st : AsmState}
    (h : ∀ ch p, st.openNotes ch p = []) :
    asmFlush division tm t keys st = st := by
  unfold asmFlush
  induction keys with
  | nil => rfl
  | cons k ks ih =>
    simp only [List.foldl_cons]
    rw [closeNote_of_empty (h k.1 k.2)]
    exact ih

/-- Every track a successful `parseTracks` returns came from `parseTrack` on
some chunk body. -/
theorem parseTracks_mem :
    ∀ (n : ℕ) (bytes : List ℕ) (tracks : List (List (ℕ × MidiEvent))),
      parseTracks n bytes = .ok tracks →
      ∀ tr ∈ tracks, ∃ bts, parseTrack bts = .ok tr := by
  intro n
  induction n with
  | zero =>
    intro bytes tracks h tr htr
    rcases h with ⟨⟩
    cases htr
  | succ n ih =>
    intro bytes tracks h tr htr
    unfold parseTracks at h
    split at h
    · rcases hu : readU32 _ with e | ⟨len, rest2⟩ <;> rw [hu] at h <;> simp only at h
      · cases h
      · split_ifs at h
        split at h
        · cases h
        · rcases (except_map_ok _ _ _).mp h with ⟨tracks2, h2, rfl⟩
          rcases List.mem_cons.mp htr with rfl | htr2
          · exact ⟨rest2.take len, by assumption⟩
          · exact ih _ tracks2 h2 tr htr2
    · cases h

/-- The tracks of a successfully parsed file came from `parseTracks`. -/
theorem parseSMF_tracks (bytes : List ℕ) (p : ParsedSMF)
    (h : parseSMF bytes = .ok p) :
    ∃ n rest, parseTracks n rest = .ok p.tracks := by
  unfold parseSMF at h
  split at h
  · rcases hu : readU32 _ with e | ⟨hlen, rest2⟩ <;> rw [hu] at h <;> simp only at h
    · cases h
    · split_ifs at h
      split at h
      · split_ifs at h
        rcases (except_map_ok _ _ _).mp h with ⟨ts, h2, rfl⟩
        exact ⟨_, _, h2⟩
      · cases h
  · cases h

/-- Every note of a decoded score runs forward in time: the parser only
advances ticks and the TimeMap is monotone. -/
theorem decodeScore_notes_wellformed (bytes : List ℕ) (pm : PMScore)
    (h : decodeScore bytes = .ok pm) :
    ∀ inst ∈ pm.instruments, ∀ n ∈ inst.notes, n.start ≤ n.end_ := by
  unfold decodeScore at h
  rcases (except_map_ok _ _ _).mp h with ⟨p, hp, rfl⟩
  intro inst hinst n hn
  unfold scoreOfParsed at hinst
  simp only at hinst
  rcases List.mem_flatMap.mp hinst with ⟨tr, htr, hgrp⟩
  unfold groupInstruments at hgrp
  rcases List.mem_map.mp hgrp with ⟨k, _, rfl⟩
  simp only at hn
  rcases List.mem_map.mp hn with ⟨r, hr, rfl⟩
  have hrmem : r ∈ assembleTrack p.division (tempoMapOf p.tracks) tr :=
    List.mem_of_mem_filter hr
  obtain ⟨nT, restT, hT⟩ := parseSMF_tracks bytes p hp
  obtain ⟨bts, hbts⟩ := parseTracks_mem nT restT p.tracks hT tr htr
  have hsorted := (parseEvents_sorted _ _ _ _ _ hbts).2
  haveI : IsTrans (ℕ × MidiEvent) (fun a b : ℕ × MidiEvent => a.1 ≤ b.1) :=
    ⟨fun _ _ _ h1 h2 => le_trans h1 h2⟩
  have hpair : List.Pairwise (fun a b : ℕ × MidiEvent => a.1 ≤ b.1) tr :=
    List.chain'_iff_pairwise.mp hsorted
  exact assembleTrack_wellformed (tempoMapOf_chain p.tracks) hpair r hrmem

/-- C5: for every decoded score, the JSON output reports each note's start
rounded to 3 decimals and its duration as `round3(end - start)`, never
negative, and the reported duration differs from the true `end - start` by at
most half a millisecond. -/
theorem decode_output_rounding (bytes : List ℕ) (pm : PMScore)
    (h : decodeScore bytes = .ok pm) :
    (∀ inst ∈ pm.instruments, ∀ n ∈ inst.notes, n.start ≤ n.end_) ∧
    (∀ io ∈ (convertScore pm).instruments, ∀ no ∈ io.notes,
      0 ≤ no.duration ∧
      ∃ inst ∈ pm.instruments, ∃ n ∈ inst.notes,
        no.start = round3 n.start ∧ no.duration = round3 (n.end_ - n.start) ∧
        |no.duration - (n.end_ - n.start)| ≤ 1 / 2000) := by
  have hwf := decodeScore_notes_wellformed bytes pm h
  refine ⟨hwf, ?_⟩
  intro io hio no hno
  rcases List.mem_map.mp hio with ⟨⟨idx, inst⟩, hmem, rfl⟩
  have hinst : inst ∈ pm.instruments := by
    rw [← List.enum_map_snd pm.instruments]
    exact List.mem_map_of_mem _ hmem
  simp only at hno
  rcases List.mem_map.mp hno with ⟨n, hn, rfl⟩
  refine ⟨?_, inst, hinst, n, hn, rfl, rfl, abs_round3_sub_le _⟩
  exact round3_nonneg (by linarith [hwf inst hinst n hn])

/-- Concrete SMF bytes for the C5 witness: format 1, resolution 220, a
conductor track (120 BPM) and one track holding a single half-second note. -/
def c5Bytes : List ℕ :=
  [77, 84, 104, 100, 0, 0, 0, 6, 0, 1, 0, 2, 0, 220,
   77, 84, 114, 107, 0, 0, 0, 11, 0, 255, 81, 3, 7, 161, 32, 0, 255, 47, 0,
   77, 84, 114, 107, 0, 0, 0, 13, 0, 144, 60, 100, 129, 92, 128, 60, 0, 0, 255, 47, 0]

/-- The parsed image of `c5Bytes`. -/
def c5Parsed : ParsedSMF :=
  ⟨1, 220,
    [[(0, .setTempo 500000), (0, .endOfTrack)],
     [(0, .noteOn 0 60 100), (220, .noteOff 0 60), (220, .endOfTrack)]]⟩

/-- The score decoded from `c5Bytes`. -/
def c5Score : PMScore :=
  { instruments := [⟨0, false, [⟨100, 60, 0, 1/2⟩]⟩]
    tempo_times := [0]
    tempos := [120]
    time_signature_changes := [] }

/-- Decoding the witness bytes yields the witness score. -/
theorem c5_decode_eval : decodeScore c5Bytes = .ok c5Score := by
  have h1 : parseSMF c5Bytes = .ok c5Parsed := by decide
  have h2 : scoreOfParsed c5Parsed = c5Score := by
    norm_num [c5Parsed, c5Score, scoreOfParsed, tempoMapOf, withDefaultTempo,
      tempoEventsOf, timeSigEventsOf, secOfTick, secOfTickAux, sptOfMuspq,
      assembleTrack, asmStep, closeNote, asmInit, asmFlush, noteOnKeys, finalTick,
      groupInstruments, rnd, List.insertionSort, List.orderedInsert,
      List.filterMap_cons, List.filterMap_nil, List.foldl_cons, List.foldl_nil,
      List.filter_cons, List.dedup_cons_of_not_mem, List.dedup_cons_of_mem,
      List.flatMap_cons, List.flatMap_nil]
  unfold decodeScore
  rw [h1]
  simpa using h2

/-- Witness for C5 at the concrete decoded score of `c5Bytes`. -/
theorem decode_output_rounding_witness :
    (∀ inst ∈ c5Score.instruments, ∀ n ∈ inst.notes, n.start ≤ n.end_) ∧
    (∀ io ∈ (convertScore c5Score).instruments, ∀ no ∈ io.notes,
      0 ≤ no.duration ∧
      ∃ inst ∈ c5Score.instruments, ∃ n ∈ inst.notes,
        no.start = round3 n.start ∧ no.duration = round3 (n.end_ - n.start) ∧
        |no.duration - (n.end_ - n.start)| ≤ 1 / 2000) :=
  decode_output_rounding c5Bytes c5Score c5_decode_eval

/-! ## Byte-layer inverse: parsing an encoded track recovers its events -/

/-- An event whose fields fit their byte encodings (established by the
serializer's validation). -/
def eventBytesOK : MidiEvent → Prop
  | .noteOn ch p v => ch < 16 ∧ p < 128 ∧ v < 128
  | .noteOff ch p => ch < 16 ∧ p < 128
  | .progChange ch pr => ch < 16 ∧ pr < 128
  | .setTempo mu => mu < 16777216
  | .timeSig nn dd => nn < 256 ∧ dd < 256
  | .endOfTrack => True

/-- VarLenCodec inverse law (spec 8): reading back a written variable-length
quantity recovers it, for every value in the encodable range. -/
theorem readVarLen_writeVarLen (v : ℕ) (h : v ≤ 268435455) (rest : List ℕ) :
    readVarLen (writeVarLen v ++ rest) = .ok (v, rest) := by
  unfold writeVarLen readVarLen
  split_ifs with h1 h2 h3
  · simp only [List.cons_append, List.nil_append, readVarLenAux]
    rw [if_pos h1]
    simp
  · simp only [List.cons_append, List.nil_append, readVarLenAux]
    rw [if_neg (by omega), if_pos (by omega)]
    rw [show 128 * (0 + (128 + v / 128 - 128)) + v % 128 = v by omega]
    simp
  · simp only [List.cons_append, List.nil_append, readVarLenAux]
    rw [if_neg (by omega), if_neg (by omega), if_pos (by omega)]
    rw [show 128 * (128 * (0 + (128 + v / 16384 - 128)) + (128 + v / 128 % 128 - 128)) +
      v % 128 = v by omega]
    simp
  · simp only [List.cons_append, List.nil_append, readVarLenAux]
    rw [if_neg (by omega), if_neg (by omega), if_neg (by omega), if_pos (by omega)]
    rw [show 128 * (128 * (128 * (0 + (128 + v / 2097152 - 128)) +
      (128 + v / 16384 % 128 - 128)) + (128 + v / 128 % 128 - 128)) + v % 128 = v by omega]
    simp

/-- Reading back a written 32-bit length recovers it. -/
theorem readU32_u32be (n : ℕ) (h : n < 4294967296) (rest : List ℕ) :
    readU32 (u32be n ++ rest) = .ok (n, rest) := by
  simp only [u32be, List.cons_append, List.nil_append, readU32, Except.ok.injEq,
    Prod.mk.injEq]
  exact ⟨by omega, trivial⟩

/-- An encoded track body has at least one byte per event. -/
theorem length_le_encodeTrackEvents :
    ∀ (evs : List (ℕ × MidiEvent)) (prev : ℕ),
      evs.length ≤ (encodeTrackEvents prev evs).length := by
  intro evs
  induction evs with
  | nil => intro prev; simp [encodeTrackEvents]
  | cons hd tl ih =>
    intro prev
    rcases hd with ⟨t, e⟩
    simp only [encodeTrackEvents, List.length_append, List.length_cons]
    have h1 : 1 ≤ (writeVarLen (t - prev)).length := by
      unfold writeVarLen
      split_ifs <;> simp
    have := ih t
    omega

/-- Parsing an encoded track body recovers exactly its events: the byte
serialization of spec 4.5 and the parser of spec 4.2 are mutually inverse,
for tick-sorted events with in-range fields ending in the end-of-track meta.
Trailing bytes after the end-of-track are ignored. -/
theorem parseEvents_encodeTrackEvents :
    ∀ (mid : List (ℕ × MidiEvent)) (tEnd fuel prev : ℕ) (running : Option ℕ)
      (extra : List ℕ),
      mid.length < fuel →
      List.Chain (fun a b => a ≤ b) prev
        ((mid ++ [(tEnd, MidiEvent.endOfTrack)]).map (fun e => e.1)) →
      (∀ e ∈ mid ++ [(tEnd, MidiEvent.endOfTrack)], e.1 ≤ 268435455 ∧ eventBytesOK e.2) →
      (∀ e ∈ mid, e.2 ≠ MidiEvent.endOfTrack) →
      parseEvents fuel running prev
        (encodeTrackEvents prev (mid ++ [(tEnd, MidiEvent.endOfTrack)]) ++ extra) =
        .ok (mid ++ [(tEnd, MidiEvent.endOfTrack)]) := by
  intro mid
  induction mid with
  | nil =>
    intro tEnd fuel prev running extra hfuel hchain hok _
    rcases fuel with _ | f
    · omega
    have hprevEnd : prev ≤ tEnd := by
      simp only [List.nil_append, List.map_cons] at hchain
      rcases hchain with _ | ⟨h1, _⟩
      exact h1
    have htEnd : tEnd ≤ 268435455 :=
      (hok (tEnd, .endOfTrack) (by simp)).1
    simp only [List.nil_append, encodeTrackEvents, encodeEvent, List.append_assoc,
      List.cons_append, List.nil_append, List.append_nil]
    unfold parseEvents
    rw [readVarLen_writeVarLen (tEnd - prev) (by omega) _]
    try simp only
    try simp only [if_true]
    rw [show prev + (tEnd - prev) = tEnd from by omega]
  | cons hd mid ih =>
    intro tEnd fuel prev running extra hfuel hchain hok hnoEot
    rcases fuel with _ | f
    · simp at hfuel
    rcases hd with ⟨t, ev⟩
    have hprevt : prev ≤ t := by
      simp only [List.cons_append, List.map_cons] at hchain
      rcases hchain with _ | ⟨h1, _⟩
      exact h1
    have hchain2 : List.Chain (fun a b => a ≤ b) t
        ((mid ++ [(tEnd, MidiEvent.endOfTrack)]).map (fun e => e.1)) := by
      simp only [List.cons_append, List.map_cons] at hchain
      rcases hchain with _ | ⟨_, h2⟩
      exact h2
    have ht : t ≤ 268435455 := (hok (t, ev) (by simp)).1
    have hevOK : eventBytesOK ev := (hok (t, ev) (by simp)).2
    have hok2 : ∀ e ∈ mid ++ [(tEnd, MidiEvent.endOfTrack)],
        e.1 ≤ 268435455 ∧ eventBytesOK e.2 := by
      intro e he
      exact hok e (by simp only [List.cons_append]; exact List.mem_cons_of_mem _ he)
    have hnoEot2 : ∀ e ∈ mid, e.2 ≠ MidiEvent.endOfTrack := by
      intro e he
      exact hnoEot e (List.mem_cons_of_mem _ he)
    have hfuel2 : mid.length < f := by simp at hfuel; omega
    have hdelta : prev + (t - prev) = t := by omega
    rcases ev with ⟨ch, p, v⟩ | ⟨ch, p⟩ | ⟨ch, pr⟩ | mu | ⟨nn, dd⟩ | _
    · -- note on
      obtain ⟨hch, hp, hv⟩ := hevOK
      simp only [List.cons_append, encodeTrackEvents, encodeEvent, List.append_assoc,
        List.cons_append, List.nil_append]
      unfold parseEvents
      rw [readVarLen_writeVarLen (t - prev) (by omega) _]
      try simp only
      rw [if_neg (by omega), if_neg (by omega), if_pos (by omega), if_pos (by omega)]
      try simp only
      rw [show (144 + ch) / 16 = 9 from by omega]
      try simp only
      try simp only [List.append_eq]
      rw [show (144 + ch) % 16 = ch from by omega, hdelta,
        ih tEnd f t (some (144 + ch)) extra hfuel2 hchain2 hok2 hnoEot2]
      rfl
    · -- note off
      obtain ⟨hch, hp⟩ := hevOK
      simp only [List.cons_append, encodeTrackEvents, encodeEvent, List.append_assoc,
        List.cons_append, List.nil_append]
      unfold parseEvents
      rw [readVarLen_writeVarLen (t - prev) (by omega) _]
      try simp only
      rw [if_neg (by omega), if_neg (by omega), if_pos (by omega), if_pos (by omega)]
      try simp only
      rw [show (128 + ch) / 16 = 8 from by omega]
      try simp only
      try simp only [List.append_eq]
      rw [show (128 + ch) % 16 = ch from by omega, hdelta,
        ih tEnd f t (some (128 + ch)) extra hfuel2 hchain2 hok2 hnoEot2]
      rfl
    · -- program change
      obtain ⟨hch, hpr⟩ := hevOK
      simp only [List.cons_append, encodeTrackEvents, encodeEvent, List.append_assoc,
        List.cons_append, List.nil_append]
      unfold parseEvents
      rw [readVarLen_writeVarLen (t - prev) (by omega) _]
      try simp only
      rw [if_neg (by omega), if_neg (by omega), if_pos (by omega), if_pos (by omega)]
      try simp only
      rw [show (192 + ch) / 16 = 12 from by omega]
      try simp only
      try simp only [List.append_eq]
      rw [show (192 + ch) % 16 = ch from by omega, hdelta,
        ih tEnd f t (some (192 + ch)) extra hfuel2 hchain2 hok2 hnoEot2]
      rfl
    · -- set tempo
      simp only [List.cons_append, encodeTrackEvents, encodeEvent, List.append_assoc,
        List.cons_append, List.nil_append]
      unfold parseEvents
      rw [readVarLen_writeVarLen (t - prev) (by omega) _]
      try simp only
      try simp only [if_true]
      try simp only [List.append_eq]
      rw [show 65536 * (mu / 65536 % 256) + 256 * (mu / 256 % 256) + mu % 256 = mu
        from by unfold eventBytesOK at hevOK; omega, hdelta,
        ih tEnd f t none extra hfuel2 hchain2 hok2 hnoEot2]
      rfl
    · -- time signature
      simp only [List.cons_append, encodeTrackEvents, encodeEvent, List.append_assoc,
        List.cons_append, List.nil_append]
      unfold parseEvents
      rw [readVarLen_writeVarLen (t - prev) (by omega) _]
      try simp only
      try simp only [if_true]
      try simp only [List.append_eq]
      rw [hdelta, ih tEnd f t none extra hfuel2 hchain2 hok2 hnoEot2]
      rfl
    · -- end of track cannot occur inside the body
      exact absurd rfl (hnoEot (t, .endOfTrack) (List.mem_cons_self _ _))

/-- A track in the exact shape the serializer emits: a tick-sorted body free
of end-of-track events, closed by one end-of-track, with every tick and field
within its byte encoding. -/
def goodTrack (tr : List (ℕ × MidiEvent)) : Prop :=
  ∃ mid tEnd, tr = mid ++ [(tEnd, MidiEvent.endOfTrack)] ∧
    List.Chain (fun a b => a ≤ b) 0 (tr.map (fun e => e.1)) ∧
    (∀ e ∈ tr, e.1 ≤ 268435455 ∧ eventBytesOK e.2) ∧
    (∀ e ∈ mid, e.2 ≠ MidiEvent.endOfTrack)

/-- A well-shaped track parses back from its encoded body. -/
theorem goodTrack_parses (tr : List (ℕ × MidiEvent)) (hg : goodTrack tr) :
    parseTrack (encodeTrackEvents 0 tr) = .ok tr := by
  obtain ⟨mid, tEnd, rfl, hchain, hok, hmid⟩ := hg
  unfold parseTrack
  have hlen := length_le_encodeTrackEvents (mid ++ [(tEnd, MidiEvent.endOfTrack)]) 0
  have hfuel : mid.length <
      (encodeTrackEvents 0 (mid ++ [(tEnd, MidiEvent.endOfTrack)])).length + 1 := by
    simp only [List.length_append, List.length_cons, List.length_nil] at hlen
    omega
  have := parseEvents_encodeTrackEvents mid tEnd
    ((encodeTrackEvents 0 (mid ++ [(tEnd, MidiEvent.endOfTrack)])).length + 1)
    0 none [] hfuel hchain hok hmid
  simpa using this

/-- Parsing `n` encoded chunks recovers the `n` tracks. -/
theorem parseTracks_encode :
    ∀ (trks : List (List (ℕ × MidiEvent))),
      (∀ tr ∈ trks, goodTrack tr ∧ (encodeTrackEvents 0 tr).length < 4294967296) →
      ∀ extra, parseTracks trks.length (trks.flatMap trackChunk ++ extra) = .ok trks := by
  intro trks
  induction trks with
  | nil => intro _ extra; rfl
  | cons tr rest ih =>
    intro h extra
    have htr := h tr (List.mem_cons_self _ _)
    simp only [List.flatMap_cons, List.length_cons, trackChunk, List.append_assoc,
      List.cons_append, List.nil_append]
    unfold parseTracks
    simp only
    rw [readU32_u32be _ htr.2 _]
    simp only
    rw [if_pos (by simp)]
    rw [List.take_left' rfl, List.drop_left' rfl]
    rw [goodTrack_parses tr htr.1]
    simp only
    rw [ih (fun t ht => h t (List.mem_cons_of_mem _ ht)) extra]
    rfl

/-- Parsing an encoded file recovers the header data and all tracks: the
inverse law of the codec at the byte level. -/
theorem parseSMF_encode (trks : List (List (ℕ × MidiEvent)))
    (h : ∀ tr ∈ trks, goodTrack tr ∧ (encodeTrackEvents 0 tr).length < 4294967296)
    (hn : trks.length < 65536) :
    parseSMF (headerChunk trks.length ++ trks.flatMap trackChunk) =
      .ok ⟨1, 220, trks⟩ := by
  simp only [headerChunk, u32be, u16be, List.append_assoc, List.cons_append,
    List.nil_append]
  unfold parseSMF
  norm_num [readU32]
  rw [show 256 * (trks.length / 256 % 256) + trks.length % 256 = trks.length
    from by omega]
  rw [show trks.flatMap trackChunk = trks.flatMap trackChunk ++ [] from
    (List.append_nil _).symm]
  rw [parseTracks_encode trks h []]
  rfl

/-- The within-track order implies tick order. -/
theorem evLE_tick {a b : ℕ × MidiEvent} (h : evLE a b) : a.1 ≤ b.1 := by
  rcases h with h | ⟨h, _⟩
  · exact le_of_lt h
  · exact le_of_eq h

instance : IsTotal (ℕ × MidiEvent) evLE :=
  ⟨fun a b => by
    unfold evLE
    rcases Nat.lt_trichotomy a.1 b.1 with h | h | h
    · exact Or.inl (Or.inl h)
    · rcases Nat.le_total (evPrio a.2) (evPrio b.2) with hp | hp
      · exact Or.inl (Or.inr ⟨h, hp⟩)
      · exact Or.inr (Or.inr ⟨h.symm, hp⟩)
    · exact Or.inr (Or.inl h)⟩

instance : IsTrans (ℕ × MidiEvent) evLE :=
  ⟨fun a b c hab hbc => by
    unfold evLE at *
    rcases hab with h1 | ⟨h1, hp1⟩ <;> rcases hbc with h2 | ⟨h2, hp2⟩
    · exact Or.inl (lt_trans h1 h2)
    · exact Or.inl (h2 ▸ h1)
    · exact Or.inl (h1 ▸ h2)
    · exact Or.inr ⟨h1.trans h2, le_trans hp1 hp2⟩⟩

/-- Every channel the serializer assigns is a valid 4-bit channel. -/
theorem channelsFor_lt_16 :
    ∀ (k : ℕ) (insts : List PMInstrument) (c : ℕ), c ∈ channelsFor k insts → c < 16 := by
  intro k insts
  induction insts generalizing k with
  | nil => intro c hc; cases hc
  | cons hd tl ih =>
    intro c hc
    unfold channelsFor at hc
    split_ifs at hc
    · rcases List.mem_cons.mp hc with rfl | hc2
      · norm_num [DRUM_CHANNEL]
      · exact ih k c hc2
    · rcases List.mem_cons.mp hc with rfl | hc2
      · have hk : k % 15 < 15 := Nat.mod_lt _ (by norm_num)
        have : ∀ j, j < 15 → nonDrumChannels.getD j 0 < 16 := by decide
        exact this _ hk
      · exact ih (k + 1) c hc2

/-- The stored log2 of a time-signature denominator is below 31. -/
theorem pow2Log_lt {n : ℤ} {k : ℕ} (h : pow2Log n = some k) : k < 31 := by
  unfold pow2Log at h
  rcases List.exists_of_findSome?_eq_some h with ⟨a, ha, hfa⟩
  split_ifs at hfa
  cases hfa
  exact List.mem_range.mp ha

/-- The implicit initial tempo stores the standard 500000 microseconds. -/
theorem muspqOfTempo_120 : muspqOfTempo 120 = 500000 := by
  have h : rnd (60000000 / 120) = 500000 := by norm_num [rnd]
  unfold muspqOfTempo
  rw [h]
  rfl

/-- A sorted event body closed by an end-of-track at its last tick is
chained upward from tick 0. -/
theorem chain_of_sorted_body (evs : List (ℕ × MidiEvent)) (e : MidiEvent)
    (hs : List.Chain' evLE evs) :
    List.Chain (fun a b => a ≤ b) 0
      ((evs ++ [(lastTickOf evs, e)]).map fun x => x.1) := by
  have hchain' : List.Chain' (fun a b : ℕ × MidiEvent => a.1 ≤ b.1)
      (evs ++ [(lastTickOf evs, e)]) := by
    rw [List.chain'_append]
    refine ⟨List.Chain'.imp (fun a b h => evLE_tick h) hs, List.chain'_singleton _, ?_⟩
    intro x hx y hy
    rcases List.mem_getLast?_eq_getLast hx with ⟨hne, rfl⟩
    simp only [List.head?_cons, Option.mem_def, Option.some.injEq] at hy
    subst hy
    exact le_foldl_max_ticks evs 0 _ (List.getLast_mem hne)
  have hmap : List.Chain' (fun a b : ℕ => a ≤ b)
      ((evs ++ [(lastTickOf evs, e)]).map fun x => x.1) := by
    rw [List.chain'_map]
    exact hchain'
  rcases hm : (evs ++ [(lastTickOf evs, e)]).map (fun x => x.1) with _ | ⟨t0, rest⟩
  · rw [hm]
    exact List.Chain.nil
  · rw [hm]
    rw [hm] at hmap
    exact List.Chain.cons (Nat.zero_le _) hmap

/-- Every tempo value the encoder walks is the implicit 120 BPM or one of
the caller's tempo changes. -/
theorem buildTempoSegments_tempos (b : PMBuild) :
    ∀ seg ∈ buildTempoSegments b,
      seg.2 = 120 ∨ ∃ tc ∈ b.tempo_changes.getD [], seg.2 = tc.tempo := by
  intro seg hseg
  unfold buildTempoSegments at hseg
  rcases hb : b.tempo_changes with _ | tcs
  · rw [hb] at hseg
    rcases List.mem_singleton.mp hseg with rfl
    exact Or.inl rfl
  · rw [hb] at hseg
    rcases htcs : tcs with _ | ⟨tc0, tcs2⟩
    · rw [htcs] at hseg
      rcases List.mem_singleton.mp hseg with rfl
      exact Or.inl rfl
    · rw [htcs] at hseg
      simp only [List.map_cons] at hseg
      split_ifs at hseg
      · rcases List.mem_cons.mp hseg with rfl | hseg2
        · exact Or.inr ⟨tc0, by simp [hb, htcs]⟩
        · rcases List.mem_map.mp hseg2 with ⟨tc, htc, rfl⟩
          exact Or.inr ⟨tc, by simp [hb, htcs, htc], rfl⟩
      · rcases List.mem_cons.mp hseg with rfl | hseg2
        · exact Or.inl rfl
        · rcases List.mem_cons.mp hseg2 with rfl | hseg3
          · exact Or.inr ⟨tc0, by simp [hb, htcs]⟩
          · rcases List.mem_map.mp hseg3 with ⟨tc, htc, rfl⟩
            exact Or.inr ⟨tc, by simp [hb, htcs, htc], rfl⟩


/-- The conductor track the serializer emits is well-shaped whenever the
build passed validation. -/
theorem conductorTrack_goodTrack (b : PMBuild)
    (htempo : (b.tempo_changes.getD []).all validTempoChange = true)
    (hts : b.time_signature_changes.all validTimeSig = true)
    (hticks : trackTicksOK (conductorTrack b) = true) :
    goodTrack (conductorTrack b) := by
  have hmem : ∀ e ∈ conductorEvents b,
      e ∈ condTempoEvents b ++ condTimeSigEvents b := fun e he =>
    (List.perm_insertionSort evLE _).mem_iff.mp he
  refine ⟨conductorEvents b, lastTickOf (conductorEvents b), rfl, ?_, ?_, ?_⟩
  · exact chain_of_sorted_body _ _
      (List.Pairwise.chain' (List.sorted_insertionSort evLE _))
  · intro e he
    refine ⟨by simpa using List.all_eq_true.mp hticks e he, ?_⟩
    rcases List.mem_append.mp he with he | he
    · rcases List.mem_append.mp (hmem e he) with he2 | he2
      · rcases List.mem_map.mp he2 with ⟨seg, hseg, rfl⟩
        rcases buildTempoSegments_tempos b seg hseg with h120 | ⟨tc, htc, heq⟩
        · simp only [eventBytesOK, h120, muspqOfTempo_120]
          norm_num
        · have := List.all_eq_true.mp htempo tc htc
          simp only [validTempoChange, Bool.and_eq_true, decide_eq_true_eq] at this
          simp only [eventBytesOK, heq]
          omega
      · rcases List.mem_map.mp he2 with ⟨ts, hts2, rfl⟩
        have := List.all_eq_true.mp hts ts hts2
        simp only [validTimeSig, Bool.and_eq_true, decide_eq_true_eq,
          Option.isSome_iff_exists] at this
        obtain ⟨⟨⟨_, h1⟩, h255⟩, k, hk⟩ := this
        constructor
        · omega
        · rw [hk]
          simp only [Option.getD_some]
          have := pow2Log_lt hk
          omega
    · rcases List.mem_singleton.mp he with rfl
      trivial
  · intro e he
    rcases List.mem_append.mp (hmem e he) with he2 | he2
    · rcases List.mem_map.mp he2 with ⟨seg, _, rfl⟩
      simp
    · rcases List.mem_map.mp he2 with ⟨ts, _, rfl⟩
      simp

/-- An instrument track the serializer emits is well-shaped whenever the
instrument passed validation and its assigned channel is in range. -/
theorem instrumentTrack_goodTrack (segs : List (ℚ × ℚ)) (ch : ℕ)
    (inst : PMInstrument) (hch : ch < 16)
    (hinst : validInstrument inst = true)
    (hticks : trackTicksOK (instrumentTrack segs ch inst) = true) :
    goodTrack (instrumentTrack segs ch inst) := by
  have hmem : ∀ e ∈ instrumentEvents segs ch inst,
      e ∈ instPcEvents ch inst ++ instNoteEvents segs ch inst := fun e he =>
    (List.perm_insertionSort evLE _).mem_iff.mp he
  simp only [validInstrument, Bool.and_eq_true, decide_eq_true_eq] at hinst
  obtain ⟨⟨hpr0, hpr1⟩, hnotes⟩ := hinst
  refine ⟨instrumentEvents segs ch inst, lastTickOf (instrumentEvents segs ch inst),
    rfl, ?_, ?_, ?_⟩
  · exact chain_of_sorted_body _ _
      (List.Pairwise.chain' (List.sorted_insertionSort evLE _))
  · intro e he
    refine ⟨by simpa using List.all_eq_true.mp hticks e he, ?_⟩
    rcases List.mem_append.mp he with he | he
    · rcases List.mem_append.mp (hmem e he) with he2 | he2
      · unfold instPcEvents at he2
        split_ifs at he2
        · cases he2
        · rcases List.mem_singleton.mp he2 with rfl
          exact ⟨hch, by omega⟩
      · unfold instNoteEvents at he2
        rcases List.mem_flatMap.mp he2 with ⟨n, hn, hev⟩
        have hvn := List.all_eq_true.mp hnotes n hn
        simp only [validNote, Bool.and_eq_true, decide_eq_true_eq] at hvn
        obtain ⟨⟨⟨⟨⟨hp0, hp1⟩, hv0⟩, hv1⟩, _⟩, _⟩ := hvn
        rcases List.mem_cons.mp hev with rfl | hev2
        · exact ⟨hch, by omega, by omega⟩
        · rcases List.mem_singleton.mp hev2 with rfl
          exact ⟨hch, by omega⟩
    · rcases List.mem_singleton.mp he with rfl
      trivial
  · intro e he
    rcases List.mem_append.mp (hmem e he) with he2 | he2
    · unfold instPcEvents at he2
      split_ifs at he2
      · cases he2
      · rcases List.mem_singleton.mp he2 with rfl
        simp
    · unfold instNoteEvents at he2
      rcases List.mem_flatMap.mp he2 with ⟨n, _, hev⟩
      rcases List.mem_cons.mp hev with rfl | hev2
      · simp
      · rcases List.mem_singleton.mp hev2 with rfl
        simp

/-- Every track of a validated build is well-shaped and fits its chunk. -/
theorem midiTracks_goodTracks (b : PMBuild) (hv : validateBuild b = none) :
    ∀ tr ∈ midiTracks b,
      goodTrack tr ∧ (encodeTrackEvents 0 tr).length < 4294967296 := by
  unfold validateBuild at hv
  split_ifs at hv with h1 h2 h3 h4 h5
  replace h1 : (b.tempo_changes.getD []).all validTempoChange = true := by simpa using h1
  replace h2 : b.time_signature_changes.all validTimeSig = true := by simpa using h2
  replace h3 : b.instruments.all validInstrument = true := by simpa using h3
  replace h4 : (midiTracks b).all (fun tr => trackTicksOK tr && trackLenOK tr) = true := by
    simpa using h4
  intro tr htr
  have hlen := List.all_eq_true.mp h4 tr htr
  simp only [Bool.and_eq_true] at hlen
  have hlenOK : (encodeTrackEvents 0 tr).length < 4294967296 := by
    have := hlen.2
    simpa [trackLenOK] using this
  refine ⟨?_, hlenOK⟩
  unfold midiTracks at htr
  rcases List.mem_cons.mp htr with rfl | htr2
  · exact conductorTrack_goodTrack b h1 h2 (by simpa using hlen.1)
  · rcases List.mem_map.mp htr2 with ⟨⟨inst, ch⟩, hic, rfl⟩
    obtain ⟨hinstMem, hchMem⟩ := List.of_mem_zip hic
    exact instrumentTrack_goodTrack (buildTempoSegments b) ch inst
      (channelsFor_lt_16 0 b.instruments ch hchMem)
      (List.all_eq_true.mp h3 inst hinstMem) (by simpa using hlen.1)

/-- Decoding the bytes a validated build serializes to recovers exactly the
emitted tracks, at format 1 and resolution 220. -/
theorem writeSMF_parseSMF (b : PMBuild) (bytes : List ℕ)
    (hw : writeSMF b = .ok bytes) :
    parseSMF bytes = .ok ⟨1, 220, midiTracks b⟩ := by
  unfold writeSMF at hw
  rcases hv : validateBuild b with _ | msg
  · rw [hv] at hw
    simp only [Except.ok.injEq] at hw
    subst hw
    refine parseSMF_encode (midiTracks b) (midiTracks_goodTracks b hv) ?_
    unfold validateBuild at hv
    split_ifs at hv with h1 h2 h3 h4 h5
    omega
  · rw [hv] at hw
    cases hw

/-- Whether an event is a note-on. -/
def isNoteOn : MidiEvent → Bool
  | .noteOn _ _ _ => true
  | _ => false

/-- Running the assembler over events with no note-ons opens and completes
no notes. -/
theorem asmRun_no_noteOn {division : ℕ} {tm : List (ℕ × ℕ)} :
    ∀ (track : List (ℕ × MidiEvent)) (st : AsmState),
      (∀ ch p, st.openNotes ch p = []) →
      (∀ e ∈ track, isNoteOn e.2 = false) →
      (∀ ch p, (track.foldl (asmStep division tm) st).openNotes ch p = []) ∧
      (track.foldl (asmStep division tm) st).doneNotes = st.doneNotes := by
  intro track
  induction track with
  | nil => intro st hopen _; exact ⟨hopen, rfl⟩
  | cons hd tl ih =>
    intro st hopen hno
    have hhd : isNoteOn hd.2 = false := hno hd (List.mem_cons_self _ _)
    have hstep : asmStep division tm st hd = st ∨
        (asmStep division tm st hd).openNotes = st.openNotes ∧
        (asmStep division tm st hd).doneNotes = st.doneNotes := by
      rcases hd with ⟨t, ev⟩
      rcases ev with ⟨ch, p, v⟩ | ⟨ch, p⟩ | ⟨ch, pr⟩ | mu | ⟨nn, dd⟩ | _
      · cases hhd
      · simp only [asmStep]
        rw [closeNote_of_empty (hopen ch p)]
        exact Or.inl rfl
      · exact Or.inr ⟨rfl, rfl⟩
      · exact Or.inl rfl
      · exact Or.inl rfl
      · exact Or.inl rfl
    simp only [List.foldl_cons]
    have hno2 : ∀ e ∈ tl, isNoteOn e.2 = false := fun e he =>
      hno e (List.mem_cons_of_mem _ he)
    rcases hstep with heq | ⟨ho, hd2⟩
    · rw [heq]
      exact ih st hopen hno2
    · have hopen2 : ∀ ch p, (asmStep division tm st hd).openNotes ch p = [] := by
        intro ch p; rw [ho]; exact hopen ch p
      obtain ⟨ha, hb⟩ := ih _ hopen2 hno2
      exact ⟨ha, by rw [hb, hd2]⟩

/-- A track without note-ons assembles to no notes at all. -/
theorem assembleTrack_no_noteOn {division : ℕ} {tm : List (ℕ × ℕ)}
    (track : List (ℕ × MidiEvent))
    (hno : ∀ e ∈ track, isNoteOn e.2 = false) :
    assembleTrack division tm track = [] := by
  unfold assembleTrack
  obtain ⟨hopen, hdone⟩ := asmRun_no_noteOn track asmInit (fun _ _ => rfl) hno
  rw [asmFlush_empty hopen, hdone]
  rfl

/-- Conductor tracks carry no note-ons. -/
theorem conductorTrack_no_noteOn (b : PMBuild) :
    ∀ e ∈ conductorTrack b, isNoteOn e.2 = false := by
  intro e he
  rcases List.mem_append.mp he with he | he
  · rcases List.mem_append.mp ((List.perm_insertionSort evLE _).mem_iff.mp he)
      with he2 | he2
    · rcases List.mem_map.mp he2 with ⟨seg, _, rfl⟩
      rfl
    · rcases List.mem_map.mp he2 with ⟨ts, _, rfl⟩
      rfl
  · rcases List.mem_singleton.mp he with rfl
    rfl

/-- C10: when the `instruments` key is present, the flat `notes` key is
ignored, even for an empty instruments list; and an input with neither key
(and nothing else invalid) still encodes successfully, to a well-formed MIDI
byte stream that decodes back to a score with no instruments at all. -/
theorem instruments_key_precedence (b64encode : List ℕ → String)
    (data : GenerateInput) :
    (∀ insts, data.instruments = some insts →
      (buildMidi data).instruments = insts.map pmInstrumentOfJson) ∧
    ((data.instruments = some [] ∨ (data.instruments = none ∧ data.notes = none)) →
      validateBuild (buildMidi data) = none →
      ∃ bytes pm,
        generate_midi writeSMF b64encode data =
          ⟨200, .midiPayload (b64encode bytes)⟩ ∧
        decodeScore bytes = .ok pm ∧ pm.instruments = []) := by
  constructor
  · intro insts hinsts
    simp [buildMidi, hinsts]
  · intro hemp hv
    have hinstsE : (buildMidi data).instruments = [] := by
      rcases hemp with h | ⟨h1, h2⟩
      · simp [buildMidi, h]
      · simp [buildMidi, h1, h2]
    have hw : writeSMF (buildMidi data) = .ok
        (headerChunk (midiTracks (buildMidi data)).length ++
          (midiTracks (buildMidi data)).flatMap trackChunk) := by
      unfold writeSMF
      rw [hv]
    refine ⟨headerChunk (midiTracks (buildMidi data)).length ++
        (midiTracks (buildMidi data)).flatMap trackChunk,
      scoreOfParsed ⟨1, 220, midiTracks (buildMidi data)⟩, ?_, ?_, ?_⟩
    · unfold generate_midi
      rw [hw]
    · unfold decodeScore
      rw [writeSMF_parseSMF _ _ hw]
      rfl
    · have htr : midiTracks (buildMidi data) = [conductorTrack (buildMidi data)] := by
        unfold midiTracks
        rw [hinstsE]
        rfl
      unfold scoreOfParsed
      simp only [htr, List.flatMap_cons, List.flatMap_nil, List.append_nil]
      rw [assembleTrack_no_noteOn _ (conductorTrack_no_noteOn _)]
      rfl

/-- The empty request builds a validated score. -/
theorem validateBuild_empty_input : validateBuild (buildMidi {}) = none := by
  norm_num [validateBuild, buildMidi, midiTracks, conductorTrack,
    conductorEvents, condTempoEvents, condTimeSigEvents,
    buildTempoSegments, tickOfSec, exactTickAux, ticksPerSec,
    muspqOfTempo, rnd, evLE, evPrio, List.insertionSort, List.orderedInsert,
    lastTickOf, channelsFor, nonDrumChannels, validNote, validInstrument,
    validTempoChange, validTimeSig, pow2Log, trackTicksOK, trackLenOK,
    encodeTrackEvents, writeVarLen, encodeEvent, RESOLUTION, DRUM_CHANNEL,
    DEFAULT_PROGRAM, sortTempoChanges]

/-- Witness for C10 at the empty request body. -/
theorem instruments_key_precedence_witness :
    ∃ bytes pm,
      generate_midi writeSMF (fun _ => "encoded") {} =
        ⟨200, .midiPayload ((fun _ : List ℕ => "encoded") bytes)⟩ ∧
      decodeScore bytes = .ok pm ∧ pm.instruments = [] :=
  (instruments_key_precedence (fun _ => "encoded") {}).2
    (Or.inr ⟨rfl, rfl⟩) validateBuild_empty_input

/-! ## Round-trip: the assembler inverts the serializer

The serializer interleaves each instrument's note-on/note-off pairs into one
tick-sorted stream; the assembler pairs them back FIFO per (channel, pitch).
Events of different pitches commute through the assembler, so the sorted
stream may be reordered pitch class by pitch class, where the pairing is a
simple induction. -/

/-- The pitch a note event addresses. -/
def pitchKey : MidiEvent → Option ℕ
  | .noteOn _ p _ => some p
  | .noteOff _ p => some p
  | _ => none

/-- A note-opening or note-closing event on channel `ch`, with note-ons
strictly positive (velocity-0 note-ons act as note-offs and are excluded by
the round-trip hypotheses). -/
def noteEvent (ch : ℕ) (e : ℕ × MidiEvent) : Prop :=
  (∃ p v, e.2 = .noteOn ch p v ∧ 0 < v) ∨ (∃ p, e.2 = .noteOff ch p)

/-- The events of one pitch class, in stream order. -/
def filterPitch (p : ℕ) (evs : List (ℕ × MidiEvent)) : List (ℕ × MidiEvent) :=
  evs.filter fun e => pitchKey e.2 = some p

/-- Assembler states equal up to the order of completed notes. -/
def StEquiv (st₁ st₂ : AsmState) : Prop :=
  st₁.openNotes = st₂.openNotes ∧ st₁.prog = st₂.prog ∧
    st₁.doneNotes.Perm st₂.doneNotes

theorem StEquiv.refl (st : AsmState) : StEquiv st st :=
  ⟨rfl, rfl, List.Perm.refl _⟩

theorem StEquiv.trans {a b c : AsmState} (h₁ : StEquiv a b) (h₂ : StEquiv b c) :
    StEquiv a c :=
  ⟨h₁.1.trans h₂.1, h₂.2.1 ▸ h₁.2.1, h₁.2.2.trans h₂.2.2⟩

/-- The queues after closing a note: the addressed queue loses its head. -/
theorem closeNote_openNotes (division : ℕ) (tm : List (ℕ × ℕ)) (st : AsmState)
    (ch p t : ℕ) :
    (closeNote division tm st ch p t).openNotes = fun c q =>
      if c = ch ∧ q = p then (st.openNotes ch p).drop 1 else st.openNotes c q := by
  unfold closeNote
  rcases hq : st.openNotes ch p with _ | ⟨e0, rest⟩
  · funext c q
    by_cases hcq : c = ch ∧ q = p
    · obtain ⟨hc, hqp⟩ := hcq
      subst hc; subst hqp
      rw [if_pos ⟨rfl, rfl⟩]
      exact hq
    · rw [if_neg hcq]
  · rcases e0 with ⟨t0, v0, pr0⟩
    rfl

/-- Closing a note leaves the running programs untouched. -/
theorem closeNote_prog (division : ℕ) (tm : List (ℕ × ℕ)) (st : AsmState)
    (ch p t : ℕ) : (closeNote division tm st ch p t).prog = st.prog := by
  unfold closeNote
  rcases st.openNotes ch p with _ | ⟨⟨t0, v0, pr0⟩, rest⟩ <;> rfl

/-- The completed notes after closing: at most one note is appended, and it
depends only on the addressed queue's head. -/
theorem closeNote_doneNotes (division : ℕ) (tm : List (ℕ × ℕ)) (st : AsmState)
    (ch p t : ℕ) :
    (closeNote division tm st ch p t).doneNotes = st.doneNotes ++
      (match st.openNotes ch p with
       | [] => []
       | (t0, v0, pr0) :: _ =>
         [(ch, pr0, ⟨v0, p, secOfTick division tm t0, secOfTick division tm t⟩)]) := by
  unfold closeNote
  rcases hq : st.openNotes ch p with _ | ⟨⟨t0, v0, pr0⟩, rest⟩
  · simp
  · rfl

theorem StEquiv.symm {a b : AsmState} (h : StEquiv a b) : StEquiv b a :=
  ⟨h.1.symm, h.2.1.symm, h.2.2.symm⟩

/-- Queues after a positive-velocity note-on: push on the addressed key. -/
theorem asmStep_on_openNotes (division : ℕ) (tm : List (ℕ × ℕ)) (st : AsmState)
    (t ch p v : ℕ) (hv : v ≠ 0) :
    (asmStep division tm st (t, .noteOn ch p v)).openNotes = fun c q =>
      if c = ch ∧ q = p then st.openNotes ch p ++ [(t, v, st.prog ch)]
      else st.openNotes c q := by
  simp [asmStep, hv]

theorem asmStep_on_prog (division : ℕ) (tm : List (ℕ × ℕ)) (st : AsmState)
    (t ch p v : ℕ) (hv : v ≠ 0) :
    (asmStep division tm st (t, .noteOn ch p v)).prog = st.prog := by
  simp [asmStep, hv]

theorem asmStep_on_doneNotes (division : ℕ) (tm : List (ℕ × ℕ)) (st : AsmState)
    (t ch p v : ℕ) (hv : v ≠ 0) :
    (asmStep division tm st (t, .noteOn ch p v)).doneNotes = st.doneNotes := by
  simp [asmStep, hv]

theorem asmStep_noteOff_eq (division : ℕ) (tm : List (ℕ × ℕ)) (st : AsmState)
    (t ch p : ℕ) :
    asmStep division tm st (t, .noteOff ch p) = closeNote division tm st ch p t := rfl

/-- Closing respects assembler-state equivalence. -/
theorem closeNote_congr (division : ℕ) (tm : List (ℕ × ℕ)) {st₁ st₂ : AsmState}
    (h : StEquiv st₁ st₂) (ch p t : ℕ) :
    StEquiv (closeNote division tm st₁ ch p t) (closeNote division tm st₂ ch p t) := by
  obtain ⟨ho, hpr, hdn⟩ := h
  refine ⟨?_, ?_, ?_⟩
  · rw [closeNote_openNotes, closeNote_openNotes, ho]
  · rw [closeNote_prog, closeNote_prog, hpr]
  · rw [closeNote_doneNotes, closeNote_doneNotes, ho]
    exact hdn.append (List.Perm.refl _)

/-- One assembler step respects assembler-state equivalence. -/
theorem asmStep_congr (division : ℕ) (tm : List (ℕ × ℕ)) {st₁ st₂ : AsmState}
    (h : StEquiv st₁ st₂) (e : ℕ × MidiEvent) :
    StEquiv (asmStep division tm st₁ e) (asmStep division tm st₂ e) := by
  obtain ⟨t, ev⟩ := e
  obtain ⟨ho, hpr, hdn⟩ := h
  cases ev with
  | noteOn ch p v =>
    by_cases hv : v = 0
    · subst hv
      simpa only [asmStep, if_pos rfl] using
        closeNote_congr division tm ⟨ho, hpr, hdn⟩ ch p t
    · refine ⟨?_, ?_, ?_⟩
      · rw [asmStep_on_openNotes _ _ _ _ _ _ _ hv, asmStep_on_openNotes _ _ _ _ _ _ _ hv,
          ho, hpr]
      · rw [asmStep_on_prog _ _ _ _ _ _ _ hv, asmStep_on_prog _ _ _ _ _ _ _ hv, hpr]
      · rw [asmStep_on_doneNotes _ _ _ _ _ _ _ hv, asmStep_on_doneNotes _ _ _ _ _ _ _ hv]
        exact hdn
  | noteOff ch p => exact closeNote_congr division tm ⟨ho, hpr, hdn⟩ ch p t
  | progChange ch pr =>
    refine ⟨ho, ?_, hdn⟩
    simp only [asmStep, hpr]
  | setTempo x => exact ⟨ho, hpr, hdn⟩
  | timeSig x y => exact ⟨ho, hpr, hdn⟩
  | endOfTrack => exact ⟨ho, hpr, hdn⟩

/-- Two positive note-ons of different pitches commute. -/
theorem asmStep_comm_on_on (division : ℕ) (tm : List (ℕ × ℕ)) (st : AsmState)
    (t₁ t₂ ch₀ p₁ p₂ v₁ v₂ : ℕ) (hv₁ : v₁ ≠ 0) (hv₂ : v₂ ≠ 0) (hp : p₁ ≠ p₂) :
    StEquiv
      (asmStep division tm (asmStep division tm st (t₁, .noteOn ch₀ p₁ v₁))
        (t₂, .noteOn ch₀ p₂ v₂))
      (asmStep division tm (asmStep division tm st (t₂, .noteOn ch₀ p₂ v₂))
        (t₁, .noteOn ch₀ p₁ v₁)) := by
  refine ⟨?_, ?_, ?_⟩
  · simp only [asmStep_on_openNotes _ _ _ _ _ _ _ hv₁,
      asmStep_on_openNotes _ _ _ _ _ _ _ hv₂,
      asmStep_on_prog _ _ _ _ _ _ _ hv₁, asmStep_on_prog _ _ _ _ _ _ _ hv₂]
    funext c q
    rcases Decidable.em (c = ch₀ ∧ q = p₁) with hk₁ | hk₁ <;>
      rcases Decidable.em (c = ch₀ ∧ q = p₂) with hk₂ | hk₂
    · exact absurd (hk₁.2.symm.trans hk₂.2) hp
    · simp [hk₁, hk₂, hp, Ne.symm hp]
    · simp [hk₁, hk₂, hp, Ne.symm hp]
    · simp [hk₁, hk₂]
  · simp only [asmStep_on_prog _ _ _ _ _ _ _ hv₁, asmStep_on_prog _ _ _ _ _ _ _ hv₂]
  · simp only [asmStep_on_doneNotes _ _ _ _ _ _ _ hv₁,
      asmStep_on_doneNotes _ _ _ _ _ _ _ hv₂]
    exact List.Perm.refl _

/-- A positive note-on and a note-off of different pitches commute exactly. -/
theorem asmStep_comm_on_off (division : ℕ) (tm : List (ℕ × ℕ)) (st : AsmState)
    (t₁ t₂ ch₀ p₁ p₂ v₁ : ℕ) (hv₁ : v₁ ≠ 0) (hp : p₁ ≠ p₂) :
    StEquiv
      (asmStep division tm (asmStep division tm st (t₁, .noteOn ch₀ p₁ v₁))
        (t₂, .noteOff ch₀ p₂))
      (asmStep division tm (asmStep division tm st (t₂, .noteOff ch₀ p₂))
        (t₁, .noteOn ch₀ p₁ v₁)) := by
  refine ⟨?_, ?_, ?_⟩
  · simp only [asmStep_noteOff_eq, closeNote_openNotes,
      asmStep_on_openNotes _ _ _ _ _ _ _ hv₁, asmStep_on_prog _ _ _ _ _ _ _ hv₁,
      closeNote_prog]
    funext c q
    rcases Decidable.em (c = ch₀ ∧ q = p₁) with hk₁ | hk₁ <;>
      rcases Decidable.em (c = ch₀ ∧ q = p₂) with hk₂ | hk₂
    · exact absurd (hk₁.2.symm.trans hk₂.2) hp
    · simp [hk₁, hk₂, hp, Ne.symm hp]
    · simp [hk₁, hk₂, hp, Ne.symm hp]
    · simp [hk₁, hk₂]
  · simp only [asmStep_noteOff_eq, closeNote_prog, asmStep_on_prog _ _ _ _ _ _ _ hv₁]
  · simp only [asmStep_noteOff_eq, closeNote_doneNotes,
      asmStep_on_doneNotes _ _ _ _ _ _ _ hv₁,
      asmStep_on_openNotes _ _ _ _ _ _ _ hv₁]
    rw [if_neg (by rintro ⟨-, hq⟩; omega)]

/-- Two note-offs of different pitches commute up to done-note order. -/
theorem asmStep_comm_off_off (division : ℕ) (tm : List (ℕ × ℕ)) (st : AsmState)
    (t₁ t₂ ch₀ p₁ p₂ : ℕ) (hp : p₁ ≠ p₂) :
    StEquiv
      (asmStep division tm (asmStep division tm st (t₁, .noteOff ch₀ p₁))
        (t₂, .noteOff ch₀ p₂))
      (asmStep division tm (asmStep division tm st (t₂, .noteOff ch₀ p₂))
        (t₁, .noteOff ch₀ p₁)) := by
  refine ⟨?_, ?_, ?_⟩
  · simp only [asmStep_noteOff_eq, closeNote_openNotes]
    funext c q
    rcases Decidable.em (c = ch₀ ∧ q = p₁) with hk₁ | hk₁ <;>
      rcases Decidable.em (c = ch₀ ∧ q = p₂) with hk₂ | hk₂
    · exact absurd (hk₁.2.symm.trans hk₂.2) hp
    · simp [hk₁, hk₂, hp, Ne.symm hp]
    · simp [hk₁, hk₂, hp, Ne.symm hp]
    · simp [hk₁, hk₂]
  · simp only [asmStep_noteOff_eq, closeNote_prog]
  · simp only [asmStep_noteOff_eq, closeNote_doneNotes, closeNote_openNotes]
    rw [if_neg (by rintro ⟨-, hq⟩; omega), if_neg (by rintro ⟨-, hq⟩; omega)]
    rw [List.append_assoc, List.append_assoc]
    exact (List.Perm.refl _).append List.perm_append_comm

/-- Note events of different pitches commute through the assembler. -/
theorem asmStep_comm (division : ℕ) (tm : List (ℕ × ℕ)) (st : AsmState) (ch₀ : ℕ)
    (e₁ e₂ : ℕ × MidiEvent) (h₁ : noteEvent ch₀ e₁) (h₂ : noteEvent ch₀ e₂)
    (hp : pitchKey e₁.2 ≠ pitchKey e₂.2) :
    StEquiv (asmStep division tm (asmStep division tm st e₁) e₂)
      (asmStep division tm (asmStep division tm st e₂) e₁) := by
  obtain ⟨t₁, ev₁⟩ := e₁
  obtain ⟨t₂, ev₂⟩ := e₂
  rcases h₁ with ⟨p₁, v₁, hev₁, hv₁⟩ | ⟨p₁, hev₁⟩ <;>
    rcases h₂ with ⟨p₂, v₂, hev₂, hv₂⟩ | ⟨p₂, hev₂⟩ <;>
    simp only at hev₁ hev₂ <;> subst hev₁ <;> subst hev₂ <;>
    simp only [pitchKey, ne_eq, Option.some.injEq] at hp
  · exact asmStep_comm_on_on division tm st t₁ t₂ ch₀ p₁ p₂ v₁ v₂
      (Nat.pos_iff_ne_zero.mp hv₁) (Nat.pos_iff_ne_zero.mp hv₂) hp
  · exact asmStep_comm_on_off division tm st t₁ t₂ ch₀ p₁ p₂ v₁
      (Nat.pos_iff_ne_zero.mp hv₁) hp
  · exact (asmStep_comm_on_off division tm st t₂ t₁ ch₀ p₂ p₁ v₂
      (Nat.pos_iff_ne_zero.mp hv₂) (Ne.symm hp)).symm
  · exact asmStep_comm_off_off division tm st t₁ t₂ ch₀ p₁ p₂ hp

/-- Running the assembler respects state equivalence. -/
theorem asmRun_congr (division : ℕ) (tm : List (ℕ × ℕ)) {st₁ st₂ : AsmState}
    (h : StEquiv st₁ st₂) (evs : List (ℕ × MidiEvent)) :
    StEquiv (evs.foldl (asmStep division tm) st₁)
      (evs.foldl (asmStep division tm) st₂) := by
  induction evs generalizing st₁ st₂ with
  | nil => exact h
  | cons e rest ih => exact ih (asmStep_congr division tm h e)

/-- A note event can be moved to the front of a prefix of foreign pitches. -/
theorem asmRun_moveFront (division : ℕ) (tm : List (ℕ × ℕ)) (ch₀ : ℕ)
    (e : ℕ × MidiEvent) (he : noteEvent ch₀ e) :
    ∀ (pre post : List (ℕ × MidiEvent)) (st : AsmState),
      (∀ e' ∈ pre, noteEvent ch₀ e' ∧ pitchKey e'.2 ≠ pitchKey e.2) →
      StEquiv ((pre ++ e :: post).foldl (asmStep division tm) st)
        ((e :: (pre ++ post)).foldl (asmStep division tm) st) := by
  intro pre
  induction pre with
  | nil =>
    intro post st _
    exact StEquiv.refl _
  | cons p₀ pre' ih =>
    intro post st hpre
    have h₀ := hpre p₀ (List.mem_cons_self _ _)
    simp only [List.cons_append, List.foldl_cons]
    refine (ih post (asmStep division tm st p₀)
      (fun e' he' => hpre e' (List.mem_cons_of_mem _ he'))).trans ?_
    simp only [List.foldl_cons]
    exact asmRun_congr division tm
      (asmStep_comm division tm st ch₀ p₀ e h₀.1 he h₀.2) (pre' ++ post)

/-- A note event addresses a definite pitch. -/
theorem noteEvent_pitchKey {ch₀ : ℕ} {e : ℕ × MidiEvent} (h : noteEvent ch₀ e) :
    ∃ p, pitchKey e.2 = some p := by
  rcases h with ⟨p, v, hev, -⟩ | ⟨p, hev⟩ <;> exact ⟨p, by rw [hev]; rfl⟩

/-- Two streams that are permutations of one another and list each pitch
class in the same order drive the assembler to equivalent states: the queues
and programs agree, and the completed notes agree as multisets. -/
theorem asmRun_reorder (division : ℕ) (tm : List (ℕ × ℕ)) (ch₀ : ℕ) :
    ∀ (evs evs' : List (ℕ × MidiEvent)) (st : AsmState),
      evs.Perm evs' →
      (∀ e ∈ evs, noteEvent ch₀ e) →
      (∀ p, filterPitch p evs = filterPitch p evs') →
      StEquiv (evs.foldl (asmStep division tm) st)
        (evs'.foldl (asmStep division tm) st) := by
  intro evs
  induction evs with
  | nil =>
    intro evs' st hperm _ _
    rw [hperm.symm.eq_nil]
    exact StEquiv.refl _
  | cons e rest ih =>
    intro evs' st hperm hall hfilters
    have hne : noteEvent ch₀ e := hall e (List.mem_cons_self _ _)
    obtain ⟨p, hpe⟩ := noteEvent_pitchKey hne
    have hcons : filterPitch p evs' = e :: filterPitch p rest := by
      rw [← hfilters p]
      simp [filterPitch, List.filter_cons, hpe]
    rw [filterPitch] at hcons
    obtain ⟨pre, post, rfl, w₁, -, w₃⟩ := List.filter_eq_cons_iff.mp hcons
    have hpre : ∀ e' ∈ pre, noteEvent ch₀ e' ∧ pitchKey e'.2 ≠ pitchKey e.2 := by
      intro e' he'
      have hmem : e' ∈ pre ++ e :: post := List.mem_append_left _ he'
      refine ⟨hall e' (hperm.symm.subset hmem), ?_⟩
      have := w₁ e' he'
      simp only [decide_eq_true_eq] at this
      rw [hpe]
      exact this
    have hperm' : rest.Perm (pre ++ post) := by
      have h1 : (pre ++ e :: post).Perm (e :: (pre ++ post)) :=
        List.perm_middle
      exact (hperm.trans h1).cons_inv
    have hall' : ∀ e' ∈ rest, noteEvent ch₀ e' :=
      fun e' he' => hall e' (List.mem_cons_of_mem _ he')
    have hfilters' : ∀ q, filterPitch q rest = filterPitch q (pre ++ post) := by
      intro q
      by_cases hq : q = p
      · subst hq
        have hnil : pre.filter (fun x => pitchKey x.2 = some q) = [] :=
          List.filter_eq_nil_iff.mpr w₁
        simp only [filterPitch, List.filter_append, hnil, List.nil_append]
        exact w₃.symm
      · have he_skip : ¬ (pitchKey e.2 = some q) := by
          rw [hpe]
          simp only [Option.some.injEq]
          omega
        have h1 : filterPitch q (e :: rest) = filterPitch q rest := by
          simp [filterPitch, List.filter_cons, he_skip]
        have h2 : filterPitch q (pre ++ e :: post) = filterPitch q (pre ++ post) := by
          simp [filterPitch, List.filter_append, List.filter_cons, he_skip]
        rw [← h1, hfilters q, h2]
    have step1 : StEquiv ((pre ++ e :: post).foldl (asmStep division tm) st)
        ((e :: (pre ++ post)).foldl (asmStep division tm) st) :=
      asmRun_moveFront division tm ch₀ e hne pre post st hpre
    simp only [List.foldl_cons]
    exact (ih (pre ++ post) (asmStep division tm st e) hperm' hall' hfilters').trans
      step1.symm

/-- The strict within-track order: by tick, ties by strictly smaller kind
priority.  Antisymmetric (vacuously), which `evLE` is not. -/
def evLT (a b : ℕ × MidiEvent) : Prop :=
  a.1 < b.1 ∨ (a.1 = b.1 ∧ evPrio a.2 < evPrio b.2)

theorem evLT_asymm {a b : ℕ × MidiEvent} (h₁ : evLT a b) (h₂ : evLT b a) : False := by
  rcases h₁ with h₁ | ⟨h₁, h₁'⟩ <;> rcases h₂ with h₂ | ⟨h₂, h₂'⟩ <;> omega

theorem evLT_of_evLE {a b : ℕ × MidiEvent} (hle : evLE a b)
    (hne : (a.1, evPrio a.2) ≠ (b.1, evPrio b.2)) : evLT a b := by
  rcases hle with h | ⟨h, h'⟩
  · exact Or.inl h
  · refine Or.inr ⟨h, ?_⟩
    rcases Nat.lt_or_ge (evPrio a.2) (evPrio b.2) with hlt | hge
    · exact hlt
    · exact absurd (by rw [h, Nat.le_antisymm h' hge]) hne

/-- A tick-0 meta or program-change event precedes every event in the track
order. -/
theorem evLE_zero_meta {ev : MidiEvent} (h : evPrio ev = 0) (x : ℕ × MidiEvent) :
    evLE (0, ev) x := by
  rcases Nat.eq_zero_or_pos x.1 with hx | hx
  · exact Or.inr ⟨hx.symm, by rw [h]; exact Nat.zero_le _⟩
  · exact Or.inl hx

/-- Ordered insertion of a least element is a cons. -/
theorem orderedInsert_least (a : ℕ × MidiEvent) (l : List (ℕ × MidiEvent))
    (ha : ∀ x ∈ l, evLE a x) : List.orderedInsert evLE a l = a :: l := by
  cases l with
  | nil => rfl
  | cons b l => simp [List.orderedInsert, ha b (List.mem_cons_self _ _)]

/-- The sorted body of an instrument track: the optional program change first
(tick 0, meta priority), then the sorted note events. -/
theorem instrumentEvents_decomp (segs : List (ℚ × ℚ)) (ch : ℕ) (inst : PMInstrument) :
    instrumentEvents segs ch inst =
      (if inst.program = DEFAULT_PROGRAM then ([] : List (ℕ × MidiEvent))
       else [(0, .progChange ch inst.program.toNat)]) ++
      List.insertionSort evLE (instNoteEvents segs ch inst) := by
  unfold instrumentEvents instPcEvents
  by_cases hpr : inst.program = DEFAULT_PROGRAM
  · rw [if_pos hpr]
    rw [List.nil_append, List.nil_append]
  · rw [if_neg hpr]
    rw [List.singleton_append, List.singleton_append, List.insertionSort]
    exact orderedInsert_least _ _ fun x _ => evLE_zero_meta (by rfl) x

/-- One pitch class's serialized events: an on/off pair per note, given as
`(on tick, off tick, velocity)` triples. -/
def altEvents (ch p : ℕ) (ns : List (ℕ × ℕ × ℕ)) : List (ℕ × MidiEvent) :=
  ns.flatMap fun n => [(n.1, .noteOn ch p n.2.2), (n.2.1, .noteOff ch p)]

/-- Running the assembler over one pitch class's adjacent on/off pairs from
an empty queue: each pair completes immediately, the queues and programs end
unchanged, and the completed notes carry the running program. -/
theorem asmRun_altEvents (division : ℕ) (tm : List (ℕ × ℕ)) (ch p : ℕ) :
    ∀ (ns : List (ℕ × ℕ × ℕ)) (st : AsmState),
      st.openNotes ch p = [] →
      (∀ n ∈ ns, n.2.2 ≠ 0) →
      ((altEvents ch p ns).foldl (asmStep division tm) st).openNotes = st.openNotes ∧
      ((altEvents ch p ns).foldl (asmStep division tm) st).prog = st.prog ∧
      ((altEvents ch p ns).foldl (asmStep division tm) st).doneNotes =
        st.doneNotes ++ ns.map fun n =>
          (ch, st.prog ch,
            ⟨n.2.2, p, secOfTick division tm n.1, secOfTick division tm n.2.1⟩) := by
  intro ns
  induction ns with
  | nil =>
    intro st _ _
    exact ⟨rfl, rfl, (List.append_nil _).symm⟩
  | cons n ns ih =>
    intro st hq hv
    obtain ⟨a, b, v⟩ := n
    have hv0 : v ≠ 0 := hv _ (List.mem_cons_self _ _)
    have hstep : (altEvents ch p ((a, b, v) :: ns)).foldl (asmStep division tm) st =
        (altEvents ch p ns).foldl (asmStep division tm)
          (asmStep division tm (asmStep division tm st (a, .noteOn ch p v))
            (b, .noteOff ch p)) := by
      rw [altEvents, List.flatMap_cons, ← altEvents]
      rfl
    set st₁ := asmStep division tm st (a, .noteOn ch p v) with hst₁
    set st₂ := asmStep division tm st₁ (b, .noteOff ch p) with hst₂
    have h₁o : st₁.openNotes = fun c q =>
        if c = ch ∧ q = p then [(a, v, st.prog ch)] else st.openNotes c q := by
      rw [hst₁, asmStep_on_openNotes _ _ _ _ _ _ _ hv0, hq]
      rfl
    have h₁p : st₁.prog = st.prog := asmStep_on_prog _ _ _ _ _ _ _ hv0
    have h₁d : st₁.doneNotes = st.doneNotes := asmStep_on_doneNotes _ _ _ _ _ _ _ hv0
    have h₁hd : st₁.openNotes ch p = [(a, v, st.prog ch)] := by
      rw [h₁o]
      simp
    have h₂o : st₂.openNotes = st.openNotes := by
      rw [hst₂, asmStep_noteOff_eq, closeNote_openNotes]
      funext c q
      by_cases hcq : c = ch ∧ q = p
      · obtain ⟨hc, hqp⟩ := hcq
        subst hc; subst hqp
        rw [if_pos ⟨rfl, rfl⟩, h₁hd, hq]
        rfl
      · rw [if_neg hcq, h₁o]
        simp only [if_neg hcq]
    have h₂p : st₂.prog = st.prog := by
      rw [hst₂, asmStep_noteOff_eq, closeNote_prog, h₁p]
    have h₂d : st₂.doneNotes = st.doneNotes ++
        [(ch, st.prog ch, ⟨v, p, secOfTick division tm a, secOfTick division tm b⟩)] := by
      rw [hst₂, asmStep_noteOff_eq, closeNote_doneNotes, h₁hd, h₁d]
    have h₂q : st₂.openNotes ch p = [] := by rw [h₂o, hq]
    obtain ⟨ihO, ihP, ihD⟩ := ih st₂ h₂q fun m hm => hv m (List.mem_cons_of_mem _ hm)
    rw [hstep]
    refine ⟨ihO.trans h₂o, ihP.trans h₂p, ?_⟩
    rw [ihD, h₂d, h₂p, List.map_cons, List.append_assoc, List.singleton_append]

/-- Running the assembler over pitch classes laid end to end: queues and
programs end unchanged and the completed notes concatenate per class. -/
theorem asmRun_altGroups (division : ℕ) (tm : List (ℕ × ℕ)) (ch : ℕ) :
    ∀ (groups : List (ℕ × List (ℕ × ℕ × ℕ))) (st : AsmState),
      (∀ g ∈ groups, st.openNotes ch g.1 = []) →
      (∀ g ∈ groups, ∀ n ∈ g.2, n.2.2 ≠ 0) →
      ((groups.flatMap fun g => altEvents ch g.1 g.2).foldl
          (asmStep division tm) st).openNotes = st.openNotes ∧
      ((groups.flatMap fun g => altEvents ch g.1 g.2).foldl
          (asmStep division tm) st).prog = st.prog ∧
      ((groups.flatMap fun g => altEvents ch g.1 g.2).foldl
          (asmStep division tm) st).doneNotes =
        st.doneNotes ++ groups.flatMap fun g => g.2.map fun n =>
          (ch, st.prog ch,
            ⟨n.2.2, g.1, secOfTick division tm n.1, secOfTick division tm n.2.1⟩) := by
  intro groups
  induction groups with
  | nil =>
    intro st _ _
    exact ⟨rfl, rfl, (List.append_nil _).symm⟩
  | cons g gs ih =>
    intro st hq hv
    rw [List.flatMap_cons, List.foldl_append]
    obtain ⟨gO, gP, gD⟩ := asmRun_altEvents division tm ch g.1 g.2 st
      (hq g (List.mem_cons_self _ _)) (hv g (List.mem_cons_self _ _))
    set st₁ := (altEvents ch g.1 g.2).foldl (asmStep division tm) st
    obtain ⟨ihO, ihP, ihD⟩ := ih st₁
      (fun g' hg' => gO ▸ hq g' (List.mem_cons_of_mem _ hg'))
      (fun g' hg' => hv g' (List.mem_cons_of_mem _ hg'))
    refine ⟨ihO.trans gO, ihP.trans gP, ?_⟩
    rw [ihD, gD]
    simp only [gP]
    rw [List.flatMap_cons, List.append_assoc]

theorem flatMap_congr_mem {α β : Type} {l : List α} {f g : α → List β}
    (h : ∀ x ∈ l, f x = g x) : l.flatMap f = l.flatMap g := by
  induction l with
  | nil => rfl
  | cons a l ih =>
    rw [List.flatMap_cons, List.flatMap_cons, h a (List.mem_cons_self _ _),
      ih fun x hx => h x (List.mem_cons_of_mem _ hx)]

/-- A list is a permutation of its fibers under a key function, laid end to
end over any duplicate-free covering list of keys. -/
theorem flatMap_filter_fibers {α κ : Type} [DecidableEq κ] (key : α → κ) :
    ∀ (ks : List κ) (l : List α), ks.Nodup → (∀ x ∈ l, key x ∈ ks) →
      (ks.flatMap fun k => l.filter fun x => key x = k).Perm l := by
  intro ks
  induction ks with
  | nil =>
    intro l _ hcov
    have hl : l = [] :=
      List.eq_nil_iff_forall_not_mem.mpr fun x hx => (List.not_mem_nil _) (hcov x hx)
    subst hl
    exact List.Perm.refl _
  | cons k₀ ks ih =>
    intro l hnd hcov
    rw [List.flatMap_cons]
    have hfibers : ∀ k ∈ ks, (l.filter fun x => key x = k) =
        ((l.filter fun x => !(decide (key x = k₀))).filter fun x => key x = k) := by
      intro k hk
      have hk0 : k ≠ k₀ := by
        rintro rfl
        exact (List.nodup_cons.mp hnd).1 hk
      rw [List.filter_filter]
      refine (List.filter_congr fun x _ => ?_)
      by_cases hx : key x = k
      · simp [hx, hk0]
      · simp [hx]
    have hstep : (ks.flatMap fun k => l.filter fun x => key x = k) =
        (ks.flatMap fun k =>
          (l.filter fun x => !(decide (key x = k₀))).filter fun x => key x = k) :=
      flatMap_congr_mem hfibers
    have hcov' : ∀ x ∈ (l.filter fun x => !(decide (key x = k₀))), key x ∈ ks := by
      intro x hx
      obtain ⟨hxl, hxk⟩ := List.mem_filter.mp hx
      rcases List.mem_cons.mp (hcov x hxl) with h | h
      · simp [h] at hxk
      · exact h
    have hperm := ih (l.filter fun x => !(decide (key x = k₀)))
      (List.nodup_cons.mp hnd).2 hcov'
    rw [hstep]
    exact ((List.Perm.refl _).append hperm).trans
      (List.filter_append_perm (fun x => decide (key x = k₀)) l)

theorem filterPitch_filterPitch (q k : ℕ) (l : List (ℕ × MidiEvent)) :
    filterPitch q (filterPitch k l) =
      if q = k then filterPitch k l else [] := by
  unfold filterPitch
  rw [List.filter_filter]
  by_cases hqk : q = k
  · subst hqk
    rw [if_pos rfl]
    refine List.filter_congr fun x _ => ?_
    by_cases hx : pitchKey x.2 = some q <;> simp [hx]
  · rw [if_neg hqk]
    refine List.filter_eq_nil_iff.mpr fun x _ => ?_
    by_cases hx : pitchKey x.2 = some q <;> simp [hx, hqk]

theorem filterPitch_flatMap_fibers (l : List (ℕ × MidiEvent)) :
    ∀ (ks : List ℕ), ks.Nodup → ∀ q,
      filterPitch q (ks.flatMap fun k => filterPitch k l) =
        if q ∈ ks then filterPitch q l else [] := by
  intro ks
  induction ks with
  | nil =>
    intro _ q
    simp [filterPitch]
  | cons k₀ ks ih =>
    intro hnd q
    rw [List.flatMap_cons]
    have happ : filterPitch q (filterPitch k₀ l ++ ks.flatMap fun k => filterPitch k l) =
        filterPitch q (filterPitch k₀ l) ++
          filterPitch q (ks.flatMap fun k => filterPitch k l) := by
      unfold filterPitch
      rw [List.filter_append]
    rw [happ, filterPitch_filterPitch, ih (List.nodup_cons.mp hnd).2 q]
    by_cases hq0 : q = k₀
    · subst hq0
      rw [if_pos rfl, if_neg (List.nodup_cons.mp hnd).1,
        if_pos (List.mem_cons_self _ _), List.append_nil]
    · rw [if_neg hq0]
      rw [List.nil_append]
      by_cases hqs : q ∈ ks
      · rw [if_pos hqs, if_pos (List.mem_cons_of_mem _ hqs)]
      · rw [if_neg hqs, if_neg (by simp [hq0, hqs])]

theorem altEvents_mem {ch p : ℕ} {ns : List (ℕ × ℕ × ℕ)} {e : ℕ × MidiEvent}
    (he : e ∈ altEvents ch p ns) :
    ∃ m ∈ ns, e = (m.1, .noteOn ch p m.2.2) ∨ e = (m.2.1, .noteOff ch p) := by
  rw [altEvents, List.mem_flatMap] at he
  obtain ⟨m, hm, he⟩ := he
  rcases List.mem_cons.mp he with h | h
  · exact ⟨m, hm, Or.inl h⟩
  · exact ⟨m, hm, Or.inr (List.mem_singleton.mp h)⟩

/-- Disjoint, in-order, strictly positive-length pairs expand to a strictly
ordered event stream. -/
theorem altEvents_pairwise_evLT (ch p : ℕ) :
    ∀ (ns : List (ℕ × ℕ × ℕ)),
      List.Pairwise (fun x y : ℕ × ℕ × ℕ => x.2.1 ≤ y.1) ns →
      (∀ n ∈ ns, n.1 < n.2.1) →
      List.Pairwise evLT (altEvents ch p ns) := by
  intro ns
  induction ns with
  | nil =>
    intro _ _
    exact List.Pairwise.nil
  | cons n ns ih =>
    intro hpw hlen
    obtain ⟨hhead, htail⟩ := List.pairwise_cons.mp hpw
    have hn : n.1 < n.2.1 := hlen n (List.mem_cons_self _ _)
    have halt : altEvents ch p (n :: ns) =
        (n.1, .noteOn ch p n.2.2) :: (n.2.1, .noteOff ch p) :: altEvents ch p ns := by
      rw [altEvents, List.flatMap_cons, ← altEvents]
      rfl
    rw [halt]
    have hbound : ∀ e ∈ altEvents ch p ns, n.2.1 ≤ e.1 ∧
        (e.1 = n.2.1 → evPrio e.2 = 2) := by
      intro e he
      obtain ⟨m, hm, hcase⟩ := altEvents_mem he
      have hm1 : n.2.1 ≤ m.1 := hhead m hm
      have hm2 : m.1 < m.2.1 := hlen m (List.mem_cons_of_mem _ hm)
      rcases hcase with rfl | rfl
      · exact ⟨hm1, fun _ => rfl⟩
      · exact ⟨le_trans hm1 (Nat.le_of_lt hm2), fun h => by omega⟩
    refine List.Pairwise.cons ?_ (List.Pairwise.cons ?_ (ih htail
      fun m hm => hlen m (List.mem_cons_of_mem _ hm)))
    · intro e he
      rcases List.mem_cons.mp he with rfl | he
      · exact Or.inl hn
      · obtain ⟨hb, -⟩ := hbound e he
        exact Or.inl (lt_of_lt_of_le hn hb)
    · intro e he
      obtain ⟨hb, heq⟩ := hbound e he
      rcases Nat.eq_or_lt_of_le hb with h | h
      · exact Or.inr ⟨h, by rw [heq h.symm]; exact Nat.one_lt_two⟩
      · exact Or.inl h

/-- The tick triple a note serializes to. -/
def noteTrip (segs : List (ℚ × ℚ)) (n : PMNote) : ℕ × ℕ × ℕ :=
  (tickOfSec segs n.start, tickOfSec segs n.end_, n.velocity.toNat)

/-- The pitch-`p` fiber of an instrument's raw note events is the expansion
of its pitch-`p` notes, in note order. -/
theorem filterPitch_noteEvents (segs : List (ℚ × ℚ)) (ch p : ℕ) :
    ∀ ns : List PMNote,
      filterPitch p (ns.flatMap fun n =>
        [(tickOfSec segs n.start, MidiEvent.noteOn ch n.pitch.toNat n.velocity.toNat),
         (tickOfSec segs n.end_, MidiEvent.noteOff ch n.pitch.toNat)]) =
      altEvents ch p ((ns.filter fun n => n.pitch.toNat = p).map (noteTrip segs)) := by
  intro ns
  induction ns with
  | nil => rfl
  | cons n ns ih =>
    have ih' := ih
    rw [filterPitch] at ih'
    rw [filterPitch, List.flatMap_cons, List.filter_append, ih']
    by_cases hp : n.pitch.toNat = p
    · have hhead : (List.filter (fun e => decide (pitchKey e.2 = some p))
          [(tickOfSec segs n.start, MidiEvent.noteOn ch n.pitch.toNat n.velocity.toNat),
           (tickOfSec segs n.end_, MidiEvent.noteOff ch n.pitch.toNat)]) =
          [(tickOfSec segs n.start, MidiEvent.noteOn ch n.pitch.toNat n.velocity.toNat),
           (tickOfSec segs n.end_, MidiEvent.noteOff ch n.pitch.toNat)] := by
        simp [pitchKey, hp]
      have hfil : List.filter (fun n => decide (n.pitch.toNat = p)) (n :: ns) =
          n :: List.filter (fun n => decide (n.pitch.toNat = p)) ns := by
        simp [List.filter_cons, hp]
      rw [hhead, hfil, List.map_cons]
      have hexp : altEvents ch p (noteTrip segs n ::
          (List.map (noteTrip segs) (ns.filter fun n => n.pitch.toNat = p))) =
          (tickOfSec segs n.start, .noteOn ch p n.velocity.toNat) ::
          (tickOfSec segs n.end_, .noteOff ch p) ::
          altEvents ch p ((ns.filter fun n => n.pitch.toNat = p).map (noteTrip segs)) := by
        rw [altEvents, List.flatMap_cons, ← altEvents]
        rfl
      rw [hexp]
      simp [hp]
    · have hhead : (List.filter (fun e => decide (pitchKey e.2 = some p))
          [(tickOfSec segs n.start, MidiEvent.noteOn ch n.pitch.toNat n.velocity.toNat),
           (tickOfSec segs n.end_, MidiEvent.noteOff ch n.pitch.toNat)]) = [] := by
        simp [pitchKey, hp]
      have hfil : List.filter (fun n => decide (n.pitch.toNat = p)) (n :: ns) =
          List.filter (fun n => decide (n.pitch.toNat = p)) ns := by
        simp [List.filter_cons, hp]
      rw [hhead, hfil, List.nil_append]

/-- The pitch-`p` fiber of a sorted instrument body is exactly the expansion
of its pitch-`p` notes sorted by start tick: per-pitch tick-disjointness
makes the within-pitch keys distinct, so the sorted order is unique. -/
theorem fiber_eq_altEvents (segs : List (ℚ × ℚ)) (ch : ℕ) (inst : PMInstrument)
    (hdisj : List.Pairwise (fun n m : PMNote => n.pitch.toNat = m.pitch.toNat →
      tickOfSec segs n.end_ ≤ tickOfSec segs m.start ∨
      tickOfSec segs m.end_ ≤ tickOfSec segs n.start) inst.notes)
    (hlen : ∀ n ∈ inst.notes, tickOfSec segs n.start < tickOfSec segs n.end_)
    (p : ℕ) :
    filterPitch p (List.insertionSort evLE (instNoteEvents segs ch inst)) =
      altEvents ch p (List.insertionSort (fun a b : ℕ × ℕ × ℕ => a.1 ≤ b.1)
        ((inst.notes.filter fun n => n.pitch.toNat = p).map (noteTrip segs))) := by
  haveI : IsTotal (ℕ × ℕ × ℕ) (fun a b : ℕ × ℕ × ℕ => a.1 ≤ b.1) :=
    ⟨fun a b => Nat.le_total a.1 b.1⟩
  haveI : IsTrans (ℕ × ℕ × ℕ) (fun a b : ℕ × ℕ × ℕ => a.1 ≤ b.1) :=
    ⟨fun _ _ _ => Nat.le_trans⟩
  haveI : IsAntisymm (ℕ × MidiEvent) evLT :=
    ⟨fun a b h1 h2 => (evLT_asymm h1 h2).elim⟩
  set trips := (inst.notes.filter fun n => n.pitch.toNat = p).map (noteTrip segs)
    with htrips
  set sT := List.insertionSort (fun a b : ℕ × ℕ × ℕ => a.1 ≤ b.1) trips with hsT
  have hfib_le : (filterPitch p
      (List.insertionSort evLE (instNoteEvents segs ch inst))).Pairwise evLE := by
    rw [filterPitch]
    exact (List.sorted_insertionSort evLE (instNoteEvents segs ch inst)).filter _
  have hfibeq : filterPitch p (instNoteEvents segs ch inst) = altEvents ch p trips := by
    rw [htrips, instNoteEvents]
    exact filterPitch_noteEvents segs ch p inst.notes
  have hperm1 : (filterPitch p
      (List.insertionSort evLE (instNoteEvents segs ch inst))).Perm
      (altEvents ch p trips) := by
    rw [← hfibeq, filterPitch, filterPitch]
    exact (List.perm_insertionSort evLE (instNoteEvents segs ch inst)).filter _
  have hperm2 : (altEvents ch p sT).Perm (altEvents ch p trips) := by
    rw [altEvents, altEvents]
    exact List.Perm.flatMap_right _ (List.perm_insertionSort _ trips)
  have hperm : (filterPitch p
      (List.insertionSort evLE (instNoteEvents segs ch inst))).Perm
      (altEvents ch p sT) :=
    hperm1.trans hperm2.symm
  -- disjointness and strict length on the sorted triples
  have htrip_mem : ∀ x ∈ trips, x.1 < x.2.1 := by
    intro x hx
    rw [htrips] at hx
    obtain ⟨n, hn, rfl⟩ := List.mem_map.mp hx
    exact hlen n (List.mem_filter.mp hn).1
  have hS_mem : ∀ x ∈ sT, x.1 < x.2.1 := fun x hx =>
    htrip_mem x ((List.perm_insertionSort _ trips).subset hx)
  have htrip_disj : trips.Pairwise
      (fun x y : ℕ × ℕ × ℕ => x.2.1 ≤ y.1 ∨ y.2.1 ≤ x.1) := by
    rw [htrips, List.pairwise_map]
    refine (hdisj.filter _).imp_of_mem ?_
    intro a b ha hb hab
    have hpa : a.pitch.toNat = p := by
      have := (List.mem_filter.mp ha).2
      simpa using this
    have hpb : b.pitch.toNat = p := by
      have := (List.mem_filter.mp hb).2
      simpa using this
    exact hab (hpa.trans hpb.symm)
  have hS_disj : sT.Pairwise (fun x y : ℕ × ℕ × ℕ => x.2.1 ≤ y.1 ∨ y.2.1 ≤ x.1) :=
    ((List.perm_insertionSort _ trips).pairwise_iff fun h => h.symm).mpr htrip_disj
  have hS_sorted : sT.Pairwise (fun a b : ℕ × ℕ × ℕ => a.1 ≤ b.1) :=
    List.sorted_insertionSort _ trips
  have hS_chain : sT.Pairwise (fun x y : ℕ × ℕ × ℕ => x.2.1 ≤ y.1) := by
    refine (hS_sorted.and hS_disj).imp_of_mem ?_
    intro a b ha hb hab
    have h1 := hS_mem a ha
    have h2 := hS_mem b hb
    rcases hab.2 with h | h
    · exact h
    · have := hab.1
      omega
  have hLT : (altEvents ch p sT).Pairwise evLT :=
    altEvents_pairwise_evLT ch p sT hS_chain hS_mem
  have hkeyNe : (altEvents ch p sT).Pairwise
      (fun a b : ℕ × MidiEvent => (a.1, evPrio a.2) ≠ (b.1, evPrio b.2)) := by
    refine hLT.imp ?_
    intro a b h hEq
    rw [Prod.ext_iff] at hEq
    rcases h with h | ⟨h, h'⟩ <;> simp only at hEq <;> omega
  have hfib_keyNe : (filterPitch p
      (List.insertionSort evLE (instNoteEvents segs ch inst))).Pairwise
      (fun a b : ℕ × MidiEvent => (a.1, evPrio a.2) ≠ (b.1, evPrio b.2)) :=
    (hperm.pairwise_iff fun h => h.symm).mpr hkeyNe
  have hfibLT : (filterPitch p
      (List.insertionSort evLE (instNoteEvents segs ch inst))).Pairwise evLT :=
    (hfib_le.and hfib_keyNe).imp fun h => evLT_of_evLE h.1 h.2
  exact List.eq_of_perm_of_sorted hperm hfibLT hLT

/-- The pitch-`k` notes of a list, as sorted tick triples. -/
def sortedTrips (segs : List (ℚ × ℚ)) (k : ℕ) (ns : List PMNote) :
    List (ℕ × ℕ × ℕ) :=
  List.insertionSort (fun a b : ℕ × ℕ × ℕ => a.1 ≤ b.1)
    ((ns.filter fun n => n.pitch.toNat = k).map (noteTrip segs))

/-- The `(channel, program, note)` record a serialized note decodes back to:
pitch and velocity exact, start and end quantized through both time maps. -/
def quantNote (division : ℕ) (tm : List (ℕ × ℕ)) (segs : List (ℚ × ℚ))
    (ch pr : ℕ) (n : PMNote) : ℕ × ℕ × PMNote :=
  (ch, pr, ⟨(n.velocity.toNat : ℤ), (n.pitch.toNat : ℤ),
    secOfTick division tm (tickOfSec segs n.start),
    secOfTick division tm (tickOfSec segs n.end_)⟩)

/-- The assembler inverts the serializer on one instrument track: with
positive velocities and per-pitch tick-disjoint notes of at least one tick,
the completed records are exactly the instrument's notes (as a multiset),
tagged with the channel and program, with ticks mapped back to seconds. -/
theorem assembleTrack_instrumentTrack (division : ℕ) (tm : List (ℕ × ℕ))
    (segs : List (ℚ × ℚ)) (ch : ℕ) (inst : PMInstrument)
    (hvel : ∀ n ∈ inst.notes, n.velocity.toNat ≠ 0)
    (hdisj : List.Pairwise (fun n m : PMNote => n.pitch.toNat = m.pitch.toNat →
      tickOfSec segs n.end_ ≤ tickOfSec segs m.start ∨
      tickOfSec segs m.end_ ≤ tickOfSec segs n.start) inst.notes)
    (hlen : ∀ n ∈ inst.notes, tickOfSec segs n.start < tickOfSec segs n.end_) :
    (assembleTrack division tm (instrumentTrack segs ch inst)).Perm
      (inst.notes.map (quantNote division tm segs ch inst.program.toNat)) := by
  have hdecomp := instrumentEvents_decomp segs ch inst
  set body := List.insertionSort evLE (instNoteEvents segs ch inst) with hbody
  set pcPre := (if inst.program = DEFAULT_PROGRAM then ([] : List (ℕ × MidiEvent))
      else [(0, .progChange ch inst.program.toNat)]) with hpcPre
  set st0 := pcPre.foldl (asmStep division tm) asmInit with hst0
  have h0open : st0.openNotes = fun _ _ => [] := by
    rw [hst0, hpcPre]
    by_cases hp : inst.program = DEFAULT_PROGRAM
    · rw [if_pos hp]
      rfl
    · rw [if_neg hp]
      rfl
  have h0done : st0.doneNotes = [] := by
    rw [hst0, hpcPre]
    by_cases hp : inst.program = DEFAULT_PROGRAM
    · rw [if_pos hp]
      rfl
    · rw [if_neg hp]
      rfl
  have h0prog : st0.prog ch = inst.program.toNat := by
    rw [hst0, hpcPre]
    by_cases hp : inst.program = DEFAULT_PROGRAM
    · rw [if_pos hp, hp]
      rfl
    · rw [if_neg hp]
      simp [asmStep, asmInit]
  -- every body event is a note event of channel ch
  have hallne : ∀ e ∈ body, noteEvent ch e := by
    intro e he
    have he' : e ∈ instNoteEvents segs ch inst :=
      (List.perm_insertionSort evLE _).subset he
    rw [instNoteEvents, List.mem_flatMap] at he'
    obtain ⟨n, hn, hmem⟩ := he'
    rcases List.mem_cons.mp hmem with rfl | hmem
    · exact Or.inl ⟨n.pitch.toNat, n.velocity.toNat, rfl,
        Nat.pos_of_ne_zero (hvel n hn)⟩
    · rw [List.mem_singleton.mp hmem]
      exact Or.inr ⟨n.pitch.toNat, rfl⟩
  set ks := ((body.map fun e => (pitchKey e.2).getD 0).dedup) with hks
  have hfib_eq : ∀ k, (body.filter fun x => (pitchKey x.2).getD 0 = k) =
      filterPitch k body := by
    intro k
    rw [filterPitch]
    refine List.filter_congr fun x hx => ?_
    obtain ⟨p, hp⟩ := noteEvent_pitchKey (hallne x hx)
    rw [hp]
    simp
  have hcov : ∀ x ∈ body, (pitchKey x.2).getD 0 ∈ ks := by
    intro x hx
    rw [hks]
    exact List.mem_dedup.mpr (List.mem_map_of_mem _ hx)
  have hgrouped_perm : (ks.flatMap fun k => filterPitch k body).Perm body := by
    have h := flatMap_filter_fibers (fun e => (pitchKey e.2).getD 0) ks body
      (List.nodup_dedup _) hcov
    rwa [flatMap_congr_mem fun k _ => hfib_eq k] at h
  have hfilters : ∀ q, filterPitch q body =
      filterPitch q (ks.flatMap fun k => filterPitch k body) := by
    intro q
    rw [filterPitch_flatMap_fibers body ks (List.nodup_dedup _) q]
    by_cases hq : q ∈ ks
    · rw [if_pos hq]
    · rw [if_neg hq]
      rw [filterPitch]
      refine List.filter_eq_nil_iff.mpr fun x hx => ?_
      simp only [decide_eq_true_eq]
      intro hxq
      refine hq ?_
      have := hcov x hx
      rwa [hxq] at this
  have hequiv := asmRun_reorder division tm ch body
    (ks.flatMap fun k => filterPitch k body) st0 hgrouped_perm.symm hallne hfilters
  -- the grouped stream is a concatenation of pitch-class alternations
  have hfib_alt : ∀ k, filterPitch k body =
      altEvents ch k (sortedTrips segs k inst.notes) := by
    intro k
    rw [hbody, sortedTrips]
    exact fiber_eq_altEvents segs ch inst hdisj hlen k
  have hgm : (ks.flatMap fun k => filterPitch k body) =
      (ks.map fun k => (k, sortedTrips segs k inst.notes)).flatMap
        (fun g => altEvents ch g.1 g.2) := by
    rw [List.flatMap_map]
    exact flatMap_congr_mem fun k _ => hfib_alt k
  have htripvel : ∀ g ∈ (ks.map fun k => (k, sortedTrips segs k inst.notes)),
      ∀ n ∈ g.2, n.2.2 ≠ 0 := by
    intro g hg n hn
    obtain ⟨k, -, rfl⟩ := List.mem_map.mp hg
    have hn' : n ∈ (inst.notes.filter fun m => m.pitch.toNat = k).map (noteTrip segs) :=
      (List.perm_insertionSort _ _).subset hn
    obtain ⟨m, hm, rfl⟩ := List.mem_map.mp hn'
    exact hvel m (List.mem_filter.mp hm).1
  obtain ⟨hGo, hGp, hGd⟩ := asmRun_altGroups division tm ch
    (ks.map fun k => (k, sortedTrips segs k inst.notes)) st0
    (fun g _ => by rw [h0open]) htripvel
  -- run the whole track
  have hrun : (instrumentTrack segs ch inst).foldl (asmStep division tm) asmInit =
      body.foldl (asmStep division tm) st0 := by
    rw [instrumentTrack, hdecomp, List.foldl_append, List.foldl_append]
    rfl
  obtain ⟨hSo, hSp, hSd⟩ := hequiv
  have hSopen : ∀ c p, (body.foldl (asmStep division tm) st0).openNotes c p = [] := by
    intro c p
    rw [hSo, hgm, hGo, h0open]
  rw [assembleTrack, hrun, asmFlush_empty hSopen]
  -- compare completed notes
  rw [hgm] at hSd
  rw [hGd, h0done, List.nil_append] at hSd
  refine hSd.trans ?_
  rw [List.flatMap_map]
  -- per pitch class: sorted triples back to filtered notes
  have hstep1 : ∀ k ∈ ks,
      ((sortedTrips segs k inst.notes).map fun n =>
        ((ch, st0.prog ch,
          ⟨(n.2.2 : ℤ), (k : ℤ), secOfTick division tm n.1,
            secOfTick division tm n.2.1⟩) : ℕ × ℕ × PMNote)).Perm
      ((inst.notes.filter fun m => m.pitch.toNat = k).map
        (quantNote division tm segs ch inst.program.toNat)) := by
    intro k _
    refine ((List.perm_insertionSort _ _).map _).trans ?_
    rw [List.map_map]
    refine List.Perm.of_eq (List.map_congr_left ?_)
    intro m hm
    have hpk : m.pitch.toNat = k := by
      have := (List.mem_filter.mp hm).2
      simpa using this
    simp [Function.comp, noteTrip, quantNote, hpk, h0prog]
  refine (List.Perm.flatMap_left _ hstep1).trans ?_
  have hmapout : (ks.flatMap fun k =>
      (inst.notes.filter fun m => m.pitch.toNat = k).map
        (quantNote division tm segs ch inst.program.toNat)) =
      (ks.flatMap fun k => inst.notes.filter fun m => m.pitch.toNat = k).map
        (quantNote division tm segs ch inst.program.toNat) := by
    rw [List.map_flatMap]
  rw [hmapout]
  refine List.Perm.map _ ?_
  have hcovN : ∀ m ∈ inst.notes, (fun n : PMNote => n.pitch.toNat) m ∈ ks := by
    intro m hm
    have hev : ((tickOfSec segs m.start,
        MidiEvent.noteOn ch m.pitch.toNat m.velocity.toNat) : ℕ × MidiEvent) ∈
        instNoteEvents segs ch inst := by
      rw [instNoteEvents, List.mem_flatMap]
      exact ⟨m, hm, List.mem_cons_self _ _⟩
    have hev' : ((tickOfSec segs m.start,
        MidiEvent.noteOn ch m.pitch.toNat m.velocity.toNat) : ℕ × MidiEvent) ∈ body :=
      (List.perm_insertionSort evLE _).mem_iff.mpr hev
    have := hcov _ hev'
    simpa [pitchKey] using this
  exact flatMap_filter_fibers (fun n : PMNote => n.pitch.toNat) ks inst.notes
    (List.nodup_dedup _) hcovN

/-- A build that validates satisfies every boolean domain check. -/
theorem validateBuild_none_checks (b : PMBuild) (hv : validateBuild b = none) :
    (b.tempo_changes.getD []).all validTempoChange = true ∧
    b.time_signature_changes.all validTimeSig = true ∧
    b.instruments.all validInstrument = true := by
  unfold validateBuild at hv
  split_ifs at hv with h1 h2 h3 h4 h5
  exact ⟨by simpa using h1, by simpa using h2, by simpa using h3⟩

/-- The stored denominator log is exact. -/
theorem pow2Log_spec {n : ℤ} {k : ℕ} (h : pow2Log n = some k) : n = 2 ^ k := by
  unfold pow2Log at h
  rcases List.exists_of_findSome?_eq_some h with ⟨a, _, hfa⟩
  split_ifs at hfa with hn
  cases hfa
  exact hn

/-- With a single tempo segment at time 0, seconds convert to ticks by one
rounded multiplication. -/
theorem tickOfSec_const (bpm s : ℚ) :
    tickOfSec [(0, bpm)] s = (rnd (s * ticksPerSec bpm)).toNat := by
  rw [tickOfSec]
  rw [if_pos rfl]
  congr 1
  rw [exactTickAux]
  ring_nf

/-- Time zero maps to tick zero. -/
theorem tickOfSec_const_zero (bpm : ℚ) : tickOfSec [(0, bpm)] 0 = 0 := by
  rw [tickOfSec_const]
  have h : (0 : ℚ) * ticksPerSec bpm = 0 := by ring
  rw [h]
  have h2 : rnd 0 = 0 := by
    unfold rnd
    norm_num
  rw [h2]
  rfl

/-- With a single tempo event at tick 0, ticks convert to seconds by one
multiplication. -/
theorem secOfTick_single (division mu t : ℕ) :
    secOfTick division [(0, mu)] t = (t : ℚ) * sptOfMuspq division mu := by
  rw [secOfTick]
  rw [secOfTickAux]
  push_cast
  ring

/-- Deduplicating a constant nonempty list keeps the one value. -/
theorem dedup_const {α : Type} [DecidableEq α] (k : α) :
    ∀ (l : List α), l ≠ [] → (∀ x ∈ l, x = k) → l.dedup = [k] := by
  intro l
  induction l with
  | nil => intro h _; exact absurd rfl h
  | cons a l ih =>
    intro _ hall
    have ha : a = k := hall a (List.mem_cons_self _ _)
    subst ha
    cases l with
    | nil => rfl
    | cons b l =>
      have hb : b = a := (hall b (List.mem_cons_of_mem _ (List.mem_cons_self _ _))).trans
        (hall a (List.mem_cons_self _ _)).symm
      have hmem : a ∈ b :: l := by rw [hb]; exact List.mem_cons_self _ _
      rw [List.dedup_cons_of_mem hmem]
      exact ih (List.cons_ne_nil _ _) fun x hx => hall x (List.mem_cons_of_mem _ hx)

/-- Grouping completed records that all share one `(channel, program)` key
yields a single instrument carrying all the notes in order. -/
theorem groupInstruments_const (done : List (ℕ × ℕ × PMNote)) (ch pr : ℕ)
    (hne : done ≠ [])
    (hkey : ∀ x ∈ done, x.1 = ch ∧ x.2.1 = pr) :
    groupInstruments done =
      [{ program := (pr : ℤ), is_drum := ch = 9, notes := done.map fun x => x.2.2 }] := by
  unfold groupInstruments
  have hmapne : done.map (fun x => (x.1, x.2.1)) ≠ [] := by
    intro h
    exact hne (List.map_eq_nil_iff.mp h)
  have hconst : ∀ y ∈ done.map (fun x => (x.1, x.2.1)), y = (ch, pr) := by
    intro y hy
    obtain ⟨x, hx, rfl⟩ := List.mem_map.mp hy
    obtain ⟨h1, h2⟩ := hkey x hx
    rw [h1, h2]
  rw [dedup_const (ch, pr) _ hmapne hconst, List.map_singleton]
  congr 1
  have hfil : done.filter (fun x => decide (x.1 = ch ∧ x.2.1 = pr)) = done :=
    List.filter_eq_self.mpr fun x hx => by
      simpa using hkey x hx
  simp only []
  rw [hfil]

/-- A flat map of singletons is pointwise related to its source. -/
theorem forall₂_flatMap_singleton {α β : Type} (P : α → β → Prop) :
    ∀ (l : List α) (f : α → List β), (∀ x ∈ l, ∃ y, f x = [y] ∧ P x y) →
      List.Forall₂ P l (l.flatMap f) := by
  intro l
  induction l with
  | nil => intro f _; exact List.Forall₂.nil
  | cons a l ih =>
    intro f h
    obtain ⟨y, hy, hP⟩ := h a (List.mem_cons_self _ _)
    rw [List.flatMap_cons, hy, List.singleton_append]
    exact List.Forall₂.cons hP (ih f fun x hx => h x (List.mem_cons_of_mem _ hx))

/-- Channel assignment marks exactly the drum instruments with channel 9. -/
theorem zip_channelsFor_drum :
    ∀ (insts : List PMInstrument) (k : ℕ),
      ∀ ic ∈ insts.zip (channelsFor k insts), (decide (ic.2 = 9)) = ic.1.is_drum := by
  intro insts
  induction insts with
  | nil => intro k ic hic; cases hic
  | cons i insts ih =>
    intro k ic hic
    rw [channelsFor] at hic
    by_cases hd : i.is_drum
    · rw [if_pos hd] at hic
      rcases List.mem_cons.mp (by exact hic) with rfl | hic
      · simp [DRUM_CHANNEL, hd]
      · exact ih (k) ic hic
    · rw [if_neg hd] at hic
      rcases List.mem_cons.mp (by exact hic) with rfl | hic
      · have hd' : i.is_drum = false := Bool.eq_false_iff.mpr hd
        have h9 := nonDrumChannels_ne_nine k
        rw [List.getD_eq_getElem?_getD] at h9
        simp [h9, hd']
      · exact ih (k + 1) ic hic

/-- Instrument tracks carry no tempo or time-signature meta events. -/
theorem instrumentTrack_no_meta (segs : List (ℚ × ℚ)) (ch : ℕ) (inst : PMInstrument) :
    ∀ e ∈ instrumentTrack segs ch inst,
      (∀ mu, e.2 ≠ MidiEvent.setTempo mu) ∧
      (∀ nn dd, e.2 ≠ MidiEvent.timeSig nn dd) := by
  intro e he
  rw [instrumentTrack] at he
  rcases List.mem_append.mp he with he | he
  · rw [instrumentEvents] at he
    have he' := (List.perm_insertionSort evLE _).subset he
    rcases List.mem_append.mp he' with he2 | he2
    · rw [instPcEvents] at he2
      split_ifs at he2
      · cases he2
      · rcases List.mem_singleton.mp he2 with rfl
        exact ⟨(fun mu h => by cases h), (fun nn dd h => by cases h)⟩
    · rw [instNoteEvents, List.mem_flatMap] at he2
      obtain ⟨n, -, hm⟩ := he2
      rcases List.mem_cons.mp hm with rfl | hm
      · exact ⟨(fun mu h => by cases h), (fun nn dd h => by cases h)⟩
      · rcases List.mem_singleton.mp hm with rfl
        exact ⟨(fun mu h => by cases h), (fun nn dd h => by cases h)⟩
  · rcases List.mem_singleton.mp he with rfl
    exact ⟨(fun mu h => by cases h), (fun nn dd h => by cases h)⟩

/-- With one tempo segment at time 0, the encoded file's merged tempo events
are the single conductor tempo event at tick 0. -/
theorem tempoEventsOf_midiTracks (b : PMBuild) (bpm : ℚ)
    (hsegs : buildTempoSegments b = [(0, bpm)]) :
    tempoEventsOf (midiTracks b) = [(0, muspqOfTempo bpm)] := by
  rw [midiTracks, tempoEventsOf, List.flatMap_cons]
  have hrest : ((b.instruments.zip (channelsFor 0 b.instruments)).map fun ic =>
      instrumentTrack (buildTempoSegments b) ic.2 ic.1).flatMap
      (fun tr => tr.filterMap fun te => match te.2 with
        | .setTempo mu => some (te.1, mu)
        | _ => none) = [] := by
    refine List.flatMap_eq_nil_iff.mpr fun tr htr => ?_
    obtain ⟨ic, -, rfl⟩ := List.mem_map.mp htr
    refine List.filterMap_eq_nil_iff.mpr fun e he => ?_
    have := (instrumentTrack_no_meta _ _ _ e he).1
    rcases e with ⟨t, ev⟩
    cases ev <;> first
      | rfl
      | exact absurd rfl (this _)
  rw [hrest, List.append_nil]
  have hcond : (conductorTrack b).filterMap (fun te => match te.2 with
      | MidiEvent.setTempo mu => some (te.1, mu)
      | _ => none) = [(tickOfSec (buildTempoSegments b) 0, muspqOfTempo bpm)] := by
    rw [conductorTrack, List.filterMap_append]
    have hEOT : (([(lastTickOf (conductorEvents b), MidiEvent.endOfTrack)] :
        List (ℕ × MidiEvent)).filterMap fun te => match te.2 with
        | MidiEvent.setTempo mu => some (te.1, mu)
        | _ => none) = [] := rfl
    rw [hEOT, List.append_nil]
    have hperm := (List.perm_insertionSort evLE
      (condTempoEvents b ++ condTimeSigEvents b)).filterMap
      (fun te => match te.2 with
        | MidiEvent.setTempo mu => some (te.1, mu)
        | _ => none)
    rw [List.filterMap_append] at hperm
    have hts : ((condTimeSigEvents b).filterMap fun te => match te.2 with
        | MidiEvent.setTempo mu => some (te.1, mu)
        | _ => none) = [] := by
      refine List.filterMap_eq_nil_iff.mpr fun e he => ?_
      rw [condTimeSigEvents] at he
      obtain ⟨ts, -, rfl⟩ := List.mem_map.mp he
      rfl
    have htc : ((condTempoEvents b).filterMap fun te => match te.2 with
        | MidiEvent.setTempo mu => some (te.1, mu)
        | _ => none) = [(tickOfSec (buildTempoSegments b) 0, muspqOfTempo bpm)] := by
      rw [condTempoEvents, hsegs]
      rfl
    rw [hts, htc, List.append_nil] at hperm
    rw [conductorEvents]
    exact List.perm_singleton.mp hperm
  rw [hcond, hsegs, tickOfSec_const_zero]

/-- With one tempo segment at time 0, the decoded tempo map is the single
encoded change at tick 0. -/
theorem tempoMapOf_midiTracks (b : PMBuild) (bpm : ℚ)
    (hsegs : buildTempoSegments b = [(0, bpm)]) :
    tempoMapOf (midiTracks b) = [(0, muspqOfTempo bpm)] := by
  rw [tempoMapOf, tempoEventsOf_midiTracks b bpm hsegs]
  rfl

theorem filterMap_all_some {α β : Type} (f : α → Option β) (g : α → β) :
    ∀ l : List α, (∀ x ∈ l, f x = some (g x)) → l.filterMap f = l.map g := by
  intro l
  induction l with
  | nil => intro _; rfl
  | cons a l ih =>
    intro h
    rw [List.filterMap_cons, h a (List.mem_cons_self _ _), List.map_cons,
      ih fun x hx => h x (List.mem_cons_of_mem _ hx)]

/-- The encoded file's merged time-signature events are the conductor's, a
permutation of the caller's list with times mapped to ticks. -/
theorem timeSigEventsOf_midiTracks (b : PMBuild) :
    (timeSigEventsOf (midiTracks b)).Perm
      (b.time_signature_changes.map fun ts =>
        (tickOfSec (buildTempoSegments b) ts.time, ts.numerator.toNat,
          (pow2Log ts.denominator).getD 0)) := by
  rw [midiTracks, timeSigEventsOf, List.flatMap_cons]
  have hrest : ((b.instruments.zip (channelsFor 0 b.instruments)).map fun ic =>
      instrumentTrack (buildTempoSegments b) ic.2 ic.1).flatMap
      (fun tr => tr.filterMap fun te => match te.2 with
        | .timeSig nn dd => some (te.1, nn, dd)
        | _ => none) = [] := by
    refine List.flatMap_eq_nil_iff.mpr fun tr htr => ?_
    obtain ⟨ic, -, rfl⟩ := List.mem_map.mp htr
    refine List.filterMap_eq_nil_iff.mpr fun e he => ?_
    have := (instrumentTrack_no_meta _ _ _ e he).2
    rcases e with ⟨t, ev⟩
    cases ev <;> first
      | rfl
      | exact absurd rfl (this _ _)
  rw [hrest, List.append_nil]
  rw [conductorTrack, List.filterMap_append]
  have hEOT : (([(lastTickOf (conductorEvents b), MidiEvent.endOfTrack)] :
      List (ℕ × MidiEvent)).filterMap fun te => match te.2 with
      | MidiEvent.timeSig nn dd => some (te.1, nn, dd)
      | _ => none) = [] := rfl
  rw [hEOT, List.append_nil, conductorEvents]
  have hperm := (List.perm_insertionSort evLE
    (condTempoEvents b ++ condTimeSigEvents b)).filterMap
    (fun te => match te.2 with
      | MidiEvent.timeSig nn dd => some (te.1, nn, dd)
      | _ => none)
  rw [List.filterMap_append] at hperm
  have htc : ((condTempoEvents b).filterMap fun te => match te.2 with
      | MidiEvent.timeSig nn dd => some (te.1, nn, dd)
      | _ => none) = [] := by
    refine List.filterMap_eq_nil_iff.mpr fun e he => ?_
    rw [condTempoEvents] at he
    obtain ⟨seg, -, rfl⟩ := List.mem_map.mp he
    rfl
  have hts : ((condTimeSigEvents b).filterMap fun te => match te.2 with
      | MidiEvent.timeSig nn dd => some (te.1, nn, dd)
      | _ => none) =
      b.time_signature_changes.map fun ts =>
        (tickOfSec (buildTempoSegments b) ts.time, ts.numerator.toNat,
          (pow2Log ts.denominator).getD 0) := by
    rw [condTimeSigEvents, List.filterMap_map]
    exact filterMap_all_some _ _ _ fun ts _ => rfl
  rw [htc, hts, List.nil_append] at hperm
  exact hperm

/-- Quantization error of the encode/decode time round trip under a single
tempo segment: half a tick's seconds, plus the drift from storing the tempo
as a rounded integer microseconds-per-quarter value. -/
theorem quantSec_err (bpm s : ℚ) (hbpm : 0 < bpm) (hs : 0 ≤ s) :
    |secOfTick 220 [(0, muspqOfTempo bpm)] (tickOfSec [(0, bpm)] s) - s| ≤
      sptOfMuspq 220 (muspqOfTempo bpm) / 2 +
        s * |(muspqOfTempo bpm : ℚ) * bpm - 60000000| / 60000000 := by
  have hrate : 0 ≤ ticksPerSec bpm := by
    rw [ticksPerSec, RESOLUTION]
    positivity
  have hx : 0 ≤ s * ticksPerSec bpm := mul_nonneg hs hrate
  have hspt : 0 ≤ sptOfMuspq 220 (muspqOfTempo bpm) := by
    rw [sptOfMuspq]
    positivity
  rw [secOfTick_single, tickOfSec_const]
  have htick : (((rnd (s * ticksPerSec bpm)).toNat : ℕ) : ℚ) =
      ((rnd (s * ticksPerSec bpm) : ℤ) : ℚ) := by
    exact_mod_cast Int.toNat_of_nonneg (rnd_nonneg hx)
  rw [htick]
  set x := s * ticksPerSec bpm with hxdef
  have h1 : |(rnd x : ℚ) - x| ≤ 1 / 2 := abs_rnd_sub_le x
  have hsplit : (rnd x : ℚ) * sptOfMuspq 220 (muspqOfTempo bpm) - s =
      ((rnd x : ℚ) - x) * sptOfMuspq 220 (muspqOfTempo bpm) +
      (x * sptOfMuspq 220 (muspqOfTempo bpm) - s) := by ring
  rw [hsplit]
  refine le_trans (abs_add _ _) ?_
  have hA : |((rnd x : ℚ) - x) * sptOfMuspq 220 (muspqOfTempo bpm)| ≤
      sptOfMuspq 220 (muspqOfTempo bpm) / 2 := by
    rw [abs_mul, abs_of_nonneg hspt]
    calc |(rnd x : ℚ) - x| * sptOfMuspq 220 (muspqOfTempo bpm) ≤
        (1 / 2) * sptOfMuspq 220 (muspqOfTempo bpm) :=
          mul_le_mul_of_nonneg_right h1 hspt
      _ = sptOfMuspq 220 (muspqOfTempo bpm) / 2 := by ring
  have hB : |x * sptOfMuspq 220 (muspqOfTempo bpm) - s| =
      s * |(muspqOfTempo bpm : ℚ) * bpm - 60000000| / 60000000 := by
    have hxe : x * sptOfMuspq 220 (muspqOfTempo bpm) - s =
        s * (((muspqOfTempo bpm : ℚ) * bpm - 60000000) / 60000000) := by
      rw [hxdef, ticksPerSec, sptOfMuspq, RESOLUTION]
      push_cast
      ring
    rw [hxe, abs_mul, abs_of_nonneg hs, abs_div]
    rw [abs_of_nonneg (by norm_num : (0:ℚ) ≤ 60000000)]
    ring
  rw [hB]
  exact add_le_add hA (le_of_eq rfl)

theorem groupInstruments_nil : groupInstruments [] = [] := rfl

/-- C1 (amended): under a single tempo segment, strictly positive velocities,
per-pitch tick-disjoint notes of at least one tick, and nonempty instruments,
`decode(encode(s))` restores every instrument: program, drum flag, pitch and
velocity exact, the note multiset preserved with start and end quantized
through the tick grid, tempo and time signatures recovered, and the time
quantization error bounded by half a tick plus the tempo-rounding drift. -/
theorem midi_roundtrip_restricted (b : PMBuild) (bpm : ℚ)
    (hsegs : buildTempoSegments b = [(0, bpm)])
    (hbpm : 0 < bpm)
    (hval : validateBuild b = none)
    (hvel1 : ∀ i ∈ b.instruments, ∀ n ∈ i.notes, 1 ≤ n.velocity)
    (hdisj : ∀ i ∈ b.instruments, List.Pairwise (fun n m : PMNote =>
      n.pitch.toNat = m.pitch.toNat →
      tickOfSec [(0, bpm)] n.end_ ≤ tickOfSec [(0, bpm)] m.start ∨
      tickOfSec [(0, bpm)] m.end_ ≤ tickOfSec [(0, bpm)] n.start) i.notes)
    (hlen : ∀ i ∈ b.instruments, ∀ n ∈ i.notes,
      tickOfSec [(0, bpm)] n.start < tickOfSec [(0, bpm)] n.end_)
    (hne : ∀ i ∈ b.instruments, i.notes ≠ []) :
    ∃ bytes pm, writeSMF b = Except.ok bytes ∧ decodeScore bytes = Except.ok pm ∧
      List.Forall₂ (fun (ic : PMInstrument × ℕ) (outI : PMInstrument) =>
        outI.program = ic.1.program ∧ outI.is_drum = ic.1.is_drum ∧
        outI.notes.Perm (ic.1.notes.map fun n =>
          (⟨n.velocity, n.pitch,
            secOfTick 220 [(0, muspqOfTempo bpm)] (tickOfSec [(0, bpm)] n.start),
            secOfTick 220 [(0, muspqOfTempo bpm)] (tickOfSec [(0, bpm)] n.end_)⟩ :
            PMNote)))
        (b.instruments.zip (channelsFor 0 b.instruments)) pm.instruments ∧
      pm.tempo_times = [0] ∧
      pm.tempos = [(60000000 : ℚ) / (muspqOfTempo bpm : ℕ)] ∧
      pm.time_signature_changes.Perm (b.time_signature_changes.map fun ts =>
        { numerator := ts.numerator
          denominator := ts.denominator
          time := secOfTick 220 [(0, muspqOfTempo bpm)]
            (tickOfSec [(0, bpm)] ts.time) }) ∧
      (∀ s : ℚ, 0 ≤ s →
        |secOfTick 220 [(0, muspqOfTempo bpm)] (tickOfSec [(0, bpm)] s) - s| ≤
          sptOfMuspq 220 (muspqOfTempo bpm) / 2 +
            s * |(muspqOfTempo bpm : ℚ) * bpm - 60000000| / 60000000) := by
  obtain ⟨hvtc, hvts, hvinst⟩ := validateBuild_none_checks b hval
  have hw : writeSMF b = .ok (headerChunk (midiTracks b).length ++
      (midiTracks b).flatMap trackChunk) := by
    rw [writeSMF, hval]
  have hparse := writeSMF_parseSMF b _ hw
  have hdec : decodeScore (headerChunk (midiTracks b).length ++
      (midiTracks b).flatMap trackChunk) =
      .ok (scoreOfParsed ⟨1, 220, midiTracks b⟩) := by
    rw [decodeScore, hparse]
    rfl
  have htm : tempoMapOf (midiTracks b) = [(0, muspqOfTempo bpm)] :=
    tempoMapOf_midiTracks b bpm hsegs
  refine ⟨_, _, hw, hdec, ?_, ?_, ?_, ?_, ?_⟩
  · -- instruments
    have hinsts : (scoreOfParsed ⟨1, 220, midiTracks b⟩).instruments =
        (b.instruments.zip (channelsFor 0 b.instruments)).flatMap fun ic =>
          groupInstruments (assembleTrack 220 [(0, muspqOfTempo bpm)]
            (instrumentTrack [(0, bpm)] ic.2 ic.1)) := by
      simp only [scoreOfParsed]
      rw [htm, midiTracks, List.flatMap_cons]
      have hcond : groupInstruments (assembleTrack 220 [(0, muspqOfTempo bpm)]
          (conductorTrack b)) = [] := by
        rw [assembleTrack_no_noteOn (conductorTrack b) (conductorTrack_no_noteOn b)]
        exact groupInstruments_nil
      rw [hcond, List.nil_append, List.flatMap_map, hsegs]
    rw [hinsts]
    refine forall₂_flatMap_singleton _ _ _ fun ic hic => ?_
    obtain ⟨hicL, hicR⟩ := List.mem_zip hic
    have hivalid := List.all_eq_true.mp hvinst ic.1 hicL
    simp only [validInstrument, Bool.and_eq_true, decide_eq_true_eq] at hivalid
    obtain ⟨⟨hpr0, hpr1⟩, hnotes⟩ := hivalid
    have hnvalid : ∀ n ∈ ic.1.notes, 0 ≤ n.pitch ∧ 0 ≤ n.velocity := by
      intro n hn
      have := List.all_eq_true.mp hnotes n hn
      simp only [validNote, Bool.and_eq_true, decide_eq_true_eq] at this
      exact ⟨this.1.1.1.1.1, this.1.1.1.2⟩
    have hvel' : ∀ n ∈ ic.1.notes, n.velocity.toNat ≠ 0 := by
      intro n hn
      have h1 := hvel1 ic.1 hicL n hn
      omega
    have hperm := assembleTrack_instrumentTrack 220 [(0, muspqOfTempo bpm)]
      [(0, bpm)] ic.2 ic.1 hvel' (hdisj ic.1 hicL) (hlen ic.1 hicL)
    have hdone_ne : assembleTrack 220 [(0, muspqOfTempo bpm)]
        (instrumentTrack [(0, bpm)] ic.2 ic.1) ≠ [] := by
      intro h0
      rw [h0] at hperm
      have := hperm.symm.eq_nil
      exact hne ic.1 hicL (List.map_eq_nil_iff.mp this)
    have hkeys : ∀ x ∈ assembleTrack 220 [(0, muspqOfTempo bpm)]
        (instrumentTrack [(0, bpm)] ic.2 ic.1),
        x.1 = ic.2 ∧ x.2.1 = ic.1.program.toNat := by
      intro x hx
      have hx' := hperm.subset hx
      obtain ⟨n, -, rfl⟩ := List.mem_map.mp hx'
      exact ⟨rfl, rfl⟩
    rw [groupInstruments_const _ ic.2 ic.1.program.toNat hdone_ne hkeys]
    refine ⟨_, rfl, ?_, ?_, ?_⟩
    · -- program exact
      simp only []
      exact_mod_cast congrArg (fun z : ℤ => z) (Int.toNat_of_nonneg hpr0)
    · -- drum flag
      simp only []
      have := zip_channelsFor_drum b.instruments 0 ic hic
      simpa using this
    · -- notes
      simp only []
      refine (hperm.map fun x => x.2.2).trans ?_
      rw [List.map_map]
      refine List.Perm.of_eq (List.map_congr_left fun n hn => ?_)
      obtain ⟨hp0, hv0⟩ := hnvalid n hn
      simp only [Function.comp, quantNote]
      congr 1
      · exact Int.toNat_of_nonneg hv0
      · congr 1
        exact Int.toNat_of_nonneg hp0
  · -- tempo times
    simp only [scoreOfParsed]
    rw [htm]
    simp only [List.map_cons, List.map_nil]
    rw [secOfTick_single]
    norm_num
  · -- tempos
    simp only [scoreOfParsed]
    rw [htm]
    rfl
  · -- time signatures
    simp only [scoreOfParsed]
    rw [htm]
    refine ((timeSigEventsOf_midiTracks b).map _).trans ?_
    rw [List.map_map]
    refine List.Perm.of_eq (List.map_congr_left fun ts hts => ?_)
    have htsv := List.all_eq_true.mp hvts ts hts
    simp only [validTimeSig, Bool.and_eq_true, decide_eq_true_eq] at htsv
    obtain ⟨⟨⟨ht0, hn1⟩, hn255⟩, hpow⟩ := htsv
    obtain ⟨k, hk⟩ := Option.isSome_iff_exists.mp hpow
    simp only [Function.comp, hsegs]
    congr 1
    · omega
    · rw [hk]
      simp only [Option.getD_some]
      exact (pow2Log_spec hk).symm
  · -- quantization bound
    exact fun s hs => quantSec_err bpm s hbpm hs

/-- Running the assembler over events whose note-ons all carry velocity 0
(each acting as a note-off) completes no notes. -/
theorem asmRun_no_opening {division : ℕ} {tm : List (ℕ × ℕ)} :
    ∀ (track : List (ℕ × MidiEvent)) (st : AsmState),
      (∀ ch p, st.openNotes ch p = []) →
      (∀ e ∈ track, ∀ ch p v, e.2 = MidiEvent.noteOn ch p v → v = 0) →
      (∀ ch p, (track.foldl (asmStep division tm) st).openNotes ch p = []) ∧
      (track.foldl (asmStep division tm) st).doneNotes = st.doneNotes := by
  intro track
  induction track with
  | nil =>
    intro st hopen _
    exact ⟨hopen, rfl⟩
  | cons hd tl ih =>
    intro st hopen hno
    have hstep : asmStep division tm st hd = st ∨
        (asmStep division tm st hd).openNotes = st.openNotes ∧
        (asmStep division tm st hd).doneNotes = st.doneNotes := by
      rcases hd with ⟨t, ev⟩
      rcases ev with ⟨ch, p, v⟩ | ⟨ch, p⟩ | ⟨ch, pr⟩ | mu | ⟨nn, dd⟩ | _
      · have hv0 : v = 0 := hno (t, .noteOn ch p v) (List.mem_cons_self _ _) ch p v rfl
        subst hv0
        simp only [asmStep, if_pos rfl]
        rw [closeNote_of_empty (hopen ch p)]
        exact Or.inl rfl
      · simp only [asmStep]
        rw [closeNote_of_empty (hopen ch p)]
        exact Or.inl rfl
      · exact Or.inr ⟨rfl, rfl⟩
      · exact Or.inl rfl
      · exact Or.inl rfl
      · exact Or.inl rfl
    simp only [List.foldl_cons]
    have hno2 : ∀ e ∈ tl, ∀ ch p v, e.2 = MidiEvent.noteOn ch p v → v = 0 :=
      fun e he => hno e (List.mem_cons_of_mem _ he)
    rcases hstep with heq | ⟨ho, hd2⟩
    · rw [heq]
      exact ih st hopen hno2
    · have hopen2 : ∀ ch p, (asmStep division tm st hd).openNotes ch p = [] := by
        intro ch p
        rw [ho]
        exact hopen ch p
      obtain ⟨ha, hb⟩ := ih _ hopen2 hno2
      exact ⟨ha, by rw [hb, hd2]⟩

/-- A track whose note-ons all carry velocity 0 assembles to no notes. -/
theorem assembleTrack_no_opening {division : ℕ} {tm : List (ℕ × ℕ)}
    (track : List (ℕ × MidiEvent))
    (hno : ∀ e ∈ track, ∀ ch p v, e.2 = MidiEvent.noteOn ch p v → v = 0) :
    assembleTrack division tm track = [] := by
  unfold assembleTrack
  obtain ⟨hopen, hdone⟩ := asmRun_no_opening track asmInit (fun _ _ => rfl) hno
  rw [asmFlush_empty hopen, hdone]
  rfl

/-- An instrument whose notes all have velocity 0 serializes to a track whose
note-ons all carry velocity 0. -/
theorem instrumentTrack_zero_velocity (segs : List (ℚ × ℚ)) (ch : ℕ)
    (inst : PMInstrument) (hz : ∀ n ∈ inst.notes, n.velocity.toNat = 0) :
    ∀ e ∈ instrumentTrack segs ch inst,
      ∀ c p v, e.2 = MidiEvent.noteOn c p v → v = 0 := by
  intro e he c p v hev
  rw [instrumentTrack] at he
  rcases List.mem_append.mp he with he | he
  · rw [instrumentEvents] at he
    have he' := (List.perm_insertionSort evLE _).subset he
    rcases List.mem_append.mp he' with he2 | he2
    · rw [instPcEvents] at he2
      split_ifs at he2
      · cases he2
      · rcases List.mem_singleton.mp he2 with rfl
        cases hev
    · rw [instNoteEvents, List.mem_flatMap] at he2
      obtain ⟨n, hn, hm⟩ := he2
      rcases List.mem_cons.mp hm with rfl | hm
      · simp only at hev
        injection hev with h1 h2 h3
        rw [← h3]
        exact hz n hn
      · rcases List.mem_singleton.mp hm with rfl
        cases hev
  · rcases List.mem_singleton.mp he with rfl
    cases hev

/-- The counterexample build: one instrument, one §3-valid note of velocity
0, constant tempo. -/
def c1Build : PMBuild := ⟨none, [], [⟨0, false, [⟨0, 60, 0, 1⟩]⟩]⟩

/-- Counterexample to C1 as stated: `c1Build` satisfies every §3 domain
invariant (velocity 0 is inside [0,127]) and carries one note, yet encoding
and decoding it yields a score with no instruments at all — the velocity-0
note-on is read back as a note-off, so the note set is not preserved. -/
theorem midi_roundtrip_velocity_zero_counterexample :
    validateBuild c1Build = none ∧
    (c1Build.instruments.map fun i => i.notes.length) = [1] ∧
    ∃ bytes pm, writeSMF c1Build = Except.ok bytes ∧
      decodeScore bytes = Except.ok pm ∧ pm.instruments = [] := by
  have hval : validateBuild c1Build = none := by
    norm_num [c1Build, validateBuild, midiTracks, conductorTrack,
      conductorEvents, condTempoEvents, condTimeSigEvents, instrumentTrack,
      instrumentEvents, instPcEvents, instNoteEvents,
      buildTempoSegments, tickOfSec, exactTickAux, ticksPerSec,
      muspqOfTempo, rnd, evLE, evPrio, List.insertionSort, List.orderedInsert,
      lastTickOf, channelsFor, nonDrumChannels,
      validNote, validInstrument, validTempoChange, validTimeSig, pow2Log,
      trackTicksOK, trackLenOK, encodeTrackEvents, writeVarLen, encodeEvent,
      RESOLUTION, DRUM_CHANNEL, DEFAULT_PROGRAM]
  refine ⟨hval, rfl, ?_⟩
  have hw : writeSMF c1Build = .ok (headerChunk (midiTracks c1Build).length ++
      (midiTracks c1Build).flatMap trackChunk) := by
    rw [writeSMF, hval]
  have hparse := writeSMF_parseSMF c1Build _ hw
  refine ⟨_, _, hw, by rw [decodeScore, hparse]; rfl, ?_⟩
  simp only [scoreOfParsed]
  set tmv := tempoMapOf (midiTracks c1Build) with htmv
  rw [midiTracks, List.flatMap_cons]
  have hcond : groupInstruments (assembleTrack 220 tmv
      (conductorTrack c1Build)) = [] := by
    rw [assembleTrack_no_noteOn (conductorTrack c1Build)
      (conductorTrack_no_noteOn c1Build)]
    exact groupInstruments_nil
  rw [hcond, List.nil_append]
  refine List.flatMap_eq_nil_iff.mpr fun tr htr => ?_
  obtain ⟨ic, hic, rfl⟩ := List.mem_map.mp htr
  have hiz : ∀ n ∈ ic.1.notes, n.velocity.toNat = 0 := by
    have hicL := (List.mem_zip hic).1
    have : ic.1 = ⟨0, false, [⟨0, 60, 0, 1⟩]⟩ := by
      simpa [c1Build] using hicL
    rw [this]
    intro n hn
    rcases List.mem_singleton.mp hn with rfl
    rfl
  rw [assembleTrack_no_opening _
    (instrumentTrack_zero_velocity (buildTempoSegments c1Build) ic.2 ic.1 hiz)]
  exact groupInstruments_nil

/-- The witness build: one instrument, one audible note, constant tempo. -/
def c1WitnessBuild : PMBuild := ⟨none, [], [⟨0, false, [⟨100, 60, 0, 1⟩]⟩]⟩

theorem c1w_valid : validateBuild c1WitnessBuild = none := by
  norm_num [c1WitnessBuild, validateBuild, midiTracks, conductorTrack,
    conductorEvents, condTempoEvents, condTimeSigEvents, instrumentTrack,
    instrumentEvents, instPcEvents, instNoteEvents,
    buildTempoSegments, tickOfSec, exactTickAux, ticksPerSec,
    muspqOfTempo, rnd, evLE, evPrio, List.insertionSort, List.orderedInsert,
    lastTickOf, channelsFor, nonDrumChannels,
    validNote, validInstrument, validTempoChange, validTimeSig, pow2Log,
    trackTicksOK, trackLenOK, encodeTrackEvents, writeVarLen, encodeEvent,
    RESOLUTION, DRUM_CHANNEL, DEFAULT_PROGRAM]

theorem c1w_tick1 : tickOfSec [(0, (120 : ℚ))] 1 = 440 := by
  rw [tickOfSec_const]
  have h : (1 : ℚ) * ticksPerSec 120 = 440 := by
    rw [ticksPerSec, RESOLUTION]
    norm_num
  rw [h]
  have h2 : rnd 440 = 440 := by
    unfold rnd
    norm_num
  rw [h2]
  rfl

/-- Witness for C1 (amended) at a concrete one-note build at 120 BPM. -/
theorem midi_roundtrip_restricted_witness :
    validateBuild c1WitnessBuild = none ∧
    ∃ bytes pm, writeSMF c1WitnessBuild = Except.ok bytes ∧
      decodeScore bytes = Except.ok pm ∧
      List.Forall₂ (fun (ic : PMInstrument × ℕ) (outI : PMInstrument) =>
        outI.program = ic.1.program ∧ outI.is_drum = ic.1.is_drum ∧
        outI.notes.Perm (ic.1.notes.map fun n =>
          (⟨n.velocity, n.pitch,
            secOfTick 220 [(0, muspqOfTempo 120)] (tickOfSec [(0, (120 : ℚ))] n.start),
            secOfTick 220 [(0, muspqOfTempo 120)] (tickOfSec [(0, (120 : ℚ))] n.end_)⟩ :
            PMNote)))
        (c1WitnessBuild.instruments.zip (channelsFor 0 c1WitnessBuild.instruments))
        pm.instruments ∧
      pm.tempo_times = [0] ∧
      pm.tempos = [(60000000 : ℚ) / (muspqOfTempo 120 : ℕ)] ∧
      pm.time_signature_changes.Perm
        (c1WitnessBuild.time_signature_changes.map fun ts =>
          { numerator := ts.numerator
            denominator := ts.denominator
            time := secOfTick 220 [(0, muspqOfTempo 120)]
              (tickOfSec [(0, (120 : ℚ))] ts.time) }) ∧
      (∀ s : ℚ, 0 ≤ s →
        |secOfTick 220 [(0, muspqOfTempo 120)] (tickOfSec [(0, (120 : ℚ))] s) - s| ≤
          sptOfMuspq 220 (muspqOfTempo 120) / 2 +
            s * |(muspqOfTempo 120 : ℚ) * 120 - 60000000| / 60000000) := by
  refine ⟨c1w_valid, ?_⟩
  refine midi_roundtrip_restricted c1WitnessBuild 120 rfl (by norm_num) c1w_valid
    ?_ ?_ ?_ ?_
  · intro i hi n hn
    rcases List.mem_singleton.mp hi with rfl
    rcases List.mem_singleton.mp hn with rfl
    decide
  · intro i hi
    rcases List.mem_singleton.mp hi with rfl
    simp
  · intro i hi n hn
    rcases List.mem_singleton.mp hi with rfl
    rcases List.mem_singleton.mp hn with rfl
    show tickOfSec [(0, (120 : ℚ))] 0 < tickOfSec [(0, (120 : ℚ))] 1
    rw [tickOfSec_const_zero, c1w_tick1]
    norm_num
  · intro i hi
    rcases List.mem_singleton.mp hi with rfl
    exact List.cons_ne_nil _ _
